import Mathlib

/-!
# ft_printf: the format scanner and directive dispatcher

A shallow embedding of `src/printf/srcs/ft_printf.c` and of the header
`src/printf/incl/ft_printf.h`.

* A byte is a `Nat` (the value of an `unsigned char`).
* The pointer `string` is modelled by the list of bytes lying in memory from the
  pointer onwards, up to the end of the mapped region.  A C string `t` is laid
  out as `t ++ 0 :: junk`, where `junk` is whatever follows the terminating
  NUL.  Reading at a position where no byte is left is a fault (`none`).
* `va_list` is the list of the arguments not yet consumed.  `va_arg(args, T)`
  pops the head when it has type `T` and is a fault otherwise.
* The world the formatters act on is a `Sink`: the bytes written to standard
  output so far and the counter behind `int *length`.  `scan` and `ft_printf`
  follow the count as an integer; `scan_int` and `ft_printf_int` are the same
  loop and call with the counter held in the 32-bit `int`, where a count out of
  range is an overflow.
* The six formatters declared in the header have no body among the sources; the
  dispatcher is parametric in them (`Formatters`).
-/

namespace FtPrintf

/-- One variadic argument, tagged with the C type it was passed at. -/
inductive Arg where
  | int (n : Int)
  | uint (u : Nat)
  | str (s : Option (List Nat))
  | size (p : Nat)
  deriving DecidableEq, Repr

/-- Standard output together with the cell `length` points to.  `length` is
the count the formatters have added up, as an integer; the 32 bits of the
`int` variable enter with `int_range`, `scan_int` and `ft_printf_int`. -/
structure Sink where
  out : List Nat
  length : Int
  deriving DecidableEq, Repr

/-- The prototypes of `ft_printf.h`, lines 30-35, as state transformers:
`int *length` and standard output are the `Sink`. -/
structure Formatters where
  ft_putcharacter_length : Nat → Sink → Sink
  ft_string : Option (List Nat) → Sink → Sink
  ft_number : Int → Sink → Sink
  ft_hexadecimal : Nat → Nat → Sink → Sink
  ft_unsigned_int : Nat → Sink → Sink
  ft_pointer : Nat → Sink → Sink

/-- `va_arg(args, int)`. -/
def va_arg_int : List Arg → Option (Int × List Arg)
  | Arg.int n :: rest => some (n, rest)
  | _ => none

/-- `va_arg(args, char *)`. -/
def va_arg_str : List Arg → Option (Option (List Nat) × List Arg)
  | Arg.str s :: rest => some (s, rest)
  | _ => none

/-- `va_arg(args, unsigned int)`. -/
def va_arg_uint : List Arg → Option (Nat × List Arg)
  | Arg.uint u :: rest => some (u, rest)
  | _ => none

/-- `va_arg(args, size_t)`. -/
def va_arg_size : List Arg → Option (Nat × List Arg)
  | Arg.size p :: rest => some (p, rest)
  | _ => none

/-- Conversion of an `int` to the `char` parameter of
`ft_putcharacter_length`, as a byte value. -/
def int_to_char (n : Int) : Nat := (n % 256).toNat

/-- The `if / else if` chain of `ft_printf.c`, lines 27-40, run on the code
byte `c` that follows a `%`.  When no branch matches nothing happens. -/
def dispatch (F : Formatters) (c : Nat) (args : List Arg) (s : Sink) :
    Option (Sink × List Arg) :=
  if c = 99 then -- 'c'
    (va_arg_int args).map fun r => (F.ft_putcharacter_length (int_to_char r.1) s, r.2)
  else if c = 115 then -- 's'
    (va_arg_str args).map fun r => (F.ft_string r.1 s, r.2)
  else if c = 100 ∨ c = 105 then -- 'd', 'i'
    (va_arg_int args).map fun r => (F.ft_number r.1 s, r.2)
  else if c = 117 then -- 'u'
    (va_arg_uint args).map fun r => (F.ft_unsigned_int r.1 s, r.2)
  else if c = 120 ∨ c = 88 then -- 'x', 'X'
    (va_arg_uint args).map fun r => (F.ft_hexadecimal r.1 c s, r.2)
  else if c = 112 then -- 'p'
    (va_arg_size args).map fun r => (F.ft_pointer r.1 s, r.2)
  else if c = 37 then -- '%'
    some (F.ft_putcharacter_length 37 s, args)
  else
    some (s, args)

/-- The `while (*string)` loop of `ft_printf.c`, lines 22-45.  The first
argument is the memory from `string` onwards. -/
def scan (F : Formatters) : List Nat → List Arg → Sink → Option (Sink × List Arg)
  | [], _, _ => none
  | b :: rest, args, s =>
    if b = 0 then some (s, args)
    else if b = 37 then
      match rest with
      | [] => none
      | c :: rest' =>
        match dispatch F c args s with
        | none => none
        | some r => scan F rest' r.2 r.1
    else scan F rest args (F.ft_putcharacter_length b s)

/-- `ft_printf`: `length = 0`, the loop, `return (length)`.  The result is the
returned integer together with the bytes written to standard output. -/
def ft_printf (F : Formatters) (string : List Nat) (args : List Arg) : Option (Int × List Nat) :=
  (scan F string args ⟨[], 0⟩).map fun r => (r.1.length, r.1.out)

/-! ## Vocabulary for stating properties of templates -/

/-- A C string holds no NUL byte before its terminator. -/
def no_nul (t : List Nat) : Prop := ∀ b ∈ t, b ≠ 0

instance (t : List Nat) : Decidable (no_nul t) := by
  unfold no_nul; infer_instance

/-- The template ends in a `%` that is not the second byte of a pair: reading
from the left, a `%` takes the byte after it as its code byte, and here the
last `%` finds none. -/
def ends_lone : List Nat → Bool
  | [] => false
  | [b] => decide (b = 37)
  | b :: c :: rest => if b = 37 then ends_lone rest else ends_lone (c :: rest)

/-- The code bytes that take an argument: `c s d i u x X p`. -/
def recognized (c : Nat) : Bool :=
  decide (c = 99 ∨ c = 115 ∨ c = 100 ∨ c = 105 ∨ c = 117 ∨ c = 120 ∨ c = 88 ∨ c = 112)

/-- The code bytes of the recognized directive occurrences of a template, in
template order. -/
def directives : List Nat → List Nat
  | [] => []
  | [_] => []
  | b :: c :: rest =>
    if b = 37 then (if recognized c then c :: directives rest else directives rest)
    else directives (c :: rest)

/-- The argument `a` has the C type the directive with code `c` reads. -/
def accepts (c : Nat) : Arg → Bool
  | Arg.int _ => decide (c = 99 ∨ c = 100 ∨ c = 105)
  | Arg.str _ => decide (c = 115)
  | Arg.uint _ => decide (c = 117 ∨ c = 120 ∨ c = 88)
  | Arg.size _ => decide (c = 112)

/-- The arguments supply, in order, a value of the right type for each
directive code; further arguments may follow. -/
def kinds_match : List Nat → List Arg → Bool
  | [], _ => true
  | _ :: _, [] => false
  | c :: cs, a :: as => accepts c a && kinds_match cs as

/-- A formatter step counts what it writes: it appends some bytes to standard
output and adds their number to the counter. -/
def counts (f : Sink → Sink) : Prop :=
  ∀ s : Sink, ∃ bytes : List Nat, f s = ⟨s.out ++ bytes, s.length + bytes.length⟩

/-- Every formatter of the set counts what it writes, whatever its argument. -/
structure Formatters.Counting (F : Formatters) : Prop where
  putcharacter : ∀ c, counts (F.ft_putcharacter_length c)
  string : ∀ a, counts (F.ft_string a)
  number : ∀ n, counts (F.ft_number n)
  hexadecimal : ∀ x k, counts (F.ft_hexadecimal x k)
  unsigned : ∀ u, counts (F.ft_unsigned_int u)
  pointer : ∀ p, counts (F.ft_pointer p)

/-- The model of `ft_putcharacter_length` the dispatcher properties are stated
against: write the byte, add 1 to the counter. -/
def writes_one (F : Formatters) : Prop :=
  ∀ (c : Nat) (s : Sink), F.ft_putcharacter_length c s = ⟨s.out ++ [c], s.length + 1⟩

/-- The formatter call the dispatcher makes for the code byte `c` on an argument
of the type that code reads (the branches of `dispatch`, by argument type). -/
def format_arg (F : Formatters) (c : Nat) : Arg → Sink → Sink
  | Arg.int n => if c = 99 then F.ft_putcharacter_length (int_to_char n) else F.ft_number n
  | Arg.str a => F.ft_string a
  | Arg.uint u => if c = 117 then F.ft_unsigned_int u else F.ft_hexadecimal u c
  | Arg.size p => F.ft_pointer p

/-! ## The formatters, whose bodies are not among the sources -/

/-- What the build and the absent formatter bodies leave open: whether
`__APPLE__` is defined, the text `ft_string` writes for a null pointer
(possibly none), and the marker `ft_pointer` writes before a non-null
address. -/
structure Build where
  apple : Bool
  null_string : List Nat
  marker : List Nat

/-- `PTR_NULL` of `ft_printf.h`, lines 16-20: `"0x0"` under `__APPLE__`,
`"(nil)"` otherwise. -/
def PTR_NULL (apple : Bool) : List Nat :=
  if apple then [48, 120, 48] else [40, 110, 105, 108, 41]

/-- Write `bytes` to standard output and add their number to the counter. -/
def emit (bytes : List Nat) (s : Sink) : Sink :=
  ⟨s.out ++ bytes, s.length + bytes.length⟩

/-- Digits of `n` in base `base`, most significant first, by repeated
division; `fuel` bounds the number of divisions. -/
def digits_be (base : Nat) : Nat → Nat → List Nat
  | 0, _ => []
  | fuel + 1, n => if n < base then [n] else digits_be base fuel (n / base) ++ [n % base]

/-- The number a digit string denotes, most significant digit first. -/
def value (base : Nat) (ds : List Nat) : Nat :=
  ds.foldl (fun acc d => acc * base + d) 0

/-- The character of a decimal digit. -/
def decimal_char (d : Nat) : Nat := d + 48

/-- The character of a hexadecimal digit, `a-f` or `A-F` above 9. -/
def hex_char (upper : Bool) (d : Nat) : Nat :=
  if d < 10 then d + 48 else if upper then d + 55 else d + 87

/-- Decimal text of a natural number. -/
def decimal_text (n : Nat) : List Nat := (digits_be 10 (n + 1) n).map decimal_char

/-- Hexadecimal text of a natural number. -/
def hex_text (upper : Bool) (n : Nat) : List Nat := (digits_be 16 (n + 1) n).map (hex_char upper)

/-- The sign written before the digits: `-` for a negative number, nothing
otherwise. -/
def sign_text (n : Int) : List Nat := if n < 0 then [45] else []

/-- Modelled from the spec: the body of `ft_putcharacter_length`, absent from
the sources ("write it to the Output Sink and add 1 to the Length
Accumulator"; `c`: "writes exactly 1 byte"). -/
def ft_putcharacter_length (character : Nat) (s : Sink) : Sink :=
  ⟨s.out ++ [character], s.length + 1⟩

/-- Modelled from the spec: the body of `ft_string`, absent from the sources
("identity copy of referenced text"); the text for a null pointer is the one
the build fixes. -/
def ft_string (b : Build) (args : Option (List Nat)) (s : Sink) : Sink :=
  match args with
  | some text => emit text s
  | none => emit b.null_string s

/-- Modelled from the spec: the body of `ft_number`, absent from the sources
("decimal text, with leading `-` for negative values", "base 10, no leading
zeros"). -/
def ft_number (number : Int) (s : Sink) : Sink :=
  emit (sign_text number ++ decimal_text number.natAbs) s

/-- Modelled from the spec: the body of `ft_unsigned_int`, absent from the
sources ("decimal text", "base 10, no sign symbol"). -/
def ft_unsigned_int (u : Nat) (s : Sink) : Sink :=
  emit (decimal_text u) s

/-- Modelled from the spec: the body of `ft_hexadecimal`, absent from the
sources ("lowercase hexadecimal text", "no `0x` prefix, no leading zeros";
`X`: "same as `x` with uppercase digits"). -/
def ft_hexadecimal (x : Nat) (x_or_x : Nat) (s : Sink) : Sink :=
  emit (hex_text (decide (x_or_x = 88)) x) s

/-- Modelled from the spec: the body of `ft_pointer`, absent from the sources
("a null address renders as a fixed sentinel string", "non-null addresses
render as hexadecimal digits with a leading address marker"). -/
def ft_pointer (b : Build) (pointer : Nat) (s : Sink) : Sink :=
  if pointer = 0 then emit (PTR_NULL b.apple) s
  else emit (b.marker ++ hex_text false pointer) s

/-- The formatter set of a build. -/
def formatters (b : Build) : Formatters where
  ft_putcharacter_length := ft_putcharacter_length
  ft_string := ft_string b
  ft_number := ft_number
  ft_hexadecimal := ft_hexadecimal
  ft_unsigned_int := ft_unsigned_int
  ft_pointer := ft_pointer b

/-- A build outside Apple that writes `(null)` for a null string and `0x`
before an address. -/
def linux_build : Build := ⟨false, [40, 110, 117, 108, 108, 41], [48, 120]⟩

/-! ## Calls in sequence, and the loop one iteration at a time -/

/-- Every formatter of the set, whatever its argument, satisfies `P`. -/
structure Formatters.Each (P : (Sink → Sink) → Prop) (F : Formatters) : Prop where
  putcharacter : ∀ c, P (F.ft_putcharacter_length c)
  string : ∀ a, P (F.ft_string a)
  number : ∀ n, P (F.ft_number n)
  hexadecimal : ∀ x k, P (F.ft_hexadecimal x k)
  unsigned : ∀ u, P (F.ft_unsigned_int u)
  pointer : ∀ p, P (F.ft_pointer p)

/-- A formatter step treats standard output as write-only: the bytes it
appends and the counter it leaves do not depend on what the stream already
holds. -/
def write_only (f : Sink → Sink) : Prop :=
  ∀ (out : List Nat) (n : Int),
    f ⟨out, n⟩ = ⟨out ++ (f ⟨[], n⟩).out, (f ⟨[], n⟩).length⟩

/-- A formatter step is a pure text producer: it appends a text fixed by the
call's argument alone and adds the length of that text to the counter. -/
def pure_text (f : Sink → Sink) : Prop :=
  ∃ text : List Nat, ∀ s : Sink, f s = ⟨s.out ++ text, s.length + text.length⟩

/-- A call of `ft_printf` made when standard output already holds `stdout`
(what earlier calls wrote): `length = 0`, the loop, `return (length)`.  The
result is the returned integer and the content of standard output after the
call. -/
def ft_printf_on (F : Formatters) (stdout : List Nat) (string : List Nat) (args : List Arg) :
    Option (Int × List Nat) :=
  (scan F string args ⟨stdout, 0⟩).map fun r => (r.1.length, r.1.out)

/-- The state of the loop at the test of its condition: the memory from
`string` onwards, the arguments not yet consumed, the sink. -/
structure Config where
  string : List Nat
  args : List Arg
  sink : Sink

/-- The outcome of one test of `while (*string)` followed, when it holds, by
one run of the loop body. -/
inductive Step where
  | exit
  | fault
  | next (c : Config)

/-- One iteration of the loop of `ft_printf.c`, lines 22-45. -/
def step (F : Formatters) (c : Config) : Step :=
  match c.string with
  | [] => Step.fault
  | b :: rest =>
    if b = 0 then Step.exit
    else if b = 37 then
      match rest with
      | [] => Step.fault
      | k :: rest' =>
        match dispatch F k c.args c.sink with
        | none => Step.fault
        | some r => Step.next ⟨rest', r.2, r.1⟩
    else Step.next ⟨rest, c.args, F.ft_putcharacter_length b c.sink⟩

/-- The state after `n` iterations of the loop, when it runs that many. -/
def iter (F : Formatters) : Nat → Config → Option Config
  | 0, c => some c
  | n + 1, c =>
    match step F c with
    | Step.next c1 => iter F n c1
    | _ => none

/-- The state at loop entry: `length = 0`, `va_start`, nothing written. -/
def entry (string : List Nat) (args : List Arg) : Config :=
  ⟨string, args, ⟨[], 0⟩⟩

/-- The pieces of a template the loop takes one per iteration: a literal
byte alone, a `%` together with the byte after it. -/
def chunks : List Nat → List (List Nat)
  | [] => []
  | [b] => [[b]]
  | b :: c :: rest => if b = 37 then [37, c] :: chunks rest else [b] :: chunks (c :: rest)

/-! ## The counter in the `int` variable -/

/-- The values of an `int`, 32 bits wide: from `INT_MIN` to `INT_MAX`. -/
def int_range (z : Int) : Prop := -2147483648 ≤ z ∧ z ≤ 2147483647

instance (z : Int) : Decidable (int_range z) := by
  unfold int_range; infer_instance

/-- The `while (*string)` loop of `ft_printf.c`, lines 22-45, with `length`
the `int` declared at line 17.  Each formatter call works on the cell through
`int *length`; a call that takes the count out of the range of `int` is an
overflow of a signed integer, after which the run has no defined result
(`none`). -/
def scan_int (F : Formatters) : List Nat → List Arg → Sink → Option (Sink × List Arg)
  | [], _, _ => none
  | b :: rest, args, s =>
    if b = 0 then some (s, args)
    else if b = 37 then
      match rest with
      | [] => none
      | c :: rest' =>
        match dispatch F c args s with
        | none => none
        | some r => if int_range r.1.length then scan_int F rest' r.2 r.1 else none
    else
      if int_range (F.ft_putcharacter_length b s).length then
        scan_int F rest args (F.ft_putcharacter_length b s)
      else none

/-- `ft_printf` with `length` an `int`: `length = 0`, the loop,
`return (length)`.  The result is the `int` returned together with the bytes
written to standard output. -/
def ft_printf_int (F : Formatters) (string : List Nat) (args : List Arg) :
    Option (Int × List Nat) :=
  (scan_int F string args ⟨[], 0⟩).map fun r => (r.1.length, r.1.out)

end FtPrintf

/-!
# libft: the string and memory primitives

Shallow embeddings of the three copies of libft (`src/libft`,
`src/printf/libft`, `src/pushswap/libft`).

* A pointer to a string or buffer is modelled by the list of bytes lying in
  memory from the pointer onwards, up to the end of the object; `p + n` is
  `List.drop n`.  A read or write at an index where no byte is left is a
  fault (`none`).
* `size_t` is 64 bits wide, `int` and `unsigned int` 32 bits; conversions
  between them are written out.
-/

namespace Libft

/-- Conversion of a `size_t` value to `int`: reduction modulo `2^32` into the
signed range. -/
def int_of_size (n : Nat) : Int :=
  ((n + 2147483648) % 4294967296 : Nat) - 2147483648

/-- Conversion of an `int` to `size_t`: reduction modulo `2^64`. -/
def size_of_int (z : Int) : Nat := (z % 18446744073709551616).toNat

/-- Conversion of an `int` to `unsigned int`: reduction modulo `2^32`. -/
def uint_of_int (z : Int) : Nat := (z % 4294967296).toNat

/-- The value of a byte read through a `char`: signed or unsigned as the
platform has it. -/
def char_value (signed_char : Bool) (b : Nat) : Int :=
  if signed_char && decide (128 ≤ b) then (b : Int) - 256 else (b : Int)

/-- Modelled from the spec: `ft_strlen`, declared in `libft.h` line 39, whose
body is not among the sources ("measure length"): the number of bytes before
the first NUL. -/
def ft_strlen : List Nat → Option Nat
  | [] => none
  | b :: rest => if b = 0 then some 0 else (ft_strlen rest).map (· + 1)

/-- A store `p[i] = v`. -/
def write (p : List Nat) (i v : Nat) : Option (List Nat) :=
  if i < p.length then some (p.set i v) else none

/-- `t_list` of `libft.h`, lines 61-65, in a heap of nodes: `content` and
`next`, a pointer being NULL (`none`) or the index of a node. -/
structure t_list where
  content : Nat
  next : Option Nat
  deriving DecidableEq, Repr

/-- `SIZE_MAX` for a 64-bit `size_t`. -/
def SIZE_MAX : Nat := 18446744073709551615

/-- The result of an `int` operation read modulo `2^32`, in two's
complement. -/
def wrap_int (z : Int) : Int := (z + 2147483648) % 4294967296 - 2147483648

/-- Every element is the value of a byte. -/
def is_bytes (l : List Nat) : Prop := ∀ b ∈ l, b < 256

instance (l : List Nat) : Decidable (is_bytes l) := by
  unfold is_bytes; infer_instance

namespace Pushswap

/-- `ft_strncmp` of `src/pushswap/libft/ft_strncmp.c`: in each round `s1[i]`
is read, then `s2[i]` when `s1[i]` is NUL, then `i < a` is tested, then the
two bytes are compared.  The recursion is on `s1 + i`, with `a - i` left. -/
def ft_strncmp (signed_char : Bool) : List Nat → List Nat → Nat → Option Int
  | [], _, _ => none
  | x :: s1, s2, a =>
    match s2 with
    | [] => if x = 0 then none else if a = 0 then some 0 else none
    | y :: s2 =>
      if x = 0 ∧ y = 0 then some 0
      else if a = 0 then some 0
      else if x ≠ y then some (char_value signed_char x - char_value signed_char y)
      else ft_strncmp signed_char s1 s2 (a - 1)

/-- The two branches of `ft_memmove`, `src/pushswap/libft/ft_memmove.c` lines
12-13: `while (a--) dst[a] = src[a];` on a flat memory, `dst` and `src` being
offsets into it. -/
def copy_down (dst src : Nat) : Nat → List Nat → Option (List Nat)
  | 0, mem => some mem
  | a + 1, mem =>
    match mem[src + a]? with
    | none => none
    | some v => (write mem (dst + a) v).bind (copy_down dst src a)

/-- Lines 17-21: `while (a--) { dst[i] = src[i]; i++; }`. -/
def copy_up (dst src : Nat) : Nat → Nat → List Nat → Option (List Nat)
  | 0, _, mem => some mem
  | a + 1, i, mem =>
    match mem[src + i]? with
    | none => none
    | some v => (write mem (dst + i) v).bind (copy_up dst src a (i + 1))

/-- `ft_memmove` of `src/pushswap/libft/ft_memmove.c` on a flat memory: a
pointer is NULL (`none`) or an offset.  The result is the memory after the call
and the pointer returned. -/
def ft_memmove (mem : List Nat) (dst src : Option Nat) (a : Nat) :
    Option (List Nat × Option Nat) :=
  match dst, src with
  | none, none => some (mem, none)
  | some d, some s =>
    if d > s then (copy_down d s a mem).map fun m => (m, some d)
    else (copy_up d s a 0 mem).map fun m => (m, some d)
  | _, _ => if a = 0 then some (mem, dst) else none

/-- `ft_strchr` of `src/pushswap/libft/ft_strchr.c`: NULL (`none`) or the index
in `str` of the pointer returned.  `(char)c` is the byte `c mod 256`. -/
def ft_strchr : List Nat → Int → Option (Option Nat)
  | [], _ => none
  | x :: rest, c =>
    if x ≠ (c % 256).toNat then
      if x = 0 then some none
      else (ft_strchr rest c).map (Option.map (· + 1))
    else some (some 0)

/-- `ft_strdup` of `src/pushswap/libft/ft_strdup.c`: the cells of the block
returned, `none` for a cell never written.  `j` is an `int`; the result of
`malloc` is not tested, so a failed allocation is a store through NULL. -/
def ft_strdup (room : Bool) (s : List Nat) : Option (List (Option Nat)) :=
  match ft_strlen s with
  | none => none
  | some n =>
    if room = false then none
    else if int_of_size n < 0 then
      (if size_of_int (int_of_size n + 1) = 0 then none
       else some (some 0 :: List.replicate (size_of_int (int_of_size n + 1) - 1) none))
    else some ((s.take (int_of_size n).toNat).map some ++ [some 0])

/-- `ft_substr` of `src/pushswap/libft/ft_substr.c`, lines 15-29: NULL, or the
cells of the block returned, `none` for a cell never written.  `room` tells
whether `malloc` succeeds. -/
def ft_substr (room : Bool) (s : Option (List Nat)) (start len : Nat) :
    Option (Option (List (Option Nat))) :=
  match s with
  | none => some none
  | some mem =>
    match ft_strlen mem with
    | none => none
    | some n =>
      match ft_strlen (mem.drop start) with
      | none => none
      | some n2 =>
        if room then
          some (some (List.replicate
            ((if n2 < (if n < start then 0 else len) then n2
              else (if n < start then 0 else len)) + 1) none))
        else some none

/-- The first loop of `ft_strtrim`, line 27: the number of times `i++` runs; the
list is `s1 + i`.  `i` is an `int`: stepping past `INT_MAX` is a fault. -/
def trim_front (signed_char : Bool) (set : List Nat) : List Nat → Option Nat
  | [] => none
  | x :: rest =>
    if x = 0 then some 0
    else
      match ft_strchr set (char_value signed_char x) with
      | none => none
      | some none => some 0
      | some (some _) =>
        (trim_front signed_char set rest).bind fun k =>
          if k + 1 < 2147483648 then some (k + 1) else none

/-- The second loop of `ft_strtrim`, lines 29-30, entered with `s1[i]` not NUL
and `j` not negative: the value of `j` at the exit.  A read of `s1[-1]` is a
fault. -/
def trim_back (signed_char : Bool) (set s1 : List Nat) : Nat → Option Int
  | 0 =>
    match s1[0]? with
    | none => none
    | some x =>
      match ft_strchr set (char_value signed_char x) with
      | none => none
      | some none => some 0
      | some (some _) => none
  | j + 1 =>
    match s1[j + 1]? with
    | none => none
    | some x =>
      match ft_strchr set (char_value signed_char x) with
      | none => none
      | some none => some ((j : Int) + 1)
      | some (some _) => trim_back signed_char set s1 j

/-- `ft_strtrim` of `src/pushswap/libft/ft_strtrim.c`, lines 15-33, up to the
call of `ft_substr`: the values of `i` and `j` after the two loops. -/
def trim_bounds (signed_char : Bool) (s1 set : List Nat) : Option (Nat × Int) :=
  match ft_strlen s1 with
  | none => none
  | some n =>
    match trim_front signed_char set s1 with
    | none => none
    | some i =>
      match s1[i]? with
      | none => none
      | some x =>
        if x = 0 then some (i, int_of_size ((n + 18446744073709551615) % 18446744073709551616))
        else if int_of_size ((n + 18446744073709551615) % 18446744073709551616) < 0 then none
        else
          (trim_back signed_char set s1
            (int_of_size ((n + 18446744073709551615) % 18446744073709551616)).toNat).map
            fun j => (i, j)

/-- `ft_strtrim` of `src/pushswap/libft/ft_strtrim.c`, lines 15-33.  The length
handed to `ft_substr` is `(j - 1) + 1`, converted to `size_t`. -/
def ft_strtrim (signed_char room : Bool) (s1 set : Option (List Nat)) :
    Option (Option (List (Option Nat))) :=
  match s1 with
  | none => some none
  | some m1 =>
    match set with
    | none => (ft_strdup room m1).map some
    | some ms =>
      match trim_bounds signed_char m1 ms with
      | none => none
      | some r => ft_substr room (some m1) r.1 (size_of_int ((r.2 - 1) + 1))

/-- `ft_memcmp` of `src/pushswap/libft/ft_memcmp.c`, lines 15-31: both bytes are
read through `unsigned char`. -/
def ft_memcmp : List Nat → List Nat → Nat → Option Int
  | _, _, 0 => some 0
  | [], _, _ + 1 => none
  | _ :: _, [], _ + 1 => none
  | x :: s1, y :: s2, a + 1 =>
    if x > y ∨ x < y then some ((x : Int) - (y : Int)) else ft_memcmp s1 s2 a

/-- The loop of `ft_strrchr`, lines 24-29, entered with `len` not negative:
NULL or the offset of the pointer returned. -/
def strrchr_loop (tmp : List Nat) (c : Nat) : Nat → Option (Option Int)
  | 0 =>
    match tmp[0]? with
    | none => none
    | some x => if x = c then some (some 0) else some none
  | len + 1 =>
    match tmp[len + 1]? with
    | none => none
    | some x => if x = c then some (some ((len : Int) + 1)) else strrchr_loop tmp c len

/-- `ft_strrchr` of `src/pushswap/libft/ft_strrchr.c`, lines 15-31: NULL or the
offset from `str` of the pointer returned.  `len` is an `int`; `(char)a` is
the byte `a mod 256`. -/
def ft_strrchr (str : List Nat) (a : Int) : Option (Option Int) :=
  match ft_strlen str with
  | none => none
  | some n =>
    if a = 0 then some (some (int_of_size n))
    else if int_of_size n < 0 then some none
    else strrchr_loop str (a % 256).toNat (int_of_size n).toNat

/-- The first loop of `ft_atoi`, line 24; the list is `str + i`.  `i` is an
`int`: once `i++` has passed `INT_MAX` the read of `str[i]` is outside the
string. -/
def skip_space : List Nat → Nat → Option (List Nat × Nat)
  | [], _ => none
  | x :: rest, i =>
    if x = 32 ∨ (9 ≤ x ∧ x ≤ 13) then
      (if i + 1 < 2147483648 then skip_space rest (i + 1) else none)
    else some (x :: rest, i)

/-- The second loop of `ft_atoi`, lines 33-40; the list is `str + i`.  Each
`int` operation of `base * 10 + str[i] - '0'` is read modulo `2^32`. -/
def atoi_digits : List Nat → Int → Nat → Option Int
  | [], _, _ => none
  | x :: rest, base, i =>
    if x = 0 then some base
    else if 48 ≤ x ∧ x ≤ 57 then
      (if i + 1 < 2147483648 then
        atoi_digits rest (wrap_int (wrap_int (wrap_int (base * 10) + (x : Int)) - 48)) (i + 1)
      else none)
    else some base

/-- `ft_atoi` of `src/pushswap/libft/ft_atoi.c`, lines 15-42. -/
def ft_atoi (str : List Nat) : Option Int :=
  match skip_space str 0 with
  | none => none
  | some ([], _) => none
  | some (x :: rest, i) =>
    if x = 45 then
      (if i + 1 < 2147483648 then (atoi_digits rest 0 (i + 1)).map fun b => wrap_int (-1 * b)
      else none)
    else if x = 43 then
      (if i + 1 < 2147483648 then (atoi_digits rest 0 (i + 1)).map fun b => wrap_int (1 * b)
      else none)
    else (atoi_digits (x :: rest) 0 i).map fun b => wrap_int (1 * b)

end Pushswap

namespace Src

/-- `ft_check` of `src/libft/ft_strtrim.c`, lines 15-24. -/
def ft_check (c : Nat) : List Nat → Option Bool
  | [] => none
  | x :: rest => if x = 0 then some false else if c = x then some true else ft_check c rest

/-- The loop of line 38: the number of times `start++` runs; the list is
`s1 + start`. -/
def skip_front (set : List Nat) : List Nat → Option Nat
  | [] => none
  | x :: rest =>
    if x = 0 then some 0
    else
      match ft_check x set with
      | none => none
      | some true => (skip_front set rest).map (· + 1)
      | some false => some 0

/-- The loop of line 40, on `end`: its value at the exit. -/
def skip_back (s1 set : List Nat) (start : Nat) : Nat → Option Nat
  | 0 => some 0
  | e + 1 =>
    if e + 1 > start then
      match s1[e]? with
      | none => none
      | some x =>
        match ft_check x set with
        | none => none
        | some true => skip_back s1 set start e
        | some false => some (e + 1)
    else some (e + 1)

/-- The loop of lines 46-50, run `end - start` times: `res[index++] = *s1++`;
the list is the moving `s1`.  The result is `res` and `index`. -/
def copy_loop : Nat → List Nat → List (Option Nat) → Nat → Option (List (Option Nat) × Nat)
  | 0, _, res, index => some (res, index)
  | _ + 1, [], _, _ => none
  | n + 1, x :: rest, res, index =>
    if index < res.length then copy_loop n rest (res.set index (some x)) (index + 1)
    else none

/-- `ft_strtrim` of `src/libft/ft_strtrim.c`, lines 26-53: NULL, or the cells
of the block returned, `none` for a cell never written.  `room` tells whether
`malloc` succeeds. -/
def ft_strtrim (room : Bool) (s1 set : Option (List Nat)) :
    Option (Option (List (Option Nat))) :=
  match s1, set with
  | some m1, some ms =>
    match ft_strlen m1 with
    | none => none
    | some n =>
      match skip_front ms m1 with
      | none => none
      | some start =>
        match skip_back m1 ms start n with
        | none => none
        | some e =>
          if room then
            match copy_loop (e - start) (m1.drop start)
                (List.replicate (e - start + 1) none) 0 with
            | none => none
            | some r =>
              if r.2 < r.1.length then some (some (r.1.set r.2 (some 0))) else none
          else some none
  | _, _ => some none

/-- `ft_lstadd_front` of `src/libft/ft_lstadd_front.c`, lines 15-26: the heap and
the head `*lst` after the call. -/
def ft_lstadd_front (heap : List t_list) (lst new : Option Nat) :
    Option (List t_list × Option Nat) :=
  match new with
  | none => some (heap, lst)
  | some n =>
    match lst with
    | none => some (heap, some n)
    | some h =>
      match heap[n]? with
      | none => none
      | some node => some (heap.set n { node with next := some h }, some n)

end Src

namespace Printf

/-- `ft_memmove` of `src/printf/libft/ft_memmove.c`, lines 15-36: the same
statements as the pushswap copy. -/
def ft_memmove (mem : List Nat) (dst src : Option Nat) (a : Nat) :
    Option (List Nat × Option Nat) :=
  match dst, src with
  | none, none => some (mem, none)
  | some d, some s =>
    if d > s then (Pushswap.copy_down d s a mem).map fun m => (m, some d)
    else (Pushswap.copy_up d s a 0 mem).map fun m => (m, some d)
  | _, _ => if a = 0 then some (mem, dst) else none

/-- The loop of `ft_strlcpy`, lines 24-28: `while ((siz - 1) > i && src[i] != 0)
{ dst[i] = src[i]; i++; }`; the first list is `src + i`.  The result is `dst`
and `i` at the exit. -/
def strlcpy_loop (siz : Nat) : List Nat → List Nat → Nat → Option (List Nat × Nat)
  | src, dst, i =>
    if siz - 1 > i then
      match src with
      | [] => none
      | x :: rest =>
        if x ≠ 0 then
          match write dst i x with
          | none => none
          | some d => strlcpy_loop siz rest d (i + 1)
        else some (dst, i)
    else some (dst, i)

/-- `ft_strlcpy` of `src/printf/libft/ft_strlcpy.c`: the value returned and
`dst` after the call. -/
def ft_strlcpy (dst src : List Nat) (siz : Nat) : Option (Nat × List Nat) :=
  match ft_strlen src with
  | none => none
  | some len_src =>
    if siz = 0 then some (len_src, dst)
    else
      match strlcpy_loop siz src dst 0 with
      | none => none
      | some r => (write r.1 r.2 0).map fun d => (len_src, d)

/-- The loop of `ft_strnstr`, lines 30-35; the first list is `b + i`.  The
result is NULL (`none`) or the index `i` of the pointer `b + i` returned. -/
def strnstr_loop (signed_char : Bool) (l : List Nat) (length : Int) (len : Nat) :
    List Nat → Nat → Option (Option Nat)
  | [], _ => none
  | x :: rest, i =>
    if x ≠ 0 ∧ (i + size_of_int length) % 18446744073709551616 ≤ len then
      match Pushswap.ft_strncmp signed_char (x :: rest) l (size_of_int length) with
      | none => none
      | some r => if r = 0 then some (some i) else strnstr_loop signed_char l length len rest (i + 1)
    else some none

/-- `ft_strnstr` of `src/printf/libft/ft_strnstr.c`, with `ft_strncmp` of
`src/pushswap/libft/ft_strncmp.c`: NULL or the index in `big` of the pointer
returned. -/
def ft_strnstr (signed_char : Bool) (big little : List Nat) (len : Nat) : Option (Option Nat) :=
  match little with
  | [] => none
  | l0 :: _ =>
    if l0 = 0 then some (some 0)
    else if len = 0 then some none
    else
      match ft_strlen little with
      | none => none
      | some n => strnstr_loop signed_char little (int_of_size n) len big 0

/-- The first index at or after `i` where `l` occurs in the string whose rest
from index `i` is given, among the indices `k` with `k + strlen l <= len`. -/
def first_match (l : List Nat) (len : Nat) : List Nat → Nat → Option Nat
  | [], _ => none
  | x :: rest, i =>
    if i + l.length ≤ len then
      (if l.isPrefixOf (x :: rest) then some i else first_match l len rest (i + 1))
    else none

/-- The loop of `ft_lstsize`, lines 24-28; `fuel` bounds the number of rounds.
`i` is an `int`: `i++` past `INT_MAX` is a fault. -/
def lstsize_loop (heap : List t_list) : Nat → Option Nat → Nat → Option Nat
  | _, none, i => some i
  | 0, some _, _ => none
  | fuel + 1, some p, i =>
    match heap[p]? with
    | none => none
    | some node =>
      if i + 1 < 2147483648 then lstsize_loop heap fuel node.next (i + 1) else none

/-- `ft_lstsize` of `src/printf/libft/ft_lstsize.c`, lines 15-30. -/
def ft_lstsize (heap : List t_list) (fuel : Nat) (lst : Option Nat) : Option Nat :=
  match lst with
  | none => some 0
  | some p => lstsize_loop heap fuel (some p) 0

/-- What a call of `ft_calloc` does: it returns NULL before any allocation, or
it asks `malloc` for `a` bytes and returns NULL when that fails, or it returns
the block of `a` bytes after `ft_bzero(p, a)`. -/
inductive Calloc where
  | refused
  | failed (a : Nat)
  | block (a : Nat) (cells : List (Option Nat))
  deriving DecidableEq, Repr

/-- `ft_calloc` of `src/printf/libft/ft_calloc.c`, lines 15-34.  `room` tells
whether `malloc` succeeds; `ft_bzero`, whose body is not among the sources, is
a parameter. -/
def ft_calloc (room : Bool) (ft_bzero : List (Option Nat) → Nat → List (Option Nat))
    (count size : Nat) : Calloc :=
  if count ≠ 0 ∧ size > SIZE_MAX / count then Calloc.refused
  else if room then
    Calloc.block
      (((if count = 0 ∨ size = 0 then 1 else count)
        * (if count = 0 ∨ size = 0 then 1 else size)) % 18446744073709551616)
      (ft_bzero (List.replicate
        (((if count = 0 ∨ size = 0 then 1 else count)
          * (if count = 0 ∨ size = 0 then 1 else size)) % 18446744073709551616) none)
        (((if count = 0 ∨ size = 0 then 1 else count)
          * (if count = 0 ∨ size = 0 then 1 else size)) % 18446744073709551616))
  else
    Calloc.failed
      (((if count = 0 ∨ size = 0 then 1 else count)
        * (if count = 0 ∨ size = 0 then 1 else size)) % 18446744073709551616)

end Printf

end Libft

namespace FtPrintf

/-! ## Unfolding the loop -/

theorem scan_zero (F : Formatters) (rest : List Nat) (args : List Arg) (s : Sink) :
    scan F (0 :: rest) args s = some (s, args) := by
  rw [scan.eq_def]; simp

theorem scan_literal (F : Formatters) (b : Nat) (rest : List Nat) (args : List Arg) (s : Sink)
    (h0 : b ≠ 0) (h37 : b ≠ 37) :
    scan F (b :: rest) args s = scan F rest args (F.ft_putcharacter_length b s) := by
  rw [scan.eq_def]; simp [h0, h37]

theorem scan_pair (F : Formatters) (c : Nat) (rest : List Nat) (args : List Arg) (s : Sink) :
    scan F (37 :: c :: rest) args s
      = (dispatch F c args s).bind fun r => scan F rest r.2 r.1 := by
  rw [scan]
  cases dispatch F c args s <;> simp

/-- A run of literal bytes is copied to the output and counted byte by byte. -/
theorem scan_literals (F : Formatters) (hF : writes_one F) (t junk : List Nat)
    (hnul : no_nul t) (hpct : 37 ∉ t) (args : List Arg) (s : Sink) :
    scan F (t ++ 0 :: junk) args s = some (⟨s.out ++ t, s.length + t.length⟩, args) := by
  induction t generalizing s with
  | nil => simp [scan_zero]
  | cons b t ih =>
    have hb0 : b ≠ 0 := hnul b (List.mem_cons_self _ _)
    have hb37 : b ≠ 37 := fun h => hpct (h ▸ List.mem_cons_self _ _)
    have hnul' : no_nul t := fun x hx => hnul x (List.mem_cons_of_mem _ hx)
    have hpct' : 37 ∉ t := fun hx => hpct (List.mem_cons_of_mem _ hx)
    rw [List.cons_append, scan_literal F b _ args s hb0 hb37, ih hnul' hpct', hF]
    simp only [List.append_assoc, List.singleton_append, List.length_cons, Nat.cast_add,
      Nat.cast_one, Option.some.injEq, Prod.mk.injEq, Sink.mk.injEq, and_true, true_and]
    ring

/-- Induction over a template the way the loop walks it: one byte or two at a
time. -/
theorem pair_induction {P : List Nat → Prop} (h0 : P []) (h1 : ∀ b, P [b])
    (h2 : ∀ b c rest, P rest → P (c :: rest) → P (b :: c :: rest)) : ∀ t, P t := by
  have key : ∀ t, P t ∧ ∀ b, P (b :: t) := by
    intro t
    induction t with
    | nil => exact ⟨h0, h1⟩
    | cons c rest ih => exact ⟨ih.2 c, fun b => h2 b c rest ih.1 (ih.2 c)⟩
  exact fun t => (key t).1

theorem no_nul_cons {b : Nat} {t : List Nat} (h : no_nul (b :: t)) : b ≠ 0 ∧ no_nul t :=
  ⟨h b (List.mem_cons_self _ _), fun x hx => h x (List.mem_cons_of_mem _ hx)⟩

theorem dispatch_accepts (F : Formatters) (c : Nat) (a : Arg) (rest : List Arg) (s : Sink)
    (h : accepts c a = true) :
    dispatch F c (a :: rest) s = some (format_arg F c a s, rest) := by
  cases a with
  | int n =>
    simp only [accepts, decide_eq_true_eq] at h
    rcases h with h | h | h <;> subst h <;> simp [dispatch, va_arg_int, format_arg]
  | str x =>
    simp only [accepts, decide_eq_true_eq] at h
    subst h; simp [dispatch, va_arg_str, format_arg]
  | uint u =>
    simp only [accepts, decide_eq_true_eq] at h
    rcases h with h | h | h <;> subst h <;> simp [dispatch, va_arg_uint, format_arg]
  | size x =>
    simp only [accepts, decide_eq_true_eq] at h
    subst h; simp [dispatch, va_arg_size, format_arg]

theorem dispatch_unrecognized (F : Formatters) (c : Nat) (args : List Arg) (s : Sink)
    (h : recognized c = false) :
    dispatch F c args s
      = some (if c = 37 then F.ft_putcharacter_length 37 s else s, args) := by
  simp only [recognized, decide_eq_false_iff_not, not_or] at h
  obtain ⟨h1, h2, h3, h4, h5, h6, h7, h8⟩ := h
  by_cases h9 : c = 37 <;> simp [dispatch, h1, h2, h3, h4, h5, h6, h7, h8, h9]

/-- The loop run on a template followed by more memory is the loop run on the
template alone, then resumed on what follows with the sink and arguments the
first run left. -/
theorem scan_append (F : Formatters) (rest : List Nat) :
    ∀ (t : List Nat), no_nul t → ends_lone t = false → ∀ (args : List Arg) (s : Sink),
      scan F (t ++ rest) args s
        = (scan F (t ++ [0]) args s).bind fun r => scan F rest r.2 r.1 := by
  intro t
  induction t using pair_induction with
  | h0 => intro _ _ args s; simp [scan_zero]
  | h1 b =>
    intro hnul hlone args s
    have hb0 := (no_nul_cons hnul).1
    have hb37 : b ≠ 37 := by simpa [ends_lone] using hlone
    simp [scan_literal F b _ args _ hb0 hb37, scan_zero]
  | h2 b c t ih1 ih2 =>
    intro hnul hlone args s
    have hb0 := (no_nul_cons hnul).1
    have hnul1 := (no_nul_cons hnul).2
    by_cases hb : b = 37
    · subst hb
      have hlone1 : ends_lone t = false := by simpa [ends_lone] using hlone
      simp only [List.cons_append, scan_pair]
      cases hd : dispatch F c args s with
      | none => simp
      | some r => simpa using ih1 (no_nul_cons hnul1).2 hlone1 r.2 r.1
    · have hlone1 : ends_lone (c :: t) = false := by simpa [ends_lone, hb] using hlone
      have h := ih2 hnul1 hlone1 args (F.ft_putcharacter_length b s)
      simp only [List.cons_append] at h ⊢
      rw [scan_literal F b _ args s hb0 hb, scan_literal F b _ args s hb0 hb, h]

/-- On a well-formed call (NUL-terminated template that does not end in a lone
`%`, arguments of the types the directives read) the loop returns, having
consumed one argument per recognized directive; any relation between sinks
that every formatter call respects holds between the initial and the final
sink. -/
theorem scan_template (F : Formatters) (P : Sink → Sink → Prop) (hrefl : ∀ s, P s s)
    (htrans : ∀ a b c, P a b → P b c → P a c)
    (hput : ∀ c s, P s (F.ft_putcharacter_length c s))
    (hfmt : ∀ c a s, P s (format_arg F c a s)) (junk : List Nat) :
    ∀ (t : List Nat), no_nul t → ends_lone t = false → ∀ (args : List Arg) (s : Sink),
      kinds_match (directives t) args = true →
      ∃ s1, scan F (t ++ 0 :: junk) args s = some (s1, args.drop (directives t).length)
        ∧ P s s1 := by
  intro t
  induction t using pair_induction with
  | h0 => intro _ _ args s _; exact ⟨s, by simp [scan_zero, directives], hrefl s⟩
  | h1 b =>
    intro hnul hlone args s _
    have hb0 := (no_nul_cons hnul).1
    have hb37 : b ≠ 37 := by simpa [ends_lone] using hlone
    exact ⟨_, by simp [scan_literal F b _ args _ hb0 hb37, scan_zero, directives], hput b s⟩
  | h2 b c t ih1 ih2 =>
    intro hnul hlone args s hk
    have hb0 := (no_nul_cons hnul).1
    have hnul1 := (no_nul_cons hnul).2
    by_cases hb : b = 37
    · subst hb
      have hlone1 : ends_lone t = false := by simpa [ends_lone] using hlone
      by_cases hc : recognized c = true
      · simp only [directives, hc, if_true] at hk ⊢
        cases args with
        | nil => simp [kinds_match] at hk
        | cons a rest =>
          simp only [kinds_match, Bool.and_eq_true] at hk
          obtain ⟨s1, h1, hP⟩ := ih1 (no_nul_cons hnul1).2 hlone1 rest (format_arg F c a s) hk.2
          refine ⟨s1, ?_, htrans _ _ _ (hfmt c a s) hP⟩
          simp [scan_pair, dispatch_accepts F c a rest s hk.1, h1]
      · have hc1 : recognized c = false := by simpa using hc
        simp only [directives, hc1, if_true] at hk ⊢
        obtain ⟨s1, h1, hP⟩ := ih1 (no_nul_cons hnul1).2 hlone1 args
          (if c = 37 then F.ft_putcharacter_length 37 s else s) hk
        refine ⟨s1, ?_, htrans _ _ _ ?_ hP⟩
        · simp [scan_pair, dispatch_unrecognized F c args s hc1, h1]
        · by_cases h37 : c = 37
          · simpa [h37] using hput 37 s
          · simpa [h37] using hrefl s
    · have hlone1 : ends_lone (c :: t) = false := by simpa [ends_lone, hb] using hlone
      have hk1 : kinds_match (directives (c :: t)) args = true := by
        simpa [directives, hb] using hk
      obtain ⟨s1, h1, hP⟩ := ih2 hnul1 hlone1 args (F.ft_putcharacter_length b s) hk1
      refine ⟨s1, ?_, htrans _ _ _ (hput b s) hP⟩
      simp only [List.cons_append] at h1 ⊢
      rw [scan_literal F b _ args s hb0 hb, h1]
      simp [directives, hb]

theorem directives_append (rest : List Nat) :
    ∀ (t : List Nat), ends_lone t = false →
      directives (t ++ rest) = directives t ++ directives rest := by
  intro t
  induction t using pair_induction with
  | h0 => intro _; simp [directives]
  | h1 b =>
    intro hlone
    have hb37 : b ≠ 37 := by simpa [ends_lone] using hlone
    cases rest with
    | nil => simp [directives]
    | cons c r => simp [directives, hb37]
  | h2 b c t ih1 ih2 =>
    intro hlone
    by_cases hb : b = 37
    · subst hb
      have hlone1 : ends_lone t = false := by simpa [ends_lone] using hlone
      by_cases hc : recognized c = true <;> simp [directives, hc, ih1 hlone1]
    · have hlone1 : ends_lone (c :: t) = false := by simpa [ends_lone, hb] using hlone
      have h := ih2 hlone1
      simp only [List.cons_append] at h
      simp [directives, hb, h]

theorem kinds_match_append (xs ys : List Nat) :
    ∀ args : List Arg, kinds_match (xs ++ ys) args = true →
      kinds_match xs args = true ∧ kinds_match ys (args.drop xs.length) = true := by
  induction xs with
  | nil => intro args h; simpa [kinds_match] using h
  | cons c xs ih =>
    intro args h
    cases args with
    | nil => simp [kinds_match] at h
    | cons a rest =>
      simp only [List.cons_append, kinds_match, Bool.and_eq_true] at h
      have := ih rest h.2
      simp [kinds_match, h.1, this.1, this.2]

theorem kinds_match_length (xs : List Nat) :
    ∀ args : List Arg, kinds_match xs args = true → xs.length ≤ args.length := by
  induction xs with
  | nil => intro args _; simp
  | cons c xs ih =>
    intro args h
    cases args with
    | nil => simp [kinds_match] at h
    | cons a rest =>
      simp only [kinds_match, Bool.and_eq_true] at h
      simpa using ih rest h.2

theorem kinds_match_cons (c : Nat) (cs : List Nat) (args : List Arg)
    (h : kinds_match (c :: cs) args = true) :
    ∃ a rest, args = a :: rest ∧ accepts c a = true ∧ kinds_match cs rest = true := by
  cases args with
  | nil => simp [kinds_match] at h
  | cons a rest =>
    simp only [kinds_match, Bool.and_eq_true] at h
    exact ⟨a, rest, rfl, h.1, h.2⟩

theorem no_nul_append_left {t u : List Nat} (h : no_nul (t ++ u)) : no_nul t :=
  fun x hx => h x (List.mem_append_left _ hx)

/-- Each formatter call of a counting set appends bytes and counts them. -/
theorem format_arg_counts (F : Formatters) (hF : F.Counting) (c : Nat) (a : Arg) :
    counts (format_arg F c a) := by
  cases a with
  | int n =>
    by_cases h : c = 99
    · simpa [format_arg, h] using hF.putcharacter (int_to_char n)
    · simpa [format_arg, h] using hF.number n
  | str x => simpa [format_arg] using hF.string x
  | uint u =>
    by_cases h : c = 117
    · simpa [format_arg, h] using hF.unsigned u
    · simpa [format_arg, h] using hF.hexadecimal u c
  | size x => simpa [format_arg] using hF.pointer x

theorem formatters_writes_one (b : Build) : writes_one (formatters b) :=
  fun _ _ => rfl

theorem formatters_counting (b : Build) : (formatters b).Counting where
  putcharacter c s := ⟨[c], rfl⟩
  string a s := by cases a <;> exact ⟨_, rfl⟩
  number n s := ⟨_, rfl⟩
  hexadecimal x k s := ⟨_, rfl⟩
  unsigned u s := ⟨_, rfl⟩
  pointer p s := by
    by_cases h : p = 0
    · exact ⟨PTR_NULL b.apple, by simp [formatters, ft_pointer, h, emit]⟩
    · exact ⟨b.marker ++ hex_text false p, by simp [formatters, ft_pointer, h, emit]⟩

theorem value_snoc (base : Nat) (ds : List Nat) (d : Nat) :
    value base (ds ++ [d]) = value base ds * base + d := by
  simp [value, List.foldl_append]

/-- Repeated division yields the digit string of `n`: it denotes `n`, every
digit is below the base, and it starts with a zero only when it is `0`. -/
theorem digits_be_spec (base : Nat) (hbase : 2 ≤ base) :
    ∀ (fuel n : Nat), n < fuel →
      value base (digits_be base fuel n) = n
        ∧ (∀ d ∈ digits_be base fuel n, d < base)
        ∧ digits_be base fuel n ≠ []
        ∧ ((digits_be base fuel n).head? = some 0 → digits_be base fuel n = [0]) := by
  intro fuel
  induction fuel with
  | zero => intro n h; omega
  | succ fuel ih =>
    intro n hn
    by_cases hlt : n < base
    · simp only [digits_be, hlt, if_true]
      refine ⟨by simp [value], ?_, by simp, ?_⟩
      · intro d hd
        simp only [List.mem_singleton] at hd
        omega
      · intro h
        simp only [List.head?_cons, Option.some.injEq] at h
        simp [h]
    · simp only [digits_be, hlt, if_false]
      have hpos : 0 < base := by omega
      have hdiv : n / base < n := Nat.div_lt_self (by omega) (by omega)
      obtain ⟨hv, hd, hne, hhead⟩ := ih (n / base) (by omega)
      refine ⟨?_, ?_, by simp, ?_⟩
      · rw [value_snoc, hv]
        exact Nat.div_add_mod' n base
      · intro d hmem
        rcases List.mem_append.1 hmem with h | h
        · exact hd d h
        · simp only [List.mem_singleton] at h
          subst h
          exact Nat.mod_lt _ hpos
      · intro h
        exfalso
        have hq : 1 ≤ n / base := (Nat.one_le_div_iff hpos).2 (by omega)
        cases hds : digits_be base fuel (n / base) with
        | nil => exact hne hds
        | cons x xs =>
          rw [hds] at h hhead hv
          simp only [List.cons_append, List.head?_cons, Option.some.injEq] at h
          subst h
          have h0 := hhead rfl
          simp only [List.cons.injEq, true_and] at h0
          subst h0
          simp [value] at hv
          omega

/-- A template made of one directive: the call returns what the formatter
left in the sink. -/
theorem ft_printf_single (F : Formatters) (c : Nat) (a : Arg) (junk : List Nat)
    (h : accepts c a = true) :
    ft_printf F (37 :: c :: 0 :: junk) [a]
      = some ((format_arg F c a ⟨[], 0⟩).length, (format_arg F c a ⟨[], 0⟩).out) := by
  simp [ft_printf, scan_pair, dispatch_accepts F c a [] _ h, scan_zero]

theorem Formatters.Each.mono {P Q : (Sink → Sink) → Prop} {F : Formatters}
    (h : ∀ f, P f → Q f) (hF : F.Each P) : F.Each Q where
  putcharacter c := h _ (hF.putcharacter c)
  string a := h _ (hF.string a)
  number n := h _ (hF.number n)
  hexadecimal x k := h _ (hF.hexadecimal x k)
  unsigned u := h _ (hF.unsigned u)
  pointer p := h _ (hF.pointer p)

theorem scan_nil (F : Formatters) (args : List Arg) (s : Sink) : scan F [] args s = none := by
  rw [scan.eq_def]

theorem scan_lone (F : Formatters) (args : List Arg) (s : Sink) :
    scan F [37] args s = none := by
  rw [scan.eq_def]; simp

/-- A change of the sink that every formatter call commutes with goes through
the dispatcher. -/
theorem dispatch_commute (F : Formatters) (T : Sink → Sink)
    (hT : F.Each (fun f => ∀ s, f (T s) = T (f s))) (c : Nat) (args : List Arg) (s : Sink) :
    dispatch F c args (T s) = (dispatch F c args s).map fun r => (T r.1, r.2) := by
  simp only [dispatch]
  split_ifs <;>
    simp [Option.map_map, Function.comp_def, hT.putcharacter, hT.string, hT.number,
      hT.unsigned, hT.hexadecimal, hT.pointer]

/-- A change of the sink that every formatter call commutes with goes through
the whole loop: the run from the changed sink is the run from the original
one, changed at the end. -/
theorem scan_commute (F : Formatters) (T : Sink → Sink)
    (hT : F.Each (fun f => ∀ s, f (T s) = T (f s))) :
    ∀ (mem : List Nat) (args : List Arg) (s : Sink),
      scan F mem args (T s) = (scan F mem args s).map fun r => (T r.1, r.2) := by
  intro mem
  induction mem using pair_induction with
  | h0 => intro args s; simp [scan_nil]
  | h1 b =>
    intro args s
    by_cases hb0 : b = 0
    · subst hb0; simp [scan_zero]
    · by_cases hb : b = 37
      · subst hb; simp [scan_lone]
      · simp [scan_literal F b _ args _ hb0 hb, scan_nil]
  | h2 b c t ih1 ih2 =>
    intro args s
    by_cases hb0 : b = 0
    · subst hb0; simp [scan_zero]
    · by_cases hb : b = 37
      · subst hb
        rw [scan_pair, scan_pair, dispatch_commute F T hT]
        cases dispatch F c args s with
        | none => simp
        | some r => simpa using ih1 r.2 r.1
      · rw [scan_literal F b _ args _ hb0 hb, scan_literal F b _ args _ hb0 hb,
          hT.putcharacter b s]
        exact ih2 args _

/-- A template that does not end in a lone `%` is run without regard to what
follows its terminator in memory. -/
theorem scan_junk (F : Formatters) (t junk : List Nat) (hnul : no_nul t)
    (hlone : ends_lone t = false) (args : List Arg) (s : Sink) :
    scan F (t ++ 0 :: junk) args s = scan F (t ++ [0]) args s := by
  rw [scan_append F _ t hnul hlone]
  cases scan F (t ++ [0]) args s <;> simp [scan_zero]

theorem Formatters.Counting.each {F : Formatters} (hF : F.Counting) : F.Each counts :=
  ⟨hF.putcharacter, hF.string, hF.number, hF.hexadecimal, hF.unsigned, hF.pointer⟩

/-- The loop is its iteration repeated until the exit or a fault. -/
theorem scan_step (F : Formatters) (c : Config) :
    scan F c.string c.args c.sink
      = match step F c with
        | Step.exit => some (c.sink, c.args)
        | Step.fault => none
        | Step.next c1 => scan F c1.string c1.args c1.sink := by
  obtain ⟨string, args, s⟩ := c
  cases string with
  | nil => simp [step, scan_nil]
  | cons b rest =>
    by_cases hb0 : b = 0
    · subst hb0; simp [step, scan_zero]
    · by_cases hb : b = 37
      · subst hb
        cases rest with
        | nil => simp [step, scan_lone]
        | cons k rest1 =>
          simp only [step, scan_pair]
          cases dispatch F k args s <;> simp
      · simp [step, hb0, hb, scan_literal F b rest args s hb0 hb]

/-- When the dispatcher returns, the sink it leaves is the given one or the
result of one formatter call on it. -/
theorem dispatch_some (F : Formatters) (P : (Sink → Sink) → Prop) (hid : P id)
    (hF : F.Each P) (k : Nat) (args : List Arg) (s : Sink) (r : Sink × List Arg)
    (h : dispatch F k args s = some r) : ∃ f, P f ∧ r.1 = f s := by
  simp only [dispatch] at h
  split_ifs at h
  all_goals first
    | (obtain ⟨x, _, hx⟩ := Option.map_eq_some'.1 h
       subst hx
       first
         | exact ⟨_, hF.putcharacter _, rfl⟩
         | exact ⟨_, hF.string _, rfl⟩
         | exact ⟨_, hF.number _, rfl⟩
         | exact ⟨_, hF.unsigned _, rfl⟩
         | exact ⟨_, hF.hexadecimal _ _, rfl⟩
         | exact ⟨_, hF.pointer _, rfl⟩)
    | (simp only [Option.some.injEq] at h
       subst h
       first
         | exact ⟨_, hF.putcharacter _, rfl⟩
         | exact ⟨id, hid, rfl⟩)

/-- Under counting formatters an iteration appends some bytes and adds their
number to the counter. -/
theorem step_counts (F : Formatters) (hF : F.Counting) (c c1 : Config)
    (h : step F c = Step.next c1) :
    ∃ text : List Nat, c1.sink = ⟨c.sink.out ++ text, c.sink.length + text.length⟩ := by
  obtain ⟨string, args, s⟩ := c
  cases string with
  | nil => simp [step] at h
  | cons b rest =>
    by_cases hb0 : b = 0
    · simp [step, hb0] at h
    · by_cases hb : b = 37
      · subst hb
        cases rest with
        | nil => simp [step] at h
        | cons k rest1 =>
          simp only [step] at h
          cases hd : dispatch F k args s with
          | none => simp [hd] at h
          | some r =>
            simp only [hd, OfNat.ofNat_ne_zero, if_false, if_true, Step.next.injEq] at h
            subst h
            obtain ⟨f, hf, hr⟩ := dispatch_some F counts (fun x => ⟨[], by simp⟩) hF.each
              k args s r hd
            obtain ⟨text, ht⟩ := hf s
            exact ⟨text, by rw [hr, ht]⟩
      · simp only [step, hb0, hb, if_false, Step.next.injEq] at h
        subst h
        exact hF.putcharacter b s

theorem iter_add (F : Formatters) (m n : Nat) (c : Config) :
    iter F (m + n) c = (iter F m c).bind (iter F n) := by
  induction m generalizing c with
  | zero => simp [iter]
  | succ m ih =>
    rw [Nat.succ_add]
    simp only [iter]
    cases step F c <;> simp [ih]

theorem iter_mono (F : Formatters) (hF : F.Counting) (n : Nat) :
    ∀ c c1 : Config, iter F n c = some c1 → c.sink.length ≤ c1.sink.length := by
  induction n with
  | zero =>
    intro c c1 h
    simp only [iter, Option.some.injEq] at h
    subst h
    exact le_refl _
  | succ n ih =>
    intro c c1 h
    simp only [iter] at h
    cases hs : step F c with
    | exit => simp [hs] at h
    | fault => simp [hs] at h
    | next c2 =>
      simp only [hs] at h
      obtain ⟨text, ht⟩ := step_counts F hF c c2 hs
      have h2 := ih c2 c1 h
      rw [ht] at h2
      simp only at h2
      have : (0 : Int) ≤ (text.length : Int) := Int.natCast_nonneg _
      omega

/-- The run of the loop is determined by its iterations: when some number of
iterations reaches a state where the loop exits, the loop returns that
state. -/
theorem scan_iter (F : Formatters) (n : Nat) :
    ∀ c c1 : Config, iter F n c = some c1 → step F c1 = Step.exit →
      scan F c.string c.args c.sink = some (c1.sink, c1.args) := by
  induction n with
  | zero =>
    intro c c1 h hexit
    simp only [iter, Option.some.injEq] at h
    subst h
    rw [scan_step, hexit]
  | succ n ih =>
    intro c c1 h hexit
    simp only [iter] at h
    cases hs : step F c with
    | exit => simp [hs] at h
    | fault => simp [hs] at h
    | next c2 =>
      simp only [hs] at h
      rw [scan_step, hs]
      exact ih c2 c1 h hexit

theorem chunks_flatten : ∀ t : List Nat, (chunks t).flatten = t := by
  intro t
  induction t using pair_induction with
  | h0 => simp [chunks]
  | h1 b => simp [chunks]
  | h2 b c t ih1 ih2 =>
    by_cases hb : b = 37
    · subst hb; simp [chunks, ih1]
    · simp [chunks, hb, ih2]

theorem chunks_shape : ∀ t : List Nat, no_nul t → ends_lone t = false →
    ∀ ch ∈ chunks t, (∃ b, ch = [b] ∧ b ≠ 37 ∧ b ≠ 0) ∨ (∃ k, ch = [37, k]) := by
  intro t
  induction t using pair_induction with
  | h0 => intro _ _ ch hch; simp [chunks] at hch
  | h1 b =>
    intro hnul hlone ch hch
    have hb0 := (no_nul_cons hnul).1
    have hb37 : b ≠ 37 := by simpa [ends_lone] using hlone
    simp only [chunks, List.mem_singleton] at hch
    exact Or.inl ⟨b, hch, hb37, hb0⟩
  | h2 b c t ih1 ih2 =>
    intro hnul hlone ch hch
    have hb0 := (no_nul_cons hnul).1
    have hnul1 := (no_nul_cons hnul).2
    by_cases hb : b = 37
    · subst hb
      have hlone1 : ends_lone t = false := by simpa [ends_lone] using hlone
      simp only [chunks, if_true, List.mem_cons] at hch
      rcases hch with h | h
      · exact Or.inr ⟨c, h⟩
      · exact ih1 (no_nul_cons hnul1).2 hlone1 ch h
    · have hlone1 : ends_lone (c :: t) = false := by simpa [ends_lone, hb] using hlone
      simp only [chunks, hb, if_false, List.mem_cons] at hch
      rcases hch with h | h
      · exact Or.inl ⟨b, h, hb, hb0⟩
      · exact ih2 hnul1 hlone1 ch h

theorem chunks_length : ∀ t : List Nat, (chunks t).length ≤ t.length := by
  intro t
  induction t using pair_induction with
  | h0 => simp [chunks]
  | h1 b => simp [chunks]
  | h2 b c t ih1 ih2 =>
    by_cases hb : b = 37
    · subst hb
      simp only [chunks, if_true, List.length_cons]
      omega
    · simp only [chunks, hb, if_false, List.length_cons] at ih2 ⊢
      omega

/-- On a well-formed call the loop takes the pieces of the template one per
iteration, in order: after `i` iterations `string` stands before the pieces
not yet taken. -/
theorem iter_chunks (F : Formatters) (rest : List Nat) :
    ∀ t : List Nat, no_nul t → ends_lone t = false → ∀ (args : List Arg) (s : Sink),
      kinds_match (directives t) args = true → ∀ i, i ≤ (chunks t).length →
      ∃ c, iter F i ⟨t ++ rest, args, s⟩ = some c
        ∧ c.string = ((chunks t).drop i).flatten ++ rest := by
  intro t
  induction t using pair_induction with
  | h0 =>
    intro _ _ args s _ i hi
    simp only [chunks, List.length_nil, Nat.le_zero] at hi
    subst hi
    exact ⟨_, rfl, by simp [chunks]⟩
  | h1 b =>
    intro hnul hlone args s _ i hi
    have hb0 := (no_nul_cons hnul).1
    have hb37 : b ≠ 37 := by simpa [ends_lone] using hlone
    simp only [chunks, List.length_singleton] at hi
    rcases Nat.le_one_iff_eq_zero_or_eq_one.1 hi with h | h
    · subst h; exact ⟨_, rfl, by simp [chunks]⟩
    · subst h
      exact ⟨⟨rest, args, F.ft_putcharacter_length b s⟩, by simp [iter, step, hb0, hb37],
        by simp [chunks]⟩
  | h2 b c t ih1 ih2 =>
    intro hnul hlone args s hk i hi
    have hb0 := (no_nul_cons hnul).1
    have hnul1 := (no_nul_cons hnul).2
    cases i with
    | zero => exact ⟨_, rfl, by simp [chunks_flatten]⟩
    | succ j =>
      by_cases hb : b = 37
      · subst hb
        have hlone1 : ends_lone t = false := by simpa [ends_lone] using hlone
        simp only [chunks, if_true, List.length_cons, Nat.add_le_add_iff_right] at hi
        by_cases hc : recognized c = true
        · simp only [directives, hc, if_true] at hk
          obtain ⟨a, as, hargs, hacc, hk1⟩ := kinds_match_cons _ _ _ hk
          obtain ⟨c1, h1, h2⟩ := ih1 (no_nul_cons hnul1).2 hlone1 as (format_arg F c a s) hk1 j hi
          refine ⟨c1, ?_, by simpa [chunks] using h2⟩
          simp [iter, step, hargs, dispatch_accepts F c a as s hacc, h1]
        · have hc1 : recognized c = false := by simpa using hc
          simp only [directives, hc1, if_true] at hk
          obtain ⟨c1, h1, h2⟩ := ih1 (no_nul_cons hnul1).2 hlone1 args
            (if c = 37 then F.ft_putcharacter_length 37 s else s) hk j hi
          refine ⟨c1, ?_, by simpa [chunks] using h2⟩
          simp [iter, step, dispatch_unrecognized F c args s hc1, h1]
      · have hlone1 : ends_lone (c :: t) = false := by simpa [ends_lone, hb] using hlone
        have hk1 : kinds_match (directives (c :: t)) args = true := by
          simpa [directives, hb] using hk
        simp only [chunks, hb, if_false, List.length_cons, Nat.add_le_add_iff_right] at hi
        obtain ⟨c1, h1, h2⟩ := ih2 hnul1 hlone1 args (F.ft_putcharacter_length b s) hk1 j hi
        simp only [List.cons_append] at h1
        refine ⟨c1, ?_, by simpa [chunks, hb] using h2⟩
        simp [iter, step, hb0, hb, h1]

/-! ## The loop with the counter in an `int` -/

theorem scan_int_nil (F : Formatters) (args : List Arg) (s : Sink) :
    scan_int F [] args s = none := by
  rw [scan_int.eq_def]

theorem scan_int_zero (F : Formatters) (rest : List Nat) (args : List Arg) (s : Sink) :
    scan_int F (0 :: rest) args s = some (s, args) := by
  rw [scan_int.eq_def]; simp

theorem scan_int_lone (F : Formatters) (args : List Arg) (s : Sink) :
    scan_int F [37] args s = none := by
  rw [scan_int.eq_def]; simp

theorem scan_int_literal (F : Formatters) (b : Nat) (rest : List Nat) (args : List Arg)
    (s : Sink) (h0 : b ≠ 0) (h37 : b ≠ 37) :
    scan_int F (b :: rest) args s
      = if int_range (F.ft_putcharacter_length b s).length then
          scan_int F rest args (F.ft_putcharacter_length b s)
        else none := by
  rw [scan_int.eq_def]; simp [h0, h37]

theorem scan_int_pair (F : Formatters) (c : Nat) (rest : List Nat) (args : List Arg)
    (s : Sink) :
    scan_int F (37 :: c :: rest) args s
      = (dispatch F c args s).bind fun r =>
          if int_range r.1.length then scan_int F rest r.2 r.1 else none := by
  rw [scan_int]
  cases dispatch F c args s <;> simp

/-- When no formatter call lowers the counter, neither does the dispatcher. -/
theorem dispatch_le (F : Formatters) (hF : F.Each (fun f => ∀ s, s.length ≤ (f s).length))
    (k : Nat) (args : List Arg) (s : Sink) (r : Sink × List Arg)
    (h : dispatch F k args s = some r) : s.length ≤ r.1.length := by
  obtain ⟨f, hf, hr⟩ := dispatch_some F (fun f => ∀ s, s.length ≤ (f s).length)
    (fun x => le_refl _) hF k args s r h
  rw [hr]
  exact hf s

/-- When no formatter call lowers the counter, neither does the loop. -/
theorem scan_le (F : Formatters) (hF : F.Each (fun f => ∀ s, s.length ≤ (f s).length)) :
    ∀ (mem : List Nat) (args : List Arg) (s : Sink) (r : Sink × List Arg),
      scan F mem args s = some r → s.length ≤ r.1.length := by
  intro mem
  induction mem using pair_induction with
  | h0 => intro args s r h; simp [scan_nil] at h
  | h1 b =>
    intro args s r h
    by_cases hb0 : b = 0
    · subst hb0
      simp only [scan_zero, Option.some.injEq] at h
      subst h
      exact le_refl _
    · by_cases hb : b = 37
      · subst hb; simp [scan_lone] at h
      · simp [scan_literal F b _ args _ hb0 hb, scan_nil] at h
  | h2 b c t ih1 ih2 =>
    intro args s r h
    by_cases hb0 : b = 0
    · subst hb0
      simp only [scan_zero, Option.some.injEq] at h
      subst h
      exact le_refl _
    · by_cases hb : b = 37
      · subst hb
        rw [scan_pair] at h
        cases hd : dispatch F c args s with
        | none => simp [hd] at h
        | some r1 =>
          rw [hd] at h
          exact le_trans (dispatch_le F hF c args s r1 hd) (ih1 r1.2 r1.1 r h)
      · rw [scan_literal F b _ args _ hb0 hb] at h
        exact le_trans (hF.putcharacter b s) (ih2 args _ r h)

/-- With formatters that never lower the counter, the loop on the `int` cell
is the loop on the count followed by the test that the count is an `int`: an
overflow on the way cannot be undone. -/
theorem scan_int_eq (F : Formatters)
    (hF : F.Each (fun f => ∀ s, s.length ≤ (f s).length)) :
    ∀ (mem : List Nat) (args : List Arg) (s : Sink), int_range s.length →
      scan_int F mem args s
        = (scan F mem args s).bind fun r => if int_range r.1.length then some r else none := by
  have hover : ∀ (mem : List Nat) (args : List Arg) (s : Sink),
      -2147483648 ≤ s.length → ¬ int_range s.length →
      ((scan F mem args s).bind fun r => if int_range r.1.length then some r else none)
        = none := by
    intro mem args s hlow hs
    cases h : scan F mem args s with
    | none => rfl
    | some r =>
      have hle := scan_le F hF mem args s r h
      have hr : ¬ int_range r.1.length := by
        unfold int_range at hs ⊢
        omega
      simp [hr]
  intro mem
  induction mem using pair_induction with
  | h0 => intro args s _; simp [scan_nil, scan_int_nil]
  | h1 b =>
    intro args s hs
    by_cases hb0 : b = 0
    · subst hb0; simp [scan_zero, scan_int_zero, hs]
    · by_cases hb : b = 37
      · subst hb; simp [scan_lone, scan_int_lone]
      · simp [scan_literal F b _ args _ hb0 hb, scan_int_literal F b _ args _ hb0 hb,
          scan_nil, scan_int_nil]
  | h2 b c t ih1 ih2 =>
    intro args s hs
    by_cases hb0 : b = 0
    · subst hb0; simp [scan_zero, scan_int_zero, hs]
    · by_cases hb : b = 37
      · subst hb
        rw [scan_pair, scan_int_pair]
        cases hd : dispatch F c args s with
        | none => rfl
        | some r =>
          have hle := dispatch_le F hF c args s r hd
          simp only [Option.some_bind]
          by_cases hr : int_range r.1.length
          · rw [if_pos hr]
            exact ih1 r.2 r.1 hr
          · rw [if_neg hr]
            exact (hover t r.2 r.1 (le_trans hs.1 hle) hr).symm
      · rw [scan_literal F b _ args _ hb0 hb, scan_int_literal F b _ args _ hb0 hb]
        have hle := hF.putcharacter b s
        by_cases hr : int_range (F.ft_putcharacter_length b s).length
        · rw [if_pos hr]
          exact ih2 args _ hr
        · rw [if_neg hr]
          exact (hover (c :: t) args _ (le_trans hs.1 hle) hr).symm

theorem counts_le {f : Sink → Sink} (h : counts f) : ∀ s, s.length ≤ (f s).length := by
  intro s
  obtain ⟨bytes, hb⟩ := h s
  rw [hb]
  have : (0 : Int) ≤ (bytes.length : Int) := Int.natCast_nonneg _
  simp only
  omega

theorem pure_text_le {f : Sink → Sink} (h : pure_text f) : ∀ s, s.length ≤ (f s).length := by
  intro s
  obtain ⟨text, ht⟩ := h
  rw [ht]
  have : (0 : Int) ≤ (text.length : Int) := Int.natCast_nonneg _
  simp only
  omega

/-- A run of literal bytes on the `int` cell: copied and counted byte by byte
as long as the counter stays an `int`. -/
theorem scan_int_literals (F : Formatters) (hF : writes_one F) (junk : List Nat)
    (args : List Arg) :
    ∀ (t : List Nat), no_nul t → 37 ∉ t → ∀ s : Sink, int_range s.length →
      scan_int F (t ++ 0 :: junk) args s
        = if s.length + (t.length : Int) ≤ 2147483647 then
            some (⟨s.out ++ t, s.length + t.length⟩, args)
          else none := by
  intro t
  induction t with
  | nil =>
    intro _ _ s hs
    have h : s.length + ((([] : List Nat).length : Nat) : Int) ≤ 2147483647 := by
      simp only [List.length_nil, Nat.cast_zero, add_zero]
      exact hs.2
    rw [if_pos h]
    simp [scan_int_zero]
  | cons b t ih =>
    intro hnul hpct s hs
    have hb0 : b ≠ 0 := (no_nul_cons hnul).1
    have hb37 : b ≠ 37 := fun h => hpct (h ▸ List.mem_cons_self _ _)
    have hpct1 : 37 ∉ t := fun hx => hpct (List.mem_cons_of_mem _ hx)
    have hnn : (0 : Int) ≤ (t.length : Int) := Int.natCast_nonneg _
    rw [List.cons_append, scan_int_literal F b _ args s hb0 hb37, hF]
    simp only [List.length_cons, Nat.cast_add, Nat.cast_one]
    by_cases h1 : int_range (s.length + 1)
    · rw [if_pos h1, ih (no_nul_cons hnul).2 hpct1 _ h1]
      simp only [List.append_assoc, List.singleton_append]
      by_cases h2 : s.length + 1 + (t.length : Int) ≤ 2147483647
      · rw [if_pos h2, if_pos (by omega)]
        simp only [Option.some.injEq, Prod.mk.injEq, Sink.mk.injEq, true_and, and_true]
        ring
      · rw [if_neg h2, if_neg (by omega)]
    · rw [if_neg h1, if_neg]
      unfold int_range at h1 hs
      omega

/-! ## Properties -/

theorem int_range_zero : int_range (⟨[], 0⟩ : Sink).length := by
  unfold int_range
  simp

/-- C1, for templates of at most `INT_MAX` bytes: a template without any `%`
byte is written out unchanged, byte for byte and in order, the `int` returned
is its length, and no argument is consumed (with `ft_putcharacter_length`
writing its byte and adding 1). -/
theorem ft_printf_literal_only (F : Formatters) (hF : writes_one F) (t junk : List Nat)
    (args : List Arg) (hnul : no_nul t) (hpct : 37 ∉ t) (hlen : t.length ≤ 2147483647) :
    ft_printf_int F (t ++ 0 :: junk) args = some ((t.length : Int), t)
      ∧ (scan_int F (t ++ 0 :: junk) args ⟨[], 0⟩).map Prod.snd = some args := by
  have h := scan_int_literals F hF junk args t hnul hpct ⟨[], 0⟩ int_range_zero
  have hle : (⟨[], 0⟩ : Sink).length + (t.length : Int) ≤ 2147483647 := by
    simp only [zero_add]
    omega
  rw [if_pos hle] at h
  simp [ft_printf_int, h]

/-- A template of `INT_MAX + 1` literal bytes or more takes the counter out of
the range of `int`. -/
theorem ft_printf_int_long_literal (F : Formatters) (hF : writes_one F) (n : Nat)
    (hn : 2147483648 ≤ n) (args : List Arg) :
    ft_printf_int F (List.replicate n 97 ++ 0 :: []) args = none := by
  have hnul : no_nul (List.replicate n 97) := by
    intro b hb
    rw [List.eq_of_mem_replicate hb]
    decide
  have hpct : 37 ∉ List.replicate n 97 :=
    fun h => absurd (List.eq_of_mem_replicate h) (by decide)
  have h := scan_int_literals F hF [] args (List.replicate n 97) hnul hpct ⟨[], 0⟩
    int_range_zero
  have hgt : ¬ ((⟨[], 0⟩ : Sink).length + ((List.replicate n 97).length : Int)
      ≤ 2147483647) := by
    rw [List.length_replicate]
    simp only [zero_add]
    omega
  rw [if_neg hgt] at h
  simp only [ft_printf_int, h, Option.map_none']

/-- C1, where the claim fails: a template of `2^31` bytes `a` holds no `%`, and
its length `2^31` is not a value of `int`; the `2^31`-th call of
`ft_putcharacter_length` adds 1 to a counter that holds `INT_MAX`, and the call
has no `int` to return that is the length of the template. -/
theorem ft_printf_literal_overflow :
    ft_printf_int (formatters linux_build) (List.replicate 2147483648 97 ++ 0 :: []) [] = none
      ∧ (∀ (F : Formatters) (args : List Arg), writes_one F →
          ft_printf_int F (List.replicate 2147483648 97 ++ 0 :: []) args = none)
      ∧ 37 ∉ List.replicate 2147483648 97
      ∧ (List.replicate 2147483648 97).length = 2147483648
      ∧ ¬ int_range 2147483648 := by
  refine ⟨ft_printf_int_long_literal _ (formatters_writes_one linux_build) 2147483648
      (le_refl _) [],
    fun F args hF => ft_printf_int_long_literal F hF 2147483648 (le_refl _) args,
    fun h => absurd (List.eq_of_mem_replicate h) (by decide),
    List.length_replicate _ _, ?_⟩
  unfold int_range
  omega

/-- With monotone formatters the call on the `int` counter is the loop on the
count followed by the test that the count is an `int`. -/
theorem ft_printf_int_eq (F : Formatters)
    (hF : F.Each (fun f => ∀ s, s.length ≤ (f s).length)) (string : List Nat)
    (args : List Arg) :
    ft_printf_int F string args
      = (scan F string args ⟨[], 0⟩).bind fun r =>
          if r.1.length ≤ 2147483647 then some (r.1.length, r.1.out) else none := by
  rw [ft_printf_int, scan_int_eq F hF string args ⟨[], 0⟩ int_range_zero]
  cases h : scan F string args ⟨[], 0⟩ with
  | none => rfl
  | some r =>
    have hle := scan_le F hF string args ⟨[], 0⟩ r h
    simp only [Option.some_bind]
    by_cases hr : r.1.length ≤ 2147483647
    · have hi : int_range r.1.length := ⟨le_trans (by decide) hle, hr⟩
      rw [if_pos hi, if_pos hr]
      rfl
    · have hi : ¬ int_range r.1.length := fun hi => hr hi.2
      rw [if_neg hi, if_neg hr]
      rfl

/-- C2, for outputs of at most `INT_MAX` bytes: on a template that does not
end in a lone `%`, with arguments of the types its directives read and
formatters that add to the counter exactly the number of bytes they write, the
loop writes some bytes `out`; when they are at most `INT_MAX`, `ft_printf`
returns and the `int` returned is their number; when they are more, the
counter has left the range of `int` and no value is returned. -/
theorem ft_printf_returns_count (F : Formatters) (hF : F.Counting) (t junk : List Nat)
    (args : List Arg) (hnul : no_nul t) (hlone : ends_lone t = false)
    (hk : kinds_match (directives t) args = true) :
    ∃ out : List Nat,
      scan F (t ++ 0 :: junk) args ⟨[], 0⟩
          = some (⟨out, (out.length : Int)⟩, args.drop (directives t).length)
        ∧ ft_printf_int F (t ++ 0 :: junk) args
          = if (out.length : Int) ≤ 2147483647 then some ((out.length : Int), out)
            else none := by
  obtain ⟨s1, h1, bytes, hb⟩ := scan_template F
    (fun s s1 => ∃ bytes : List Nat, s1 = ⟨s.out ++ bytes, s.length + bytes.length⟩)
    (fun s => ⟨[], by simp⟩)
    (fun a b c hab hbc => by
      obtain ⟨x, hx⟩ := hab
      obtain ⟨y, hy⟩ := hbc
      refine ⟨x ++ y, ?_⟩
      subst hx; subst hy
      simp [add_assoc])
    (fun c s => hF.putcharacter c s)
    (fun c a s => format_arg_counts F hF c a s)
    junk t hnul hlone args ⟨[], 0⟩ hk
  simp only [List.nil_append, zero_add] at hb
  subst hb
  refine ⟨bytes, h1, ?_⟩
  rw [ft_printf_int_eq F (Formatters.Each.mono (fun f hf => counts_le hf) hF.each), h1]
  rfl

/-- The directive `%s` on the `int` counter. -/
theorem ft_printf_int_string (b : Build) (text junk : List Nat) (rest : List Arg) :
    ft_printf_int (formatters b) (37 :: 115 :: 0 :: junk) (Arg.str (some text) :: rest)
      = if (text.length : Int) ≤ 2147483647 then some ((text.length : Int), text)
        else none := by
  rw [ft_printf_int_eq _
    (Formatters.Each.mono (fun f hf => counts_le hf) (formatters_counting b).each)]
  simp [scan_pair, dispatch, va_arg_str, scan_zero, formatters, ft_string, emit]

/-- C2, where the claim fails: `ft_printf("%s", s)` with `s` a string of `2^31`
bytes writes `2^31` bytes, a number that is not a value of `int`: the counter
leaves the range of `int` and the call has no `int` to return that equals the
number of bytes written. -/
theorem ft_printf_count_overflow :
    ft_printf_int (formatters linux_build) (37 :: 115 :: 0 :: [])
        [Arg.str (some (List.replicate 2147483648 97))] = none
      ∧ (∀ text : List Nat, kinds_match (directives [37, 115]) [Arg.str (some text)] = true)
      ∧ ends_lone [37, 115] = false
      ∧ (List.replicate 2147483648 97).length = 2147483648
      ∧ ¬ int_range 2147483648 := by
  refine ⟨?_, fun _ => rfl, rfl, List.length_replicate _ _, ?_⟩
  · rw [ft_printf_int_string, List.length_replicate, if_neg]
    omega
  · unfold int_range
    omega

/-- Arguments are consumed from left to right, one per recognized directive,
on every template that does not end in a lone `%`.  There the loop returns
with exactly as many arguments consumed as the template has recognized
directives; the directive
standing after a part `pre` of the template is formatted from the argument
whose index is the number of recognized directives in `pre`, and the rest of
the template goes on with the arguments after it; a code byte that is not
recognized (`%` included) leaves the arguments as they are. -/
theorem ft_printf_args_in_order (F : Formatters) (t junk : List Nat) (args : List Arg)
    (s : Sink) (hnul : no_nul t) (hlone : ends_lone t = false)
    (hk : kinds_match (directives t) args = true) :
    (∃ s1, scan F (t ++ 0 :: junk) args s = some (s1, args.drop (directives t).length))
      ∧ (directives t).length ≤ args.length
      ∧ (∀ pre c post, t = pre ++ 37 :: c :: post → ends_lone pre = false →
          recognized c = true →
          ∃ s1 a, scan F (pre ++ [0]) args s = some (s1, args.drop (directives pre).length)
            ∧ args[(directives pre).length]? = some a
            ∧ accepts c a = true
            ∧ scan F (t ++ 0 :: junk) args s
                = scan F (post ++ 0 :: junk) (args.drop ((directives pre).length + 1))
                    (format_arg F c a s1))
      ∧ (∀ c, recognized c = false → ∀ (args1 : List Arg) (s1 : Sink),
          (dispatch F c args1 s1).map Prod.snd = some args1) := by
  refine ⟨?_, kinds_match_length _ _ hk, ?_, ?_⟩
  · obtain ⟨s1, h1, _⟩ := scan_template F (fun _ _ => True) (fun _ => trivial)
      (fun _ _ _ _ _ => trivial) (fun _ _ => trivial) (fun _ _ _ => trivial)
      junk t hnul hlone args s hk
    exact ⟨s1, h1⟩
  · intro pre c post ht hpre hc
    subst ht
    have hd : directives (pre ++ 37 :: c :: post) = directives pre ++ c :: directives post := by
      rw [directives_append _ pre hpre]
      simp [directives, hc]
    rw [hd] at hk
    obtain ⟨hk1, hk2⟩ := kinds_match_append _ _ args hk
    obtain ⟨a, rest, hargs, hacc, _⟩ := kinds_match_cons _ _ _ hk2
    have hnul1 : no_nul pre := no_nul_append_left hnul
    obtain ⟨s1, h1, _⟩ := scan_template F (fun _ _ => True) (fun _ => trivial)
      (fun _ _ _ _ _ => trivial) (fun _ _ => trivial) (fun _ _ _ => trivial)
      [] pre hnul1 hpre args s hk1
    have hrest : args.drop ((directives pre).length + 1) = rest := by
      rw [← List.drop_drop, hargs]
      rfl
    have hget : args[(directives pre).length]? = some a := by
      have := List.head?_drop args (directives pre).length
      rw [hargs] at this
      simpa using this.symm
    refine ⟨s1, a, h1, hget, hacc, ?_⟩
    rw [List.append_assoc, scan_append F _ pre hnul1 hpre, h1, hrest]
    simp [hargs, scan_pair, dispatch_accepts F c a rest s1 hacc]
  · intro c hc args1 s1
    simp [dispatch_unrecognized F c args1 s1 hc]

/-- C4: a `%` followed by a code byte that is none of `c s d i u x X p %` is
dropped whole: after a part `pre` that does not end in an unpaired `%`, the
template with the two bytes and the template without them give the same
output, the same returned value and the same use of the arguments; the
dispatcher writes nothing and consumes nothing for it.  `ft_printf("%q", 1)`
writes nothing, returns 0 and leaves its argument. -/
theorem ft_printf_unsupported (F : Formatters) (k : Nat) (pre post junk : List Nat)
    (args : List Arg) (s : Sink) (hk : recognized k = false) (hk37 : k ≠ 37)
    (hnul : no_nul pre) (hlone : ends_lone pre = false) :
    scan F (pre ++ 37 :: k :: post ++ 0 :: junk) args s
        = scan F (pre ++ post ++ 0 :: junk) args s
      ∧ ft_printf F (pre ++ 37 :: k :: post ++ 0 :: junk) args
        = ft_printf F (pre ++ post ++ 0 :: junk) args
      ∧ dispatch F k args s = some (s, args)
      ∧ ft_printf F (37 :: 113 :: 0 :: junk) [Arg.int 1] = some (0, [])
      ∧ (scan F (37 :: 113 :: 0 :: junk) [Arg.int 1] ⟨[], 0⟩).map Prod.snd
        = some [Arg.int 1] := by
  have hd : ∀ (a : List Arg) (x : Sink), dispatch F k a x = some (x, a) := by
    intro a x
    simp [dispatch_unrecognized F k a x hk, hk37]
  have key : ∀ (a : List Arg) (x : Sink),
      scan F (pre ++ 37 :: k :: post ++ 0 :: junk) a x
        = scan F (pre ++ post ++ 0 :: junk) a x := by
    intro a x
    rw [List.append_assoc, List.append_assoc, scan_append F _ pre hnul hlone,
      scan_append F (post ++ 0 :: junk) pre hnul hlone]
    congr 1
    funext r
    simp [scan_pair, hd]
  refine ⟨key args s, ?_, hd args s, ?_, ?_⟩
  · simp only [ft_printf, key]
  · simp [ft_printf, scan_pair, dispatch, scan_zero]
  · simp [scan_pair, dispatch, scan_zero]

/-- C5, the behaviour of the code: when `%` is the last byte of the template
the loop steps over the terminating NUL and goes on with the bytes that
follow it in memory, whatever came before.  With `A` and a NUL after the
terminator, `ft_printf("%")` writes `A` and returns 1; with nothing mapped
after the terminator the read is a fault. -/
theorem ft_printf_trailing_percent_overrun :
    (∀ (F : Formatters) (junk : List Nat) (args : List Arg) (s : Sink),
        scan F (37 :: 0 :: junk) args s = scan F junk args s)
      ∧ (∀ (F : Formatters) (pre junk : List Nat) (args : List Arg) (s : Sink),
          no_nul pre → ends_lone pre = false →
          scan F ((pre ++ [37]) ++ 0 :: junk) args s
            = (scan F (pre ++ [0]) args s).bind (fun r => scan F junk r.2 r.1))
      ∧ (∀ F : Formatters, ft_printf F [37, 0] [] = none)
      ∧ (∀ b : Build, ft_printf (formatters b) [37, 0, 65, 0] [] = some (1, [65])) := by
  have h : ∀ (F : Formatters) (junk : List Nat) (args : List Arg) (s : Sink),
      scan F (37 :: 0 :: junk) args s = scan F junk args s := by
    intro F junk args s
    simp [scan_pair, dispatch]
  refine ⟨h, ?_, ?_, ?_⟩
  · intro F pre junk args s hnul hlone
    rw [List.append_assoc, scan_append F _ pre hnul hlone]
    simp only [List.singleton_append, h]
  · intro F
    rw [ft_printf, h]
    rfl
  · intro b
    rfl

/-- C3, the behaviour of the code on a template that ends in a lone `%`: the
template `%` holds no recognized directive, yet when the bytes `%d` and a NUL
follow its terminator in memory the loop steps over the terminator, takes
`%d` for a directive and consumes the argument, writing `5` and returning 1. -/
theorem ft_printf_lone_percent_consumes_argument :
    directives [37] = []
      ∧ (∀ (F : Formatters) (s : Sink),
          scan F ([37] ++ 0 :: [37, 100, 0]) [Arg.int 5] s = some (F.ft_number 5 s, []))
      ∧ (∀ b : Build, ft_printf (formatters b) ([37] ++ 0 :: [37, 100, 0]) [Arg.int 5]
          = some (1, [53])) := by
  refine ⟨rfl, ?_, ?_⟩
  · intro F s
    simp [scan_pair, dispatch, va_arg_int, scan_zero]
  · intro b
    rfl

/-- C7: `%i` is the same as `%d`.  Both are dispatched to `ft_number` with the
next argument read as an `int`, and replacing a directive `%i` by `%d` in a
template (after a part `pre` that does not end in an unpaired `%`) changes
neither the output, nor the returned value, nor the arguments left. -/
theorem ft_printf_i_same_as_d (F : Formatters) (pre post junk : List Nat)
    (args : List Arg) (s : Sink) (hnul : no_nul pre) (hlone : ends_lone pre = false) :
    scan F (pre ++ 37 :: 105 :: post ++ 0 :: junk) args s
        = scan F (pre ++ 37 :: 100 :: post ++ 0 :: junk) args s
      ∧ ft_printf F (pre ++ 37 :: 105 :: post ++ 0 :: junk) args
        = ft_printf F (pre ++ 37 :: 100 :: post ++ 0 :: junk) args
      ∧ (∀ (n : Int) (rest : List Arg) (x : Sink),
          dispatch F 105 (Arg.int n :: rest) x = some (F.ft_number n x, rest)
            ∧ dispatch F 100 (Arg.int n :: rest) x = some (F.ft_number n x, rest))
      ∧ (∀ (a : List Arg) (x : Sink), dispatch F 105 a x = dispatch F 100 a x) := by
  have hd : ∀ (a : List Arg) (x : Sink), dispatch F 105 a x = dispatch F 100 a x := by
    intro a x
    simp [dispatch]
  have key : ∀ (a : List Arg) (x : Sink),
      scan F (pre ++ 37 :: 105 :: post ++ 0 :: junk) a x
        = scan F (pre ++ 37 :: 100 :: post ++ 0 :: junk) a x := by
    intro a x
    rw [List.append_assoc, List.append_assoc, scan_append F _ pre hnul hlone,
      scan_append F (37 :: 100 :: post ++ 0 :: junk) pre hnul hlone]
    simp only [List.cons_append, scan_pair, hd]
  refine ⟨key args s, ?_, ?_, hd⟩
  · simp only [ft_printf, key]
  · intro n rest x
    simp [dispatch, va_arg_int]

/-- C8: `ft_printf("%d", n)` writes the minimal decimal text of `n` and returns
its length, for every integer `n` (so for every `int`, 0 and `INT_MIN`
included): a `-` exactly when `n` is negative, then a non-empty string of
digits below 10 that denotes `|n|` and starts with `0` only when it is `0`.
42 gives `42` and 2, -17 gives `-17` and 3 (with the body of `ft_number`
modelled from the spec). -/
theorem ft_printf_d_decimal (b : Build) (n : Int) (junk : List Nat) :
    (∃ ds : List Nat,
        ft_printf (formatters b) (37 :: 100 :: 0 :: junk) [Arg.int n]
          = some ((((if n < 0 then [45] else []) ++ ds.map (fun d => d + 48)).length : Int),
              (if n < 0 then [45] else []) ++ ds.map (fun d => d + 48))
        ∧ ds ≠ [] ∧ (∀ d ∈ ds, d < 10) ∧ (ds.head? = some 0 → ds = [0])
        ∧ value 10 ds = n.natAbs)
      ∧ ft_printf (formatters b) (37 :: 100 :: 0 :: junk) [Arg.int 42] = some (2, [52, 50])
      ∧ ft_printf (formatters b) (37 :: 100 :: 0 :: junk) [Arg.int (-17)]
          = some (3, [45, 49, 55])
      ∧ ft_printf (formatters b) (37 :: 100 :: 0 :: junk) [Arg.int 0] = some (1, [48])
      ∧ ft_printf (formatters b) (37 :: 100 :: 0 :: junk) [Arg.int (-2147483648)]
          = some (11, [45, 50, 49, 52, 55, 52, 56, 51, 54, 52, 56]) := by
  refine ⟨?_, ?_, ?_, ?_, ?_⟩
  · obtain ⟨hv, hd, hne, hhead⟩ :=
      digits_be_spec 10 (by decide) (n.natAbs + 1) n.natAbs (Nat.lt_succ_self _)
    refine ⟨digits_be 10 (n.natAbs + 1) n.natAbs, ?_, hne, hd, hhead, hv⟩
    rw [ft_printf_single _ 100 (Arg.int n) junk (by simp [accepts])]
    have hc : decimal_char = fun d => d + 48 := rfl
    simp [format_arg, formatters, ft_number, emit, sign_text, decimal_text, hc]
  · rw [ft_printf_single _ 100 (Arg.int 42) junk (by decide)]; rfl
  · rw [ft_printf_single _ 100 (Arg.int (-17)) junk (by decide)]; rfl
  · rw [ft_printf_single _ 100 (Arg.int 0) junk (by decide)]; rfl
  · rw [ft_printf_single _ 100 (Arg.int (-2147483648)) junk (by decide)]; rfl

/-- C9: `ft_printf("%x", v)` writes the minimal hexadecimal text of `v` in
lowercase and returns its length, and `ft_printf("%X", v)` writes the same
digits in uppercase and returns the same value: a non-empty string of digits
below 16 that denotes `v` and starts with `0` only when it is `0`, with no
prefix.  255 gives `ff` and `FF`, each with 2.  The dispatcher hands the code
byte of the directive to `ft_hexadecimal` (with the body of `ft_hexadecimal`
modelled from the spec). -/
theorem ft_printf_x_hexadecimal (b : Build) (v : Nat) (junk : List Nat) :
    (∃ ds : List Nat,
        ft_printf (formatters b) (37 :: 120 :: 0 :: junk) [Arg.uint v]
          = some ((ds.length : Int), ds.map (hex_char false))
        ∧ ft_printf (formatters b) (37 :: 88 :: 0 :: junk) [Arg.uint v]
          = some ((ds.length : Int), ds.map (hex_char true))
        ∧ ds ≠ [] ∧ (∀ d ∈ ds, d < 16) ∧ (ds.head? = some 0 → ds = [0])
        ∧ value 16 ds = v)
      ∧ ft_printf (formatters b) (37 :: 120 :: 0 :: junk) [Arg.uint 255]
          = some (2, [102, 102])
      ∧ ft_printf (formatters b) (37 :: 88 :: 0 :: junk) [Arg.uint 255] = some (2, [70, 70])
      ∧ (∀ (F : Formatters) (u : Nat) (rest : List Arg) (s : Sink),
          dispatch F 120 (Arg.uint u :: rest) s = some (F.ft_hexadecimal u 120 s, rest)
            ∧ dispatch F 88 (Arg.uint u :: rest) s = some (F.ft_hexadecimal u 88 s, rest)) := by
  refine ⟨?_, ?_, ?_, ?_⟩
  · obtain ⟨hv, hd, hne, hhead⟩ := digits_be_spec 16 (by decide) (v + 1) v (Nat.lt_succ_self _)
    refine ⟨digits_be 16 (v + 1) v, ?_, ?_, hne, hd, hhead, hv⟩
    · rw [ft_printf_single _ 120 (Arg.uint v) junk (by simp [accepts])]
      simp [format_arg, formatters, ft_hexadecimal, emit, hex_text]
    · rw [ft_printf_single _ 88 (Arg.uint v) junk (by simp [accepts])]
      simp [format_arg, formatters, ft_hexadecimal, emit, hex_text]
  · rw [ft_printf_single _ 120 (Arg.uint 255) junk (by decide)]; rfl
  · rw [ft_printf_single _ 88 (Arg.uint 255) junk (by decide)]; rfl
  · intro F u rest s
    simp [dispatch, va_arg_uint]

/-- C10: `ft_printf("%p", 0)` writes the constant `PTR_NULL` and returns its
length: `(nil)` and 5 when `__APPLE__` is not defined, `0x0` and 3 when it
is.  Nothing but that build-time switch enters the result.  The dispatcher
hands the argument, read as a `size_t`, to `ft_pointer` (with the body of
`ft_pointer` modelled from the spec). -/
theorem ft_printf_p_null (b : Build) (junk : List Nat) :
    ft_printf (formatters b) (37 :: 112 :: 0 :: junk) [Arg.size 0]
        = some (((PTR_NULL b.apple).length : Int), PTR_NULL b.apple)
      ∧ ft_printf (formatters b) (37 :: 112 :: 0 :: junk) [Arg.size 0]
        = (if b.apple = true then some (3, [48, 120, 48])
            else some (5, [40, 110, 105, 108, 41]))
      ∧ (∀ (F : Formatters) (p : Nat) (rest : List Arg) (s : Sink),
          dispatch F 112 (Arg.size p :: rest) s = some (F.ft_pointer p s, rest)) := by
  have h : ft_printf (formatters b) (37 :: 112 :: 0 :: junk) [Arg.size 0]
      = some (((PTR_NULL b.apple).length : Int), PTR_NULL b.apple) := by
    rw [ft_printf_single _ 112 (Arg.size 0) junk (by decide)]
    simp [format_arg, formatters, ft_pointer, emit]
  refine ⟨h, ?_, ?_⟩
  · rw [h]
    cases b.apple <;> simp [PTR_NULL]
  · intro F p rest s
    simp [dispatch, va_arg_size]

/-- C11: `ft_printf` keeps no state from one call to the next.  The counter is
set to 0 at each entry and standard output is only written to, so a call made
after other output returns the same integer and appends the same bytes as the
call made on an empty stream; a second identical call returns what the first
returned and writes the same bytes again.  A template that does not end in a
lone `%` gives the same result whatever follows its terminator in memory. -/
theorem ft_printf_deterministic (F : Formatters) (hF : F.Each write_only)
    (string : List Nat) (args : List Arg) (stdout : List Nat) :
    ft_printf_on F stdout string args
        = (ft_printf F string args).map (fun r => (r.1, stdout ++ r.2))
      ∧ ft_printf_on F [] string args = ft_printf F string args
      ∧ (∀ r, ft_printf F string args = some r →
          ft_printf_on F r.2 string args = some (r.1, r.2 ++ r.2))
      ∧ (∀ t junk1 junk2 : List Nat, no_nul t → ends_lone t = false →
          ft_printf F (t ++ 0 :: junk1) args = ft_printf F (t ++ 0 :: junk2) args) := by
  have hT : ∀ out0 : List Nat,
      F.Each (fun f => ∀ s : Sink, f ⟨out0 ++ s.out, s.length⟩
        = (fun x : Sink => (⟨out0 ++ x.out, x.length⟩ : Sink)) (f s)) := by
    intro out0
    refine Formatters.Each.mono (fun f hf s => ?_) hF
    have h1 := hf (out0 ++ s.out) s.length
    have h2 := hf s.out s.length
    rw [h1]
    show _ = (⟨out0 ++ (f ⟨s.out, s.length⟩).out, (f ⟨s.out, s.length⟩).length⟩ : Sink)
    rw [h2]
    simp
  have key : ∀ out0 : List Nat, ft_printf_on F out0 string args
      = (ft_printf F string args).map (fun r => (r.1, out0 ++ r.2)) := by
    intro out0
    have h := scan_commute F (fun x : Sink => (⟨out0 ++ x.out, x.length⟩ : Sink)) (hT out0)
      string args ⟨[], 0⟩
    simp only [List.append_nil] at h
    simp [ft_printf_on, ft_printf, h, Option.map_map, Function.comp_def]
  refine ⟨key stdout, rfl, ?_, ?_⟩
  · intro r hr
    rw [key, hr]
    rfl
  · intro t junk1 junk2 hnul hlone
    simp only [ft_printf, scan_junk F t _ hnul hlone]

/-- With pure text producers, the loop on a template followed by more memory
is the loop on the template followed by the loop on what follows, run from an
empty sink with the arguments the first left: outputs concatenated, counts
added. -/
theorem scan_concat (F : Formatters) (hF : F.Each pure_text) (t1 rest : List Nat)
    (args : List Arg) (hnul : no_nul t1) (hlone : ends_lone t1 = false) :
    scan F (t1 ++ rest) args ⟨[], 0⟩
      = (scan F (t1 ++ [0]) args ⟨[], 0⟩).bind (fun r1 =>
          (scan F rest r1.2 ⟨[], 0⟩).map (fun r2 =>
            ((⟨r1.1.out ++ r2.1.out, r1.1.length + r2.1.length⟩ : Sink), r2.2))) := by
  have hT : ∀ s0 : Sink,
      F.Each (fun f => ∀ s : Sink, f ⟨s0.out ++ s.out, s0.length + s.length⟩
        = (fun x : Sink => (⟨s0.out ++ x.out, s0.length + x.length⟩ : Sink)) (f s)) := by
    intro s0
    refine Formatters.Each.mono (fun f hf s => ?_) hF
    obtain ⟨text, htext⟩ := hf
    simp [htext, add_assoc]
  rw [scan_append F _ t1 hnul hlone]
  cases h1 : scan F (t1 ++ [0]) args ⟨[], 0⟩ with
  | none => rfl
  | some r1 =>
    have h := scan_commute F
      (fun x : Sink => (⟨r1.1.out ++ x.out, r1.1.length + x.length⟩ : Sink)) (hT r1.1)
      rest r1.2 ⟨[], 0⟩
    simp only [List.append_nil, add_zero] at h
    simp only [Option.some_bind]
    exact h

/-- C14, for outputs of at most `INT_MAX` bytes: `ft_printf` is compositional
over concatenation of templates.  When `t1` does not end in an unpaired `%`
and every formatter is a pure text producer, the call on `t1 ++ t2` returns
exactly when the call on `t1` returns, the call on `t2` with the arguments the
first left returns, and the sum of the two returned values is at most
`INT_MAX`; it then writes what the first writes followed by what the second
writes and returns that sum. -/
theorem ft_printf_concat (F : Formatters) (hF : F.Each pure_text)
    (t1 t2 junk junk1 : List Nat) (args : List Arg) (hnul : no_nul t1)
    (hlone : ends_lone t1 = false) :
    ft_printf_int F (t1 ++ t2 ++ 0 :: junk) args
        = (scan_int F (t1 ++ 0 :: junk1) args ⟨[], 0⟩).bind (fun r1 =>
            (ft_printf_int F (t2 ++ 0 :: junk) r1.2).bind (fun r2 =>
              if r1.1.length + r2.1 ≤ 2147483647 then
                some (r1.1.length + r2.1, r1.1.out ++ r2.2)
              else none))
      ∧ ft_printf_int F (t1 ++ 0 :: junk1) args
        = (scan_int F (t1 ++ 0 :: junk1) args ⟨[], 0⟩).map
            (fun r1 => (r1.1.length, r1.1.out)) := by
  refine ⟨?_, rfl⟩
  have hM : F.Each (fun f => ∀ s, s.length ≤ (f s).length) :=
    Formatters.Each.mono (fun f hf => pure_text_le hf) hF
  rw [ft_printf_int_eq F hM, List.append_assoc, scan_concat F hF t1 _ args hnul hlone,
    scan_int_eq F hM _ args ⟨[], 0⟩ int_range_zero, scan_junk F t1 junk1 hnul hlone]
  cases h1 : scan F (t1 ++ [0]) args ⟨[], 0⟩ with
  | none => rfl
  | some r1 =>
    have h1le : (0 : Int) ≤ r1.1.length := scan_le F hM _ args ⟨[], 0⟩ r1 h1
    simp only [Option.some_bind]
    simp only [ft_printf_int_eq F hM (t2 ++ 0 :: junk)]
    cases h2 : scan F (t2 ++ 0 :: junk) r1.2 ⟨[], 0⟩ with
    | none =>
      by_cases hi1 : int_range r1.1.length
      · simp [hi1, h2]
      · simp [hi1]
    | some r2 =>
      have h2le : (0 : Int) ≤ r2.1.length := scan_le F hM _ r1.2 ⟨[], 0⟩ r2 h2
      simp only [Option.map_some', Option.some_bind]
      by_cases hs : r1.1.length + r2.1.length ≤ 2147483647
      · have hi1 : int_range r1.1.length := by
          unfold int_range
          omega
        have hi2 : r2.1.length ≤ 2147483647 := by omega
        simp [hs, hi1, hi2, h2]
      · rw [if_neg hs]
        by_cases hi1 : int_range r1.1.length
        · by_cases hi2 : r2.1.length ≤ 2147483647
          · simp [hs, hi1, hi2, h2]
          · simp [hi1, hi2, h2]
        · simp [hi1]

/-- Two directives `%s` on the `int` counter. -/
theorem ft_printf_int_two_strings (b : Build) (x y junk : List Nat) (rest : List Arg) :
    ft_printf_int (formatters b) (37 :: 115 :: 37 :: 115 :: 0 :: junk)
        (Arg.str (some x) :: Arg.str (some y) :: rest)
      = if (x.length : Int) + (y.length : Int) ≤ 2147483647 then
          some ((x.length : Int) + (y.length : Int), x ++ y)
        else none := by
  rw [ft_printf_int_eq _
    (Formatters.Each.mono (fun f hf => counts_le hf) (formatters_counting b).each)]
  simp [scan_pair, dispatch, va_arg_str, scan_zero, formatters, ft_string, emit]

theorem ft_printf_int_half (x y : List Nat) (hx : x.length = 1073741824)
    (hy : y.length = 1073741824) :
    ft_printf_int (formatters linux_build) ([37, 115] ++ [37, 115] ++ 0 :: [])
        [Arg.str (some x), Arg.str (some y)] = none
      ∧ ft_printf_int (formatters linux_build) ([37, 115] ++ 0 :: [])
        [Arg.str (some x), Arg.str (some y)] = some (1073741824, x)
      ∧ ft_printf_int (formatters linux_build) ([37, 115] ++ 0 :: [])
        [Arg.str (some y)] = some (1073741824, y) := by
  refine ⟨?_, ?_, ?_⟩
  · show ft_printf_int (formatters linux_build) (37 :: 115 :: 37 :: 115 :: 0 :: []) _ = none
    rw [ft_printf_int_two_strings, hx, hy, if_neg]
    omega
  · show ft_printf_int (formatters linux_build) (37 :: 115 :: 0 :: []) _ = _
    rw [ft_printf_int_string, hx, if_pos (by omega)]
    rfl
  · show ft_printf_int (formatters linux_build) (37 :: 115 :: 0 :: []) _ = _
    rw [ft_printf_int_string, hy, if_pos (by omega)]
    rfl

/-- C14, where the claim fails: with two strings of `2^30` bytes, the call on
`%s` returns `2^30` for the first and for the second, and the sum `2^31` of the
two returned values is not a value of `int`; on `%s%s` the counter leaves the
range of `int` and the call has no such sum to return. -/
theorem ft_printf_concat_overflow :
    ft_printf_int (formatters linux_build) ([37, 115] ++ [37, 115] ++ 0 :: [])
        [Arg.str (some (List.replicate 1073741824 97)),
          Arg.str (some (List.replicate 1073741824 97))] = none
      ∧ ft_printf_int (formatters linux_build) ([37, 115] ++ 0 :: [])
        [Arg.str (some (List.replicate 1073741824 97)),
          Arg.str (some (List.replicate 1073741824 97))]
        = some (1073741824, List.replicate 1073741824 97)
      ∧ ft_printf_int (formatters linux_build) ([37, 115] ++ 0 :: [])
        [Arg.str (some (List.replicate 1073741824 97))]
        = some (1073741824, List.replicate 1073741824 97)
      ∧ ends_lone [37, 115] = false
      ∧ ¬ int_range (1073741824 + 1073741824) := by
  obtain ⟨h1, h2, h3⟩ := ft_printf_int_half (List.replicate 1073741824 97)
    (List.replicate 1073741824 97) (List.length_replicate _ _) (List.length_replicate _ _)
  refine ⟨h1, h2, h3, rfl, ?_⟩
  unfold int_range
  omega

/-- C12: the counter is 0 at loop entry and never decreases.  With formatters
that count what they write and `ft_putcharacter_length` writing its byte and
adding 1, an iteration on a literal byte or on `%%` raises the counter by
exactly 1, an iteration on a recognized directive raises it by the length of
the text written, an iteration on an unsupported directive leaves the sink as
it is; so the counter is non-negative after any number of iterations and
grows from each state to every later one, and the value returned is the
counter at the exit. -/
theorem ft_printf_counter (F : Formatters) (hF : F.Counting) (hput : writes_one F)
    (string : List Nat) (args : List Arg) :
    (entry string args).sink.length = 0
      ∧ (∀ c c1 : Config, step F c = Step.next c1 →
          c.sink.length ≤ c1.sink.length
          ∧ (∀ b rest, c.string = b :: rest → b ≠ 37 →
              c1.sink = ⟨c.sink.out ++ [b], c.sink.length + 1⟩)
          ∧ (∀ rest, c.string = 37 :: 37 :: rest →
              c1.sink = ⟨c.sink.out ++ [37], c.sink.length + 1⟩)
          ∧ (∀ k rest, c.string = 37 :: k :: rest → recognized k = true →
              ∃ text : List Nat,
                c1.sink = ⟨c.sink.out ++ text, c.sink.length + text.length⟩)
          ∧ (∀ k rest, c.string = 37 :: k :: rest → recognized k = false → k ≠ 37 →
              c1.sink = c.sink))
      ∧ (∀ (n : Nat) (c : Config), iter F n (entry string args) = some c →
          0 ≤ c.sink.length)
      ∧ (∀ (m n : Nat) (c1 c2 : Config), iter F m (entry string args) = some c1 →
          iter F (m + n) (entry string args) = some c2 → c1.sink.length ≤ c2.sink.length)
      ∧ (∀ (n : Nat) (c : Config), iter F n (entry string args) = some c →
          step F c = Step.exit → ft_printf F string args = some (c.sink.length, c.sink.out)) := by
  refine ⟨rfl, ?_, ?_, ?_, ?_⟩
  · intro c c1 h
    obtain ⟨text, ht⟩ := step_counts F hF c c1 h
    refine ⟨?_, ?_, ?_, ?_, ?_⟩
    · rw [ht]
      have : (0 : Int) ≤ (text.length : Int) := Int.natCast_nonneg _
      simp only
      omega
    · intro b rest hs hb
      obtain ⟨string1, args1, s⟩ := c
      simp only at hs
      subst hs
      by_cases hb0 : b = 0
      · simp [step, hb0] at h
      · simp only [step, hb0, hb, if_false, Step.next.injEq] at h
        subst h
        exact hput b s
    · intro rest hs
      obtain ⟨string1, args1, s⟩ := c
      simp only at hs
      subst hs
      simp only [step, dispatch, OfNat.ofNat_ne_zero, if_false, if_true, Nat.reduceEqDiff,
        false_or, or_false, Step.next.injEq] at h
      subst h
      exact hput 37 s
    · intro k rest _ _
      exact ⟨text, ht⟩
    · intro k rest hs hk hk37
      obtain ⟨string1, args1, s⟩ := c
      simp only at hs
      subst hs
      simp only [step, dispatch_unrecognized F k args1 s hk, hk37, OfNat.ofNat_ne_zero,
        if_false, if_true, Step.next.injEq] at h
      subst h
      rfl
  · intro n c h
    exact iter_mono F hF n _ c h
  · intro m n c1 c2 h1 h2
    rw [iter_add, h1] at h2
    exact iter_mono F hF n c1 c2 h2
  · intro n c h hexit
    have := scan_iter F n _ c h hexit
    simp only [entry] at this
    simp [ft_printf, this]

/-- Whatever the arguments, every state the loop reaches within a template
that does not end in a lone `%` stands before a piece of the template: the
pieces are taken in order, none is skipped. -/
theorem iter_position (F : Formatters) (rest : List Nat) :
    ∀ t : List Nat, no_nul t → ends_lone t = false →
      ∀ (args : List Arg) (s : Sink) (i : Nat) (c : Config), i ≤ (chunks t).length →
      iter F i ⟨t ++ rest, args, s⟩ = some c →
      c.string = ((chunks t).drop i).flatten ++ rest := by
  intro t
  induction t using pair_induction with
  | h0 =>
    intro _ _ args s i c hi h
    simp only [chunks, List.length_nil, Nat.le_zero] at hi
    subst hi
    simp only [iter, Option.some.injEq] at h
    subst h
    simp [chunks]
  | h1 b =>
    intro hnul hlone args s i c hi h
    have hb0 := (no_nul_cons hnul).1
    have hb37 : b ≠ 37 := by simpa [ends_lone] using hlone
    simp only [chunks, List.length_singleton] at hi
    rcases Nat.le_one_iff_eq_zero_or_eq_one.1 hi with h0 | h1
    · subst h0
      simp only [iter, Option.some.injEq] at h
      subst h
      simp [chunks]
    · subst h1
      simp only [iter, step, List.singleton_append, hb0, hb37, if_false,
        Option.some.injEq] at h
      subst h
      simp [chunks]
  | h2 b k t ih1 ih2 =>
    intro hnul hlone args s i c hi h
    have hb0 := (no_nul_cons hnul).1
    have hnul1 := (no_nul_cons hnul).2
    cases i with
    | zero =>
      simp only [iter, Option.some.injEq] at h
      subst h
      simp [chunks_flatten]
    | succ j =>
      by_cases hb : b = 37
      · subst hb
        have hlone1 : ends_lone t = false := by simpa [ends_lone] using hlone
        simp only [chunks, if_true, List.length_cons, Nat.add_le_add_iff_right] at hi
        simp only [iter, step, List.cons_append] at h
        cases hd : dispatch F k args s with
        | none => simp [hd] at h
        | some r =>
          simp only [hd, OfNat.ofNat_ne_zero, if_false, if_true] at h
          have := ih1 (no_nul_cons hnul1).2 hlone1 r.2 r.1 j c hi h
          simpa [chunks] using this
      · have hlone1 : ends_lone (k :: t) = false := by simpa [ends_lone, hb] using hlone
        simp only [chunks, hb, if_false, List.length_cons, Nat.add_le_add_iff_right] at hi
        simp only [iter, step, List.cons_append, hb0, hb, if_false] at h
        have := ih2 hnul1 hlone1 args (F.ft_putcharacter_length b s) j c hi
          (by simpa using h)
        simpa [chunks, hb] using this

/-- C13: on a template that does not end in a lone `%` the loop visits every
byte of the template once, from left to right, and terminates.  The template
splits into pieces, a literal byte or a `%` with the byte after it; iteration
`i` takes piece `i`: every state reached after `i` iterations has `string`
before the pieces not yet taken, so `string` never moves back and never
passes the terminating NUL; no more iterations run than there are pieces, at
most the length of the template.  With arguments of the types the directives
read, all these iterations run and the loop exits with `string` at the
terminator. -/
theorem ft_printf_scan_once (F : Formatters) (t junk : List Nat) (args : List Arg) (s : Sink)
    (hnul : no_nul t) (hlone : ends_lone t = false) :
    (chunks t).flatten = t
      ∧ (∀ ch ∈ chunks t, (∃ b, ch = [b] ∧ b ≠ 37 ∧ b ≠ 0) ∨ (∃ k, ch = [37, k]))
      ∧ (chunks t).length ≤ t.length
      ∧ (∀ i c, iter F i ⟨t ++ 0 :: junk, args, s⟩ = some c →
          i ≤ (chunks t).length ∧ c.string = ((chunks t).drop i).flatten ++ 0 :: junk)
      ∧ (∀ n, (chunks t).length < n → iter F n ⟨t ++ 0 :: junk, args, s⟩ = none)
      ∧ (kinds_match (directives t) args = true →
          (∀ i, i ≤ (chunks t).length → ∃ c, iter F i ⟨t ++ 0 :: junk, args, s⟩ = some c)
          ∧ ∃ c, iter F (chunks t).length ⟨t ++ 0 :: junk, args, s⟩ = some c
              ∧ c.string = 0 :: junk ∧ step F c = Step.exit) := by
  have hbound : ∀ n, (chunks t).length < n → iter F n ⟨t ++ 0 :: junk, args, s⟩ = none := by
    intro n hn
    obtain ⟨d, hd⟩ := Nat.exists_eq_add_of_lt hn
    have hn1 : n = (chunks t).length + (d + 1) := by omega
    rw [hn1, iter_add]
    cases h1 : iter F (chunks t).length ⟨t ++ 0 :: junk, args, s⟩ with
    | none => rfl
    | some c =>
      have h2 := iter_position F (0 :: junk) t hnul hlone args s _ c (le_refl _) h1
      simp only [List.drop_length, List.flatten_nil, List.nil_append] at h2
      obtain ⟨string1, args1, s1⟩ := c
      simp only at h2
      subst h2
      simp [iter, step]
  refine ⟨chunks_flatten t, chunks_shape t hnul hlone, chunks_length t, ?_, hbound, ?_⟩
  · intro i c h
    have hi : i ≤ (chunks t).length := by
      by_contra hgt
      rw [hbound i (by omega)] at h
      simp at h
    exact ⟨hi, iter_position F (0 :: junk) t hnul hlone args s i c hi h⟩
  · intro hk
    refine ⟨fun i hi => ?_, ?_⟩
    · obtain ⟨c, h1, _⟩ := iter_chunks F (0 :: junk) t hnul hlone args s hk i hi
      exact ⟨c, h1⟩
    · obtain ⟨c, h1, h2⟩ := iter_chunks F (0 :: junk) t hnul hlone args s hk _ (le_refl _)
      simp only [List.drop_length, List.flatten_nil, List.nil_append] at h2
      refine ⟨c, h1, h2, ?_⟩
      obtain ⟨string1, args1, s1⟩ := c
      simp only at h2
      subst h2
      simp [step]

/-! ## Instances at concrete calls -/

theorem ft_printf_literal_only_witness :
    no_nul [104, 105] ∧ 37 ∉ [104, 105]
      ∧ ft_printf_int (formatters linux_build) ([104, 105] ++ 0 :: [7]) [Arg.int 7]
          = some (2, [104, 105]) :=
  ⟨by decide, by decide,
    (ft_printf_literal_only (formatters linux_build) (formatters_writes_one linux_build)
      [104, 105] [7] [Arg.int 7] (by decide) (by decide) (by decide)).1⟩

theorem ft_printf_returns_count_witness :
    kinds_match (directives [97, 37, 100, 37, 115, 37, 37])
        [Arg.int (-3), Arg.str (some [104, 105])] = true
      ∧ ft_printf_int (formatters linux_build) [97, 37, 100, 37, 115, 37, 37, 0]
          [Arg.int (-3), Arg.str (some [104, 105])] = some (6, [97, 45, 51, 104, 105, 37])
      ∧ ∃ out : List Nat,
          scan (formatters linux_build) ([97, 37, 100, 37, 115, 37, 37] ++ 0 :: [])
              [Arg.int (-3), Arg.str (some [104, 105])] ⟨[], 0⟩
            = some (⟨out, (out.length : Int)⟩,
                [Arg.int (-3), Arg.str (some [104, 105])].drop
                  (directives [97, 37, 100, 37, 115, 37, 37]).length)
          ∧ ft_printf_int (formatters linux_build)
              ([97, 37, 100, 37, 115, 37, 37] ++ 0 :: [])
              [Arg.int (-3), Arg.str (some [104, 105])]
            = if (out.length : Int) ≤ 2147483647 then some ((out.length : Int), out)
              else none :=
  ⟨by decide, by decide,
    ft_printf_returns_count (formatters linux_build) (formatters_counting linux_build)
      [97, 37, 100, 37, 115, 37, 37] [] [Arg.int (-3), Arg.str (some [104, 105])]
      (by decide) (by decide) (by decide)⟩

theorem ft_printf_unsupported_witness :
    recognized 113 = false ∧ ends_lone [97] = false
      ∧ ft_printf (formatters linux_build) ([97] ++ 37 :: 113 :: [37, 100] ++ 0 :: [])
            [Arg.int 1]
          = ft_printf (formatters linux_build) ([97] ++ [37, 100] ++ 0 :: []) [Arg.int 1]
      ∧ ft_printf (formatters linux_build) ([97] ++ [37, 100] ++ 0 :: []) [Arg.int 1]
          = some (2, [97, 49]) :=
  ⟨by decide, by decide,
    (ft_printf_unsupported (formatters linux_build) 113 [97] [37, 100] [] [Arg.int 1] ⟨[], 0⟩
      (by decide) (by decide) (by decide) (by decide)).2.1,
    by decide⟩

theorem ft_printf_i_same_as_d_witness :
    no_nul [97] ∧ ends_lone [97] = false
      ∧ ft_printf (formatters linux_build) ([97] ++ 37 :: 105 :: [98] ++ 0 :: []) [Arg.int 12]
          = ft_printf (formatters linux_build) ([97] ++ 37 :: 100 :: [98] ++ 0 :: [])
              [Arg.int 12]
      ∧ ft_printf (formatters linux_build) ([97] ++ 37 :: 105 :: [98] ++ 0 :: []) [Arg.int 12]
          = some (4, [97, 49, 50, 98]) :=
  ⟨by decide, by decide,
    (ft_printf_i_same_as_d (formatters linux_build) [97] [98] [] [Arg.int 12] ⟨[], 0⟩
      (by decide) (by decide)).2.1,
    by decide⟩

end FtPrintf

namespace Libft

open FtPrintf (no_nul no_nul_cons)

/-! ## Memory and strings -/

theorem write_eq (p : List Nat) (i v : Nat) (h : i < p.length) :
    write p i v = some (p.set i v) := by
  simp [write, h]

theorem ft_strlen_string (s junk : List Nat) (hnul : no_nul s) :
    ft_strlen (s ++ 0 :: junk) = some s.length := by
  induction s with
  | nil => simp [ft_strlen]
  | cons b s ih =>
    have hb := (no_nul_cons hnul).1
    simp [ft_strlen, hb, ih (no_nul_cons hnul).2]

/-- The downward copy, when `src` lies at or below `dst`: the bytes of the
source region as they were before arrive in the destination region, all
other bytes stay. -/
theorem copy_down_spec (d s : Nat) (hsd : s ≤ d) :
    ∀ (a : Nat) (mem : List Nat), d + a ≤ mem.length →
      ∃ m, Pushswap.copy_down d s a mem = some m ∧ m.length = mem.length
        ∧ ∀ j, m[j]? = if d ≤ j ∧ j < d + a then mem[s + (j - d)]? else mem[j]? := by
  intro a
  induction a with
  | zero =>
    intro mem _
    refine ⟨mem, rfl, rfl, fun j => ?_⟩
    have : ¬ (d ≤ j ∧ j < d + 0) := by omega
    rw [if_neg this]
  | succ a ih =>
    intro mem hlen
    have hs : s + a < mem.length := by omega
    have hd : d + a < mem.length := by omega
    obtain ⟨m, hm, hmlen, hmj⟩ := ih (mem.set (d + a) mem[s + a]) (by simp; omega)
    refine ⟨m, ?_, by simpa using hmlen, fun j => ?_⟩
    · simp [Pushswap.copy_down, List.getElem?_eq_getElem hs, write_eq mem _ _ hd, hm]
    · rw [hmj j]
      simp only [List.getElem?_set]
      by_cases h1 : d ≤ j ∧ j < d + a
      · have h2 : d ≤ j ∧ j < d + (a + 1) := by omega
        have h3 : ¬ (d + a = s + (j - d)) := by omega
        simp [h1, h2, h3]
      · by_cases h4 : j = d + a
        · subst h4
          have h2 : d ≤ d + a ∧ d + a < d + (a + 1) := by omega
          simp [h1, h2, hd, List.getElem?_eq_getElem hs]
        · have h2 : ¬ (d ≤ j ∧ j < d + (a + 1)) := by omega
          have h3 : ¬ (d + a = j) := by omega
          simp [h1, h2, h3]

/-- The upward copy, when `dst` lies at or below `src`. -/
theorem copy_up_spec (d s : Nat) (hds : d ≤ s) :
    ∀ (a i : Nat) (mem : List Nat), s + i + a ≤ mem.length →
      ∃ m, Pushswap.copy_up d s a i mem = some m ∧ m.length = mem.length
        ∧ ∀ j, m[j]? = if d + i ≤ j ∧ j < d + i + a then mem[s + (j - d)]? else mem[j]? := by
  intro a
  induction a with
  | zero =>
    intro i mem _
    refine ⟨mem, rfl, rfl, fun j => ?_⟩
    have : ¬ (d + i ≤ j ∧ j < d + i + 0) := by omega
    rw [if_neg this]
  | succ a ih =>
    intro i mem hlen
    have hs : s + i < mem.length := by omega
    have hd : d + i < mem.length := by omega
    obtain ⟨m, hm, hmlen, hmj⟩ := ih (i + 1) (mem.set (d + i) mem[s + i]) (by simp; omega)
    refine ⟨m, ?_, by simpa using hmlen, fun j => ?_⟩
    · simp [Pushswap.copy_up, List.getElem?_eq_getElem hs, write_eq mem _ _ hd, hm]
    · rw [hmj j]
      simp only [List.getElem?_set]
      by_cases h1 : d + (i + 1) ≤ j ∧ j < d + (i + 1) + a
      · have h2 : d + i ≤ j ∧ j < d + i + (a + 1) := by omega
        have h3 : ¬ (d + i = s + (j - d)) := by omega
        simp [h1, h2, h3]
      · by_cases h4 : j = d + i
        · subst h4
          have h2 : d + i ≤ d + i ∧ d + i < d + i + (a + 1) := by omega
          have h5 : s + (d + i - d) = s + i := by omega
          simp [h1, h2, hd, h5, List.getElem?_eq_getElem hs]
        · have h2 : ¬ (d + i ≤ j ∧ j < d + i + (a + 1)) := by omega
          have h3 : ¬ (d + i = j) := by omega
          simp [h1, h2, h3]

/-- C18: `ft_memmove` copies correctly even when the regions overlap.  On a
flat memory, with both regions in bounds, the call returns `dst`; afterwards
byte `dst + i` holds what byte `src + i` held before the call, for every
`i < a`, and every byte outside the destination region is unchanged.  The
copy of `src/printf/libft` and the copy of `src/pushswap/libft` do the
same. -/
theorem ft_memmove_overlap (mem : List Nat) (dst src a : Nat)
    (hd : dst + a ≤ mem.length) (hs : src + a ≤ mem.length) :
    ∃ m, Printf.ft_memmove mem (some dst) (some src) a = some (m, some dst)
      ∧ Pushswap.ft_memmove mem (some dst) (some src) a = some (m, some dst)
      ∧ m.length = mem.length
      ∧ (∀ i, i < a → m[dst + i]? = mem[src + i]?)
      ∧ (∀ j, j < dst ∨ dst + a ≤ j → m[j]? = mem[j]?) := by
  by_cases h : dst > src
  · obtain ⟨m, hm, hlen, hj⟩ := copy_down_spec dst src (by omega) a mem hd
    refine ⟨m, by simp [Printf.ft_memmove, h, hm], by simp [Pushswap.ft_memmove, h, hm],
      hlen, fun i hi => ?_, fun j hjr => ?_⟩
    · have h1 : dst ≤ dst + i ∧ dst + i < dst + a := by omega
      have h2 : dst + i - dst = i := by omega
      rw [hj, if_pos h1, h2]
    · have h1 : ¬ (dst ≤ j ∧ j < dst + a) := by omega
      rw [hj, if_neg h1]
  · obtain ⟨m, hm, hlen, hj⟩ := copy_up_spec dst src (by omega) a 0 mem (by omega)
    refine ⟨m, by simp [Printf.ft_memmove, h, hm], by simp [Pushswap.ft_memmove, h, hm],
      hlen, fun i hi => ?_, fun j hjr => ?_⟩
    · have h1 : dst + 0 ≤ dst + i ∧ dst + i < dst + 0 + a := by omega
      have h2 : dst + i - dst = i := by omega
      rw [hj, if_pos h1, h2]
    · have h1 : ¬ (dst + 0 ≤ j ∧ j < dst + 0 + a) := by omega
      rw [hj, if_neg h1]

theorem ft_memmove_overlap_witness :
    Printf.ft_memmove [1, 2, 3, 4, 5, 6] (some 1) (some 0) 4 = some ([1, 1, 2, 3, 4, 6], some 1)
      ∧ Printf.ft_memmove [1, 2, 3, 4, 5, 6] (some 0) (some 1) 4
          = some ([2, 3, 4, 5, 5, 6], some 0)
      ∧ ∃ m, Printf.ft_memmove [1, 2, 3, 4, 5, 6] (some 1) (some 0) 4 = some (m, some 1)
          ∧ Pushswap.ft_memmove [1, 2, 3, 4, 5, 6] (some 1) (some 0) 4 = some (m, some 1)
          ∧ m.length = [1, 2, 3, 4, 5, 6].length
          ∧ (∀ i, i < 4 → m[1 + i]? = [1, 2, 3, 4, 5, 6][0 + i]?)
          ∧ (∀ j, j < 1 ∨ 1 + 4 ≤ j → m[j]? = [1, 2, 3, 4, 5, 6][j]?) :=
  ⟨by decide, by decide, ft_memmove_overlap [1, 2, 3, 4, 5, 6] 1 0 4 (by decide) (by decide)⟩

/-- The loop of `ft_strlcpy` started at index `i` on the rest of a string:
it stores the next `min (siz - 1 - i) (strlen rest)` bytes from index `i` on
and leaves every other byte of `dst`. -/
theorem strlcpy_loop_spec (siz : Nat) (junk : List Nat) :
    ∀ (S dst : List Nat) (i : Nat), no_nul S → i + min (siz - 1 - i) S.length ≤ dst.length →
      ∃ d, Printf.strlcpy_loop siz (S ++ 0 :: junk) dst i
            = some (d, i + min (siz - 1 - i) S.length)
        ∧ d.length = dst.length
        ∧ ∀ j, d[j]? = if i ≤ j ∧ j < i + min (siz - 1 - i) S.length then S[j - i]?
            else dst[j]? := by
  intro S
  induction S with
  | nil =>
    intro dst i _ _
    refine ⟨dst, ?_, rfl, fun j => ?_⟩
    · rw [Printf.strlcpy_loop.eq_def]
      simp
    · have : ¬ (i ≤ j ∧ j < i + min (siz - 1 - i) ([] : List Nat).length) := by
        simp
      rw [if_neg this]
  | cons x S ih =>
    intro dst i hnul hroom
    have hx := (no_nul_cons hnul).1
    by_cases h : siz - 1 > i
    · have hk : min (siz - 1 - i) (x :: S).length = min (siz - 1 - (i + 1)) S.length + 1 := by
        simp only [List.length_cons]
        omega
      rw [hk] at hroom ⊢
      have hi : i < dst.length := by omega
      obtain ⟨d, hd, hlen, hj⟩ := ih (dst.set i x) (i + 1) (no_nul_cons hnul).2
        (by simp only [List.length_set]; omega)
      refine ⟨d, ?_, by simpa using hlen, fun j => ?_⟩
      · rw [Printf.strlcpy_loop.eq_def]
        simp only [List.cons_append, h, if_true, ne_eq, hx, not_false_eq_true,
          write_eq dst i x hi, hd]
        simp only [Option.some.injEq, Prod.mk.injEq, true_and]
        omega
      · rw [hj j, List.getElem?_set]
        by_cases h1 : i + 1 ≤ j ∧ j < i + 1 + min (siz - 1 - (i + 1)) S.length
        · have h2 : i ≤ j ∧ j < i + (min (siz - 1 - (i + 1)) S.length + 1) := by omega
          have h3 : j - i = (j - (i + 1)) + 1 := by omega
          rw [if_pos h1, if_pos h2, h3, List.getElem?_cons_succ]
        · rw [if_neg h1]
          by_cases h4 : i = j
          · subst h4
            have h2 : i ≤ i ∧ i < i + (min (siz - 1 - (i + 1)) S.length + 1) := by omega
            simp [h2, hi]
          · have h2 : ¬ (i ≤ j ∧ j < i + (min (siz - 1 - (i + 1)) S.length + 1)) := by omega
            rw [if_neg h4, if_neg h2]
    · have hk : min (siz - 1 - i) (x :: S).length = 0 := by
        simp only [List.length_cons]
        omega
      rw [hk]
      refine ⟨dst, ?_, rfl, fun j => ?_⟩
      · rw [Printf.strlcpy_loop.eq_def]
        simp [h]
      · have : ¬ (i ≤ j ∧ j < i + 0) := by omega
        rw [if_neg this]

/-- C20: `ft_strlcpy` returns `strlen(src)` whatever `siz` is.  With `siz = 0`
it leaves `dst` as it was.  With `siz > 0` (and room in `dst` for what is
stored) it stores the first `min (siz - 1) (strlen src)` bytes of `src`, then
one NUL, and nothing beyond that index; fewer bytes than the string with its
terminator are stored exactly when the value returned is at least `siz`. -/
theorem ft_strlcpy_spec (S junk dst : List Nat) (siz : Nat) (hnul : no_nul S)
    (hroom : siz = 0 ∨ min (siz - 1) S.length < dst.length) :
    ∃ d, Printf.ft_strlcpy dst (S ++ 0 :: junk) siz = some (S.length, d)
      ∧ d.length = dst.length
      ∧ (siz = 0 → d = dst)
      ∧ (0 < siz →
          (∀ j, j < min (siz - 1) S.length → d[j]? = S[j]?)
          ∧ d[min (siz - 1) S.length]? = some 0
          ∧ (∀ j, min (siz - 1) S.length < j → d[j]? = dst[j]?))
      ∧ ((if siz = 0 then 0 else min (siz - 1) S.length + 1) < S.length + 1
          ↔ siz ≤ S.length) := by
  have harith : (if siz = 0 then 0 else min (siz - 1) S.length + 1) < S.length + 1
      ↔ siz ≤ S.length := by
    by_cases h0 : siz = 0
    · simp [h0]
    · rw [if_neg h0]
      omega
  by_cases h0 : siz = 0
  · subst h0
    refine ⟨dst, ?_, rfl, fun _ => rfl, fun h => absurd h (by decide), harith⟩
    simp [Printf.ft_strlcpy, ft_strlen_string S junk hnul]
  · have hroom1 : min (siz - 1) S.length < dst.length := by
      rcases hroom with h | h
      · exact absurd h h0
      · exact h
    obtain ⟨d, hd, hlen, hj⟩ := strlcpy_loop_spec siz junk S dst 0 hnul (by simpa using hroom1.le)
    simp only [Nat.sub_zero, Nat.zero_add, Nat.zero_le, true_and] at hd hj
    have hk : min (siz - 1) S.length < d.length := by omega
    refine ⟨d.set (min (siz - 1) S.length) 0, ?_, by simpa using hlen,
      fun h => absurd h h0, fun _ => ⟨fun j hjk => ?_, ?_, fun j hjk => ?_⟩, harith⟩
    · simp [Printf.ft_strlcpy, ft_strlen_string S junk hnul, h0, hd, write_eq d _ 0 hk]
    · have h1 : ¬ (min (siz - 1) S.length = j) := by omega
      rw [List.getElem?_set, if_neg h1, hj j, if_pos hjk]
    · simp [List.getElem?_set, hk]
    · have h1 : ¬ (min (siz - 1) S.length = j) := by omega
      have h2 : ¬ (j < min (siz - 1) S.length) := by omega
      rw [List.getElem?_set, if_neg h1, hj j, if_neg h2]

theorem ft_strlcpy_spec_witness :
    Printf.ft_strlcpy [1, 2, 3, 4, 5] [97, 98, 99, 0] 3 = some (3, [97, 98, 0, 4, 5])
      ∧ ∃ d, Printf.ft_strlcpy [1, 2, 3, 4, 5] ([97, 98, 99] ++ 0 :: [7]) 3
            = some ([97, 98, 99].length, d)
          ∧ d.length = [1, 2, 3, 4, 5].length
          ∧ ((3 : Nat) = 0 → d = [1, 2, 3, 4, 5])
          ∧ (0 < 3 →
              (∀ j, j < min (3 - 1) [97, 98, 99].length → d[j]? = [97, 98, 99][j]?)
              ∧ d[min (3 - 1) [97, 98, 99].length]? = some 0
              ∧ (∀ j, min (3 - 1) [97, 98, 99].length < j → d[j]? = [1, 2, 3, 4, 5][j]?))
          ∧ ((if (3 : Nat) = 0 then 0 else min (3 - 1) [97, 98, 99].length + 1)
                < [97, 98, 99].length + 1
              ↔ 3 ≤ [97, 98, 99].length) :=
  ⟨by decide, ft_strlcpy_spec [97, 98, 99] [7] [1, 2, 3, 4, 5] 3 (by decide) (by decide)⟩

theorem char_value_injective (signed_char : Bool) (x y : Nat) (hx : x < 256) (hy : y < 256)
    (h : x ≠ y) : char_value signed_char x - char_value signed_char y ≠ 0 := by
  unfold char_value
  cases signed_char <;> simp only [Bool.false_and, Bool.true_and, decide_eq_true_eq] <;>
    split_ifs <;> omega

/-- `ft_strncmp` over the length of `l` returns 0 exactly when `l` is an
initial part of the other string. -/
theorem ft_strncmp_zero_iff (signed_char : Bool) (j1 j2 : List Nat) :
    ∀ (L B : List Nat), no_nul L → no_nul B → is_bytes L → is_bytes B →
      ∃ r, Pushswap.ft_strncmp signed_char (B ++ 0 :: j1) (L ++ 0 :: j2) L.length = some r
        ∧ (r = 0 ↔ L <+: B) := by
  intro L
  induction L with
  | nil =>
    intro B _ hB _ _
    cases B with
    | nil => exact ⟨0, by simp [Pushswap.ft_strncmp], by simp⟩
    | cons x B =>
      have hx := (no_nul_cons hB).1
      exact ⟨0, by simp [Pushswap.ft_strncmp, hx], by simp⟩
  | cons y L ih =>
    intro B hL hB hLb hBb
    have hy := (no_nul_cons hL).1
    have hy256 : y < 256 := hLb y (List.mem_cons_self _ _)
    cases B with
    | nil =>
      refine ⟨char_value signed_char 0 - char_value signed_char y, ?_, ?_⟩
      · simp [Pushswap.ft_strncmp, hy, Ne.symm hy]
      · have := char_value_injective signed_char 0 y (by decide) hy256 (Ne.symm hy)
        simp [this]
    | cons x B =>
      have hx := (no_nul_cons hB).1
      have hx256 : x < 256 := hBb x (List.mem_cons_self _ _)
      by_cases hxy : x = y
      · subst hxy
        obtain ⟨r, hr, hiff⟩ := ih B (no_nul_cons hL).2 (no_nul_cons hB).2
          (fun b hb => hLb b (List.mem_cons_of_mem _ hb))
          (fun b hb => hBb b (List.mem_cons_of_mem _ hb))
        refine ⟨r, ?_, ?_⟩
        · simp [Pushswap.ft_strncmp, hx, hr]
        · rw [hiff]
          simp [List.cons_prefix_cons]
      · refine ⟨char_value signed_char x - char_value signed_char y, ?_, ?_⟩
        · simp [Pushswap.ft_strncmp, hx, hxy]
        · have := char_value_injective signed_char x y hx256 hy256 hxy
          simp only [this, false_iff, List.cons_prefix_cons, not_and]
          intro h
          exact absurd h.symm hxy

theorem int_of_size_small (n : Nat) (h : n < 2147483648) : int_of_size n = (n : Int) := by
  unfold int_of_size
  omega

theorem size_of_int_natCast (n : Nat) (h : n < 18446744073709551616) :
    size_of_int (n : Int) = n := by
  unfold size_of_int
  omega

/-- With a needle shorter than `2^31` the loop of `ft_strnstr` finds the first
occurrence among the indices the bound `len` admits. -/
theorem strnstr_loop_spec (signed_char : Bool) (L j1 j2 : List Nat) (len : Nat)
    (hL : no_nul L) (hLb : is_bytes L) :
    ∀ (B : List Nat) (i : Nat), no_nul B → is_bytes B →
      i + B.length + L.length < 18446744073709551616 →
      Printf.strnstr_loop signed_char (L ++ 0 :: j2) (L.length : Int) len (B ++ 0 :: j1) i
        = some (Printf.first_match L len B i) := by
  intro B
  induction B with
  | nil =>
    intro i _ _ _
    simp [Printf.strnstr_loop, Printf.first_match]
  | cons x B ih =>
    intro i hB hBb hsize
    have hx := (no_nul_cons hB).1
    simp only [List.length_cons] at hsize
    have h1 : size_of_int (L.length : Int) = L.length := size_of_int_natCast _ (by omega)
    have h2 : (i + L.length) % 18446744073709551616 = i + L.length :=
      Nat.mod_eq_of_lt (by omega)
    obtain ⟨r, hr, hiff⟩ := ft_strncmp_zero_iff signed_char j1 j2 L (x :: B) hL hB hLb hBb
    have hrec := ih (i + 1) (no_nul_cons hB).2
      (fun b hb => hBb b (List.mem_cons_of_mem _ hb)) (by omega)
    simp only [List.cons_append] at hr ⊢
    simp only [Printf.strnstr_loop, Printf.first_match, h1, h2, ne_eq, hx, not_false_eq_true,
      true_and, hr]
    by_cases hlen : i + L.length ≤ len
    · by_cases hp : L <+: x :: B
      · have hr0 : r = 0 := hiff.2 hp
        simp [hlen, hr0, List.isPrefixOf_iff_prefix, hp]
      · have hr0 : r ≠ 0 := fun h => hp (hiff.1 h)
        simp [hlen, hr0, List.isPrefixOf_iff_prefix, hp, hrec]
    · simp [hlen]

theorem first_match_some (L : List Nat) (len : Nat) :
    ∀ (B : List Nat) (i k : Nat), Printf.first_match L len B i = some k →
      ∃ m, k = i + m ∧ L <+: B.drop m ∧ i + m + L.length ≤ len
        ∧ ∀ n, n < m → ¬ L <+: B.drop n := by
  intro B
  induction B with
  | nil => intro i k h; simp [Printf.first_match] at h
  | cons x B ih =>
    intro i k h
    simp only [Printf.first_match] at h
    by_cases hlen : i + L.length ≤ len
    · rw [if_pos hlen] at h
      by_cases hp : L <+: x :: B
      · rw [if_pos (List.isPrefixOf_iff_prefix.2 hp)] at h
        simp only [Option.some.injEq] at h
        exact ⟨0, by omega, by simpa using hp, by omega, fun n hn => absurd hn (by omega)⟩
      · have hp1 : ¬ (L.isPrefixOf (x :: B) = true) := fun hq =>
          hp (List.isPrefixOf_iff_prefix.1 hq)
        rw [if_neg hp1] at h
        obtain ⟨m, hk, hpre, hle, hfirst⟩ := ih (i + 1) k h
        refine ⟨m + 1, by omega, by simpa using hpre, by omega, fun n hn => ?_⟩
        cases n with
        | zero => simpa using hp
        | succ n => simpa using hfirst n (by omega)
    · rw [if_neg hlen] at h
      simp at h

theorem first_match_none (L : List Nat) (len : Nat) (hne : L ≠ []) :
    ∀ (B : List Nat) (i : Nat), Printf.first_match L len B i = none →
      ∀ m, ¬ (L <+: B.drop m ∧ i + m + L.length ≤ len) := by
  intro B
  induction B with
  | nil =>
    intro i _ m hm
    have := hm.1
    simp only [List.drop_nil, List.prefix_nil] at this
    exact hne this
  | cons x B ih =>
    intro i h m hm
    simp only [Printf.first_match] at h
    by_cases hlen : i + L.length ≤ len
    · rw [if_pos hlen] at h
      by_cases hp : L <+: x :: B
      · rw [if_pos (List.isPrefixOf_iff_prefix.2 hp)] at h
        simp at h
      · have hp1 : ¬ (L.isPrefixOf (x :: B) = true) := fun hq =>
          hp (List.isPrefixOf_iff_prefix.1 hq)
        rw [if_neg hp1] at h
        cases m with
        | zero => exact hp (by simpa using hm.1)
        | succ m => exact ih (i + 1) h m ⟨by simpa using hm.1, by omega⟩
    · omega

/-- With a non-empty needle shorter than `2^31`, `ft_strnstr` returns the
first match the bound admits. -/
theorem ft_strnstr_first_match (signed_char : Bool) (B L j1 j2 : List Nat) (len : Nat)
    (hB : no_nul B) (hL : no_nul L) (hBb : is_bytes B) (hLb : is_bytes L) (hne : L ≠ [])
    (hint : L.length < 2147483648)
    (hsize : B.length + L.length < 18446744073709551616) :
    Printf.ft_strnstr signed_char (B ++ 0 :: j1) (L ++ 0 :: j2) len
      = some (Printf.first_match L len B 0) := by
  cases L with
  | nil => exact absurd rfl hne
  | cons y L1 =>
    have hy := (no_nul_cons hL).1
    by_cases hlen : len = 0
    · subst hlen
      cases B <;> simp [Printf.ft_strnstr, hy, Printf.first_match]
    · have hloop := strnstr_loop_spec signed_char (y :: L1) j1 j2 len hL hLb B 0 hB hBb
        (by omega)
      have hstr := ft_strlen_string (y :: L1) j2 hL
      simp only [List.cons_append] at hstr hloop
      simp only [Printf.ft_strnstr, List.cons_append, hy, if_false, hlen, hstr,
        int_of_size_small _ hint, hloop]

/-- C19, as amended: for strings `big` and `little` with `strlen(little)` at
most `INT_MAX`, and every `len`, `ft_strnstr` returns `big` itself when
`little` is empty; otherwise it returns the position of the first index `k`
such that `little` occurs in `big` at `k` and `k + strlen(little) <= len`,
and NULL exactly when there is no such index, in particular when `len` is 0
or less than `strlen(little)`. -/
theorem ft_strnstr_spec (signed_char : Bool) (B L j1 j2 : List Nat) (len : Nat)
    (hB : no_nul B) (hL : no_nul L) (hBb : is_bytes B) (hLb : is_bytes L)
    (hint : L.length < 2147483648)
    (hsize : B.length + L.length < 18446744073709551616) :
    (L = [] →
        Printf.ft_strnstr signed_char (B ++ 0 :: j1) (L ++ 0 :: j2) len = some (some 0))
      ∧ (L ≠ [] →
          ∃ r, Printf.ft_strnstr signed_char (B ++ 0 :: j1) (L ++ 0 :: j2) len = some r
            ∧ (∀ k, r = some k ↔
                (L <+: B.drop k ∧ k + L.length ≤ len ∧ ∀ n, n < k → ¬ L <+: B.drop n))
            ∧ (r = none ↔ ∀ k, ¬ (L <+: B.drop k ∧ k + L.length ≤ len))
            ∧ (len = 0 ∨ len < L.length → r = none)) := by
  refine ⟨fun h => ?_, fun hne => ?_⟩
  · subst h
    simp [Printf.ft_strnstr]
  · refine ⟨_, ft_strnstr_first_match signed_char B L j1 j2 len hB hL hBb hLb hne hint hsize,
      ?_, ?_, ?_⟩
    · intro k
      constructor
      · intro h
        obtain ⟨m, hk, hpre, hle, hfirst⟩ := first_match_some L len B 0 k h
        have hkm : k = m := by omega
        subst hkm
        exact ⟨hpre, by omega, hfirst⟩
      · intro ⟨hpre, hle, hfirst⟩
        cases hr : Printf.first_match L len B 0 with
        | none => exact absurd ⟨hpre, by omega⟩ (first_match_none L len hne B 0 hr k)
        | some k1 =>
          obtain ⟨m, hk, hpre1, hle1, hfirst1⟩ := first_match_some L len B 0 k1 hr
          have hkm : k1 = m := by omega
          subst hkm
          rcases Nat.lt_trichotomy k k1 with h | h | h
          · exact absurd hpre (hfirst1 k h)
          · rw [h]
          · exact absurd hpre1 (hfirst k1 h)
    · constructor
      · intro h k hk
        exact first_match_none L len hne B 0 h k ⟨hk.1, by omega⟩
      · intro h
        cases hr : Printf.first_match L len B 0 with
        | none => rfl
        | some k1 =>
          obtain ⟨m, hk, hpre1, hle1, _⟩ := first_match_some L len B 0 k1 hr
          exact absurd ⟨hpre1, by omega⟩ (h m)
    · intro h
      cases hr : Printf.first_match L len B 0 with
      | none => rfl
      | some k1 =>
        obtain ⟨m, hk, hpre1, hle1, _⟩ := first_match_some L len B 0 k1 hr
        have : 0 < L.length := List.length_pos.2 hne
        omega

theorem ft_strnstr_spec_witness :
    Printf.ft_strnstr true [97, 98, 99, 100, 99, 100, 0] [99, 100, 0] 4 = some (some 2)
      ∧ Printf.ft_strnstr true [97, 98, 99, 100, 99, 100, 0] [99, 100, 0] 3 = some none
      ∧ (([99, 100] : List Nat) ≠ [] →
          ∃ r, Printf.ft_strnstr true ([97, 98, 99, 100, 99, 100] ++ 0 :: [])
                ([99, 100] ++ 0 :: []) 4 = some r
            ∧ (∀ k, r = some k ↔
                ([99, 100] <+: ([97, 98, 99, 100, 99, 100] : List Nat).drop k
                  ∧ k + ([99, 100] : List Nat).length ≤ 4
                  ∧ ∀ n, n < k → ¬ [99, 100] <+: ([97, 98, 99, 100, 99, 100] : List Nat).drop n))
            ∧ (r = none ↔ ∀ k, ¬ ([99, 100] <+: ([97, 98, 99, 100, 99, 100] : List Nat).drop k
                  ∧ k + ([99, 100] : List Nat).length ≤ 4))
            ∧ ((4 : Nat) = 0 ∨ 4 < ([99, 100] : List Nat).length → r = none)) :=
  ⟨by decide, by decide,
    (ft_strnstr_spec true [97, 98, 99, 100, 99, 100] [99, 100] [] [] 4
      (by decide) (by decide) (by decide) (by decide) (by decide) (by decide)).2⟩

/-- A needle of `m + 1` equal non-NUL bytes whose length wraps to `-2^31` in
`int length` is not found in itself. -/
theorem ft_strnstr_wrapped (m len : Nat) (hm : int_of_size (m + 1) = -2147483648)
    (hlen : len ≤ 2147483648) :
    Printf.ft_strnstr true (List.replicate (m + 1) 97 ++ 0 :: [])
      (List.replicate (m + 1) 97 ++ 0 :: []) len = some none := by
  have hnul : no_nul (List.replicate (m + 1) 97) := by
    intro b hb
    rw [List.eq_of_mem_replicate hb]
    decide
  have hstr := ft_strlen_string (List.replicate (m + 1) 97) [] hnul
  rw [List.length_replicate] at hstr
  rw [List.replicate_succ] at hstr ⊢
  simp only [List.cons_append] at hstr ⊢
  by_cases h0 : len = 0
  · simp [Printf.ft_strnstr, h0]
  · simp only [Printf.ft_strnstr, hstr, hm]
    simp only [Printf.strnstr_loop]
    have h3 : ¬ (97 ≠ 0
        ∧ (0 + size_of_int (-2147483648)) % 18446744073709551616 ≤ len) := by
      have h2 : size_of_int (-2147483648) = 18446744071562067968 := by decide
      rw [h2]
      omega
    rw [if_neg h3]
    simp [h0]

/-- C19, where the claim fails: a needle of `2^31` bytes `a` searched in
itself with `len = 2^31` occurs at index 0 within the bound, yet the length
stored in `int length` is `-2^31`, the test `i + length <= len` fails at once
and `ft_strnstr` returns NULL. -/
theorem ft_strnstr_long_needle :
    Printf.ft_strnstr true (List.replicate 2147483648 97 ++ 0 :: [])
        (List.replicate 2147483648 97 ++ 0 :: []) 2147483648 = some none
      ∧ List.replicate 2147483648 97 <+: (List.replicate 2147483648 97).drop 0
      ∧ 0 + (List.replicate 2147483648 97).length ≤ 2147483648
      ∧ (List.replicate 2147483648 97).length ≠ 0 := by
  refine ⟨ft_strnstr_wrapped 2147483647 2147483648 (by decide) (le_refl _), ?_, ?_, ?_⟩
  · rw [List.drop_zero]
  · rw [List.length_replicate]
  · rw [List.length_replicate]
    decide

/-! ## ft_strtrim of src/libft -/

theorem ft_check_mem (c : Nat) (junk : List Nat) :
    ∀ T : List Nat, no_nul T → Src.ft_check c (T ++ 0 :: junk) = some (decide (c ∈ T)) := by
  intro T
  induction T with
  | nil => intro _; simp [Src.ft_check]
  | cons x T ih =>
    intro hT
    have hx := (no_nul_cons hT).1
    by_cases hc : c = x
    · simp [Src.ft_check, hx, hc]
    · simp [Src.ft_check, hx, hc, ih (no_nul_cons hT).2]

theorem read_string (S junk : List Nat) (k : Nat) (hk : k < S.length) :
    (S ++ 0 :: junk)[k]? = S[k]? := by
  rw [List.getElem?_append, if_pos hk]

/-- The first loop stops at the index of the first byte of `s1` that is not in
`set`, or at `strlen(s1)` when there is none. -/
theorem skip_front_spec (T j1 j2 : List Nat) (hT : no_nul T) :
    ∀ S : List Nat, no_nul S →
      ∃ st, Src.skip_front (T ++ 0 :: j2) (S ++ 0 :: j1) = some st ∧ st ≤ S.length
        ∧ (∀ k x, k < st → S[k]? = some x → x ∈ T)
        ∧ (∀ x, S[st]? = some x → x ∉ T) := by
  intro S
  induction S with
  | nil =>
    intro _
    exact ⟨0, by simp [Src.skip_front], le_refl _, fun k x hk => absurd hk (by omega),
      fun x hx => by simp at hx⟩
  | cons b S ih =>
    intro hS
    have hb := (no_nul_cons hS).1
    obtain ⟨st, hst, hle, hin, hout⟩ := ih (no_nul_cons hS).2
    by_cases hbT : b ∈ T
    · refine ⟨st + 1, ?_, by simpa using hle, fun k x hk hx => ?_, fun x hx => ?_⟩
      · simp [Src.skip_front, hb, ft_check_mem b j2 T hT, hbT, hst]
      · cases k with
        | zero =>
          simp only [List.getElem?_cons_zero, Option.some.injEq] at hx
          exact hx ▸ hbT
        | succ k =>
          rw [List.getElem?_cons_succ] at hx
          exact hin k x (by omega) hx
      · rw [List.getElem?_cons_succ] at hx
        exact hout x hx
    · refine ⟨0, ?_, Nat.zero_le _, fun k x hk => absurd hk (by omega), fun x hx => ?_⟩
      · simp [Src.skip_front, hb, ft_check_mem b j2 T hT, hbT]
      · simp only [List.getElem?_cons_zero, Option.some.injEq] at hx
        exact hx ▸ hbT

/-- The second loop moves `end` down over the bytes of `set` at the end of the
string, not below `start`. -/
theorem skip_back_spec (S T j1 j2 : List Nat) (hT : no_nul T) (st : Nat) :
    ∀ e : Nat, e ≤ S.length →
      ∃ e1, Src.skip_back (S ++ 0 :: j1) (T ++ 0 :: j2) st e = some e1 ∧ e1 ≤ e
        ∧ (st ≤ e → st ≤ e1)
        ∧ (∀ k x, e1 ≤ k → k < e → S[k]? = some x → x ∈ T)
        ∧ (st < e1 → ∀ y, S[e1 - 1]? = some y → y ∉ T) := by
  intro e
  induction e with
  | zero =>
    intro _
    exact ⟨0, rfl, le_refl _, fun h => h, fun k x _ hk => absurd hk (by omega),
      fun h => absurd h (by omega)⟩
  | succ e ih =>
    intro he
    have he1 : e < S.length := by omega
    by_cases hgt : e + 1 > st
    · have hread : (S ++ 0 :: j1)[e]? = some S[e] := by
        rw [read_string S j1 e he1, List.getElem?_eq_getElem he1]
      by_cases hin : S[e] ∈ T
      · obtain ⟨e1, h1, hle, hst, hall, hlast⟩ := ih (by omega)
        refine ⟨e1, ?_, by omega, fun _ => hst (by omega), fun k x hk1 hk2 hx => ?_, hlast⟩
        · simp [Src.skip_back, hgt, hread, ft_check_mem _ j2 T hT, hin, h1]
        · by_cases hke : k = e
          · subst hke
            rw [List.getElem?_eq_getElem he1] at hx
            simp only [Option.some.injEq] at hx
            exact hx ▸ hin
          · exact hall k x hk1 (by omega) hx
      · refine ⟨e + 1, ?_, le_refl _, fun h => h, fun k x hk1 hk2 => absurd hk1 (by omega),
          fun _ y hy => ?_⟩
        · simp [Src.skip_back, hgt, hread, ft_check_mem _ j2 T hT, hin]
        · simp only [Nat.add_sub_cancel] at hy
          rw [List.getElem?_eq_getElem he1] at hy
          simp only [Option.some.injEq] at hy
          exact hy ▸ hin
    · refine ⟨e + 1, ?_, le_refl _, fun h => h, fun k x hk1 hk2 => absurd hk1 (by omega),
        fun h => absurd h (by omega)⟩
      simp [Src.skip_back, hgt]

theorem set_at_length {α : Type} (l1 l2 : List α) (a b : α) :
    (l1 ++ a :: l2).set l1.length b = l1 ++ b :: l2 := by
  induction l1 with
  | nil => rfl
  | cons x l1 ih => simp [ih]

/-- The copy loop fills the cells from `index` on with the bytes it reads. -/
theorem copy_loop_spec (rest : List Nat) (k : Nat) :
    ∀ (xs done : List Nat),
      Src.copy_loop xs.length (xs ++ rest)
          (done.map some ++ List.replicate (xs.length + k) none) done.length
        = some ((done ++ xs).map some ++ List.replicate k none, done.length + xs.length) := by
  intro xs
  induction xs with
  | nil => intro done; simp [Src.copy_loop]
  | cons x xs ih =>
    intro done
    have hlt : done.length
        < (done.map some ++ List.replicate ((x :: xs).length + k) none).length := by
      simp only [List.length_append, List.length_map, List.length_replicate, List.length_cons]
      omega
    have hrep : List.replicate ((x :: xs).length + k) (none : Option Nat)
        = none :: List.replicate (xs.length + k) none := by
      simp only [List.length_cons]
      rw [show xs.length + 1 + k = (xs.length + k) + 1 by omega, List.replicate_succ]
    have hset : (done.map some ++ List.replicate ((x :: xs).length + k) none).set
        done.length (some x)
        = (done ++ [x]).map some ++ List.replicate (xs.length + k) none := by
      rw [hrep]
      have := set_at_length (done.map some) (List.replicate (xs.length + k) none) none (some x)
      simp only [List.length_map] at this
      rw [this]
      simp
    have hrec := ih (done ++ [x])
    simp only [List.length_append, List.length_singleton, List.append_assoc,
      List.singleton_append] at hrec
    simp only [List.length_cons, List.cons_append, Src.copy_loop]
    simp only [List.length_cons] at hlt hset
    rw [if_pos hlt, hset]
    refine Eq.trans hrec ?_
    simp only [Option.some.injEq, Prod.mk.injEq, true_and]
    omega

/-- The run of `ft_strtrim` on two strings: the block returned holds
`s1[start..end)` and a NUL, with `start` and `end` where the two loops
stop. -/
theorem strtrim_run (S T j1 j2 : List Nat) (hS : no_nul S) (hT : no_nul T) :
    ∃ st e, Src.ft_strtrim true (some (S ++ 0 :: j1)) (some (T ++ 0 :: j2))
          = some (some (((S.take e).drop st ++ [0]).map some))
      ∧ st ≤ e ∧ e ≤ S.length
      ∧ (∀ k x, k < st → S[k]? = some x → x ∈ T)
      ∧ (∀ x, S[st]? = some x → x ∉ T)
      ∧ (∀ k x, e ≤ k → S[k]? = some x → x ∈ T)
      ∧ (st < e → ∀ y, S[e - 1]? = some y → y ∉ T) := by
  obtain ⟨st, hst, hstle, hfront, hfirst⟩ := skip_front_spec T j1 j2 hT S hS
  obtain ⟨e, he, hele, hste, hback, hlast⟩ := skip_back_spec S T j1 j2 hT st S.length (le_refl _)
  have hste1 : st ≤ e := hste hstle
  refine ⟨st, e, ?_, hste1, hele, hfront, hfirst, fun k x hk hx => ?_, hlast⟩
  · have hxs : ((S.take e).drop st).length = e - st := by
      simp only [List.length_drop, List.length_take]
      omega
    have hdrop : (S ++ 0 :: j1).drop st = (S.take e).drop st ++ (S.drop e ++ 0 :: j1) := by
      rw [List.drop_append_of_le_length hstle, ← List.append_assoc]
      congr 1
      have h1 : st ≤ (S.take e).length := by
        simp only [List.length_take]
        omega
      rw [← List.drop_append_of_le_length h1, List.take_append_drop]
    have hcopy := copy_loop_spec (S.drop e ++ 0 :: j1) 1 ((S.take e).drop st) []
    simp only [List.map_nil, List.nil_append, List.length_nil, Nat.zero_add, hxs] at hcopy
    have hset := set_at_length (((S.take e).drop st).map some) [] (none : Option Nat) (some 0)
    simp only [List.length_map, hxs] at hset
    simp only [Src.ft_strtrim, ft_strlen_string S j1 hS, hst, he, if_true, hdrop, hcopy,
      List.replicate_one, hset, List.length_append, List.length_map, hxs,
      List.length_singleton, Nat.lt_succ_self, List.map_append, List.map_cons, List.map_nil]
  · by_cases hk1 : k < S.length
    · exact hback k x hk hk1 hx
    · rw [List.getElem?_eq_none (by omega)] at hx
      simp at hx

/-- A string that neither begins nor ends with a byte of `set` is returned
whole. -/
theorem strtrim_fixed (R T j1 j2 : List Nat) (hR : no_nul R) (hT : no_nul T)
    (hhead : ∀ x, R[0]? = some x → x ∉ T) (hlast : ∀ x, R[R.length - 1]? = some x → x ∉ T) :
    Src.ft_strtrim true (some (R ++ 0 :: j1)) (some (T ++ 0 :: j2))
      = some (some ((R ++ [0]).map some)) := by
  obtain ⟨st, e, hrun, hste, hele, hfront, _, hback, _⟩ := strtrim_run R T j1 j2 hR hT
  have hst0 : st = 0 := by
    by_contra h
    have h0 : 0 < R.length := by omega
    exact hhead R[0] (List.getElem?_eq_getElem h0)
      (hfront 0 R[0] (by omega) (List.getElem?_eq_getElem h0))
  have he : e = R.length := by
    by_contra h
    have h1 : R.length - 1 < R.length := by omega
    exact hlast _ (List.getElem?_eq_getElem h1)
      (hback (R.length - 1) _ (by omega) (List.getElem?_eq_getElem h1))
  rw [hrun, hst0, he, List.take_length, List.drop_zero]

/-- C17: `ft_strtrim` of `src/libft` returns, for strings `s1` and `set`, the
part `s1[start..end)` followed by a NUL, where every byte before `start` is in
`set` and the byte at `start`, if there is one, is not (so `start` is the
index of the first byte not in `set`, or `strlen(s1)`), every byte from `end`
on is in `set` and, when `start < end`, the byte at `end - 1` is not.  The
result neither begins nor ends with a byte of `set`, is empty when every byte
of `s1` is in `set`, is `s1` when `set` is empty, and trimming the result again
gives the result. -/
theorem ft_strtrim_spec (S T j1 j2 : List Nat) (hS : no_nul S) (hT : no_nul T) :
    ∃ st e : Nat,
      Src.ft_strtrim true (some (S ++ 0 :: j1)) (some (T ++ 0 :: j2))
          = some (some (((S.take e).drop st ++ [0]).map some))
      ∧ st ≤ e ∧ e ≤ S.length
      ∧ (∀ k x, k < st → S[k]? = some x → x ∈ T)
      ∧ (∀ x, S[st]? = some x → x ∉ T)
      ∧ (∀ k x, e ≤ k → S[k]? = some x → x ∈ T)
      ∧ (st < e → ∀ y, S[e - 1]? = some y → y ∉ T)
      ∧ ((∀ b ∈ S, b ∈ T) → st = S.length ∧ e = st)
      ∧ (∀ x, ((S.take e).drop st).head? = some x → x ∉ T)
      ∧ (∀ x, ((S.take e).drop st).getLast? = some x → x ∉ T)
      ∧ ((∀ b ∈ S, b ∈ T) → (S.take e).drop st = [])
      ∧ (T = [] → (S.take e).drop st = S)
      ∧ Src.ft_strtrim true (some ((S.take e).drop st ++ 0 :: [])) (some (T ++ 0 :: j2))
          = some (some (((S.take e).drop st ++ [0]).map some)) := by
  obtain ⟨st, e, hrun, hste, hele, hfront, hfirst, hback, hlast⟩ := strtrim_run S T j1 j2 hS hT
  have hlen : ((S.take e).drop st).length = e - st := by
    simp only [List.length_drop, List.length_take]
    omega
  have hget : ∀ k, k < e - st → ((S.take e).drop st)[k]? = S[st + k]? := by
    intro k hk
    rw [List.getElem?_drop, List.getElem?_take, if_pos (by omega)]
  have hall : (∀ b ∈ S, b ∈ T) → st = S.length ∧ e = st := by
    intro h
    have h1 : st = S.length := by
      by_contra hne
      have hlt : st < S.length := by omega
      exact hfirst S[st] (List.getElem?_eq_getElem hlt) (h _ (List.getElem_mem _))
    exact ⟨h1, by omega⟩
  have hhead : ∀ x, ((S.take e).drop st)[0]? = some x → x ∉ T := by
    intro x hx
    by_cases h : 0 < e - st
    · rw [hget 0 h] at hx
      exact hfirst x hx
    · rw [List.getElem?_eq_none (by omega)] at hx
      simp at hx
  have hend : ∀ x, ((S.take e).drop st)[((S.take e).drop st).length - 1]? = some x → x ∉ T := by
    intro x hx
    rw [hlen] at hx
    by_cases h : 0 < e - st
    · rw [hget _ (by omega), show st + (e - st - 1) = e - 1 by omega] at hx
      exact hlast (by omega) x hx
    · rw [List.getElem?_eq_none (by omega)] at hx
      simp at hx
  have hRnul : no_nul ((S.take e).drop st) := fun b hb =>
    hS b (List.mem_of_mem_take (List.mem_of_mem_drop hb))
  refine ⟨st, e, hrun, hste, hele, hfront, hfirst, hback, hlast, hall, ?_, ?_, ?_, ?_, ?_⟩
  · intro x hx
    rw [List.head?_eq_getElem?] at hx
    exact hhead x hx
  · intro x hx
    rw [List.getLast?_eq_getElem?] at hx
    exact hend x hx
  · intro h
    obtain ⟨_, h2⟩ := hall h
    exact List.eq_nil_of_length_eq_zero (by omega)
  · intro h
    subst h
    have hst0 : st = 0 := by
      by_contra hne
      have h0 : 0 < S.length := by omega
      have := hfront 0 S[0] (by omega) (List.getElem?_eq_getElem h0)
      simp at this
    have he : e = S.length := by
      by_contra hne
      have h1 : e < S.length := by omega
      have := hback e S[e] (le_refl _) (List.getElem?_eq_getElem h1)
      simp at this
    rw [hst0, he, List.take_length, List.drop_zero]
  · exact strtrim_fixed _ T [] j2 hRnul hT hhead hend

theorem ft_strtrim_spec_witness :
    Src.ft_strtrim true (some [120, 121, 97, 120, 98, 121, 120, 0]) (some [120, 121, 0])
        = some (some [some 97, some 120, some 98, some 0])
      ∧ ∃ st e : Nat,
        Src.ft_strtrim true (some ([120, 121, 97, 120, 98, 121, 120] ++ 0 :: []))
            (some ([120, 121] ++ 0 :: []))
          = some (some (((([120, 121, 97, 120, 98, 121, 120] : List Nat).take e).drop st
              ++ [0]).map some))
        ∧ st ≤ e ∧ e ≤ ([120, 121, 97, 120, 98, 121, 120] : List Nat).length :=
  ⟨by decide,
    let ⟨st, e, h1, h2, h3, _⟩ :=
      ft_strtrim_spec [120, 121, 97, 120, 98, 121, 120] [120, 121] [] [] (by decide) (by decide)
    ⟨st, e, h1, h2, h3⟩⟩

end Libft

namespace Libft

/-! ## The pushswap copies of ft_substr and ft_strtrim -/

/-- C15, the behaviour of the code: `ft_substr` of `src/pushswap/libft` computes
the length, allocates `len + 1` bytes and returns the block without storing
anything in it: no cell of a block it returns is ever written, neither the
bytes of the substring nor the terminating NUL.  `ft_substr("hello", 1, 3)`
returns four unwritten bytes, not `ell` and a NUL. -/
theorem ft_substr_block_unwritten :
    (∀ (room : Bool) (s : Option (List Nat)) (start len : Nat) (cells : List (Option Nat)),
        Pushswap.ft_substr room s start len = some (some cells) → ∀ c ∈ cells, c = none)
      ∧ Pushswap.ft_substr true (some [104, 101, 108, 108, 111, 0]) 1 3
          = some (some [none, none, none, none]) := by
  refine ⟨?_, by decide⟩
  intro room s start len cells h c hc
  cases s with
  | none => simp [Pushswap.ft_substr] at h
  | some mem =>
    simp only [Pushswap.ft_substr] at h
    cases h1 : ft_strlen mem with
    | none => simp [h1] at h
    | some n =>
      cases h2 : ft_strlen (mem.drop start) with
      | none => simp [h1, h2] at h
      | some n2 =>
        cases room with
        | false => simp [h1, h2] at h
        | true =>
          simp only [h1, h2, if_true, Option.some.injEq] at h
          rw [← h] at hc
          exact List.eq_of_mem_replicate hc

/-- C16, the behaviour of the code: on `s1 = "xxabxx"` and `set = "x"` the loops
of the pushswap `ft_strtrim` leave `i = 2` and `j = 3`; the length handed to
`ft_substr` is `(j - 1) + 1 = 3`, not `j - i + 1 = 2`, and the block returned
has four bytes, none written, where the copy of `src/libft` returns `ab` and a
NUL. -/
theorem ft_strtrim_pushswap_length :
    Pushswap.trim_bounds true [120, 120, 97, 98, 120, 120, 0] [120, 0] = some (2, 3)
      ∧ size_of_int (((3 : Int) - 1) + 1) = 3
      ∧ (3 : Int) - 2 + 1 = 2
      ∧ Pushswap.ft_strtrim true true (some [120, 120, 97, 98, 120, 120, 0]) (some [120, 0])
          = some (some [none, none, none, none])
      ∧ Src.ft_strtrim true (some [120, 120, 97, 98, 120, 120, 0]) (some [120, 0])
          = some (some [some 97, some 98, some 0]) := by
  refine ⟨by decide, by decide, by decide, by decide, by decide⟩

end Libft

namespace FtPrintf

/-! ## Instances at concrete calls, continued -/

theorem pure_text_write_only (f : Sink → Sink) (h : pure_text f) : write_only f := by
  obtain ⟨text, ht⟩ := h
  intro out n
  simp [ht]

theorem formatters_pure (b : Build) : (formatters b).Each pure_text where
  putcharacter c := ⟨[c], fun _ => rfl⟩
  string a := by cases a <;> exact ⟨_, fun _ => rfl⟩
  number n := ⟨_, fun _ => rfl⟩
  hexadecimal x k := ⟨_, fun _ => rfl⟩
  unsigned u := ⟨_, fun _ => rfl⟩
  pointer p := by
    by_cases h : p = 0
    · exact ⟨PTR_NULL b.apple, fun s => by simp [formatters, ft_pointer, h, emit]⟩
    · exact ⟨b.marker ++ hex_text false p, fun s => by simp [formatters, ft_pointer, h, emit]⟩

theorem ft_printf_deterministic_witness :
    ft_printf (formatters linux_build) [97, 37, 100, 0] [Arg.int 7] = some (2, [97, 55])
      ∧ ft_printf_on (formatters linux_build) [120] [97, 37, 100, 0] [Arg.int 7]
          = (ft_printf (formatters linux_build) [97, 37, 100, 0] [Arg.int 7]).map
              (fun r => (r.1, [120] ++ r.2))
      ∧ ft_printf_on (formatters linux_build) [97, 55] [97, 37, 100, 0] [Arg.int 7]
          = some (2, [97, 55, 97, 55]) :=
  ⟨by decide,
    (ft_printf_deterministic (formatters linux_build)
      (Formatters.Each.mono pure_text_write_only (formatters_pure linux_build))
      [97, 37, 100, 0] [Arg.int 7] [120]).1,
    by decide⟩

theorem ft_printf_counter_witness :
    ft_printf (formatters linux_build) [97, 37, 37, 0] [] = some (2, [97, 37]) :=
  (ft_printf_counter (formatters linux_build) (formatters_counting linux_build)
    (formatters_writes_one linux_build) [97, 37, 37, 0] []).2.2.2.2 2
    ⟨[0], [], ⟨[97, 37], 2⟩⟩ rfl rfl

theorem ft_printf_scan_once_witness :
    no_nul [97, 37, 100] ∧ ends_lone [97, 37, 100] = false
      ∧ chunks [97, 37, 100] = [[97], [37, 100]]
      ∧ (chunks [97, 37, 100]).length ≤ [97, 37, 100].length
      ∧ (kinds_match (directives [97, 37, 100]) [Arg.int 5] = true →
          (∀ i, i ≤ (chunks [97, 37, 100]).length →
            ∃ c, iter (formatters linux_build) i
              ⟨[97, 37, 100] ++ 0 :: [66], [Arg.int 5], ⟨[], 0⟩⟩ = some c)
          ∧ ∃ c, iter (formatters linux_build) (chunks [97, 37, 100]).length
                ⟨[97, 37, 100] ++ 0 :: [66], [Arg.int 5], ⟨[], 0⟩⟩ = some c
              ∧ c.string = 0 :: [66] ∧ step (formatters linux_build) c = Step.exit) :=
  ⟨by decide, by decide, by decide, by decide,
    (ft_printf_scan_once (formatters linux_build) [97, 37, 100] [66] [Arg.int 5] ⟨[], 0⟩
      (by decide) (by decide)).2.2.2.2.2⟩

theorem ft_printf_concat_witness :
    ft_printf_int (formatters linux_build) ([97, 37, 100] ++ [37, 115] ++ 0 :: [])
        [Arg.int 5, Arg.str (some [104])] = some (3, [97, 53, 104])
      ∧ ft_printf_int (formatters linux_build) ([97, 37, 100] ++ 0 :: [])
        [Arg.int 5, Arg.str (some [104])] = some (2, [97, 53])
      ∧ ft_printf_int (formatters linux_build) ([37, 115] ++ 0 :: []) [Arg.str (some [104])]
        = some (1, [104])
      ∧ ft_printf_int (formatters linux_build) ([97, 37, 100] ++ [37, 115] ++ 0 :: [])
          [Arg.int 5, Arg.str (some [104])]
        = (scan_int (formatters linux_build) ([97, 37, 100] ++ 0 :: [])
            [Arg.int 5, Arg.str (some [104])] ⟨[], 0⟩).bind (fun r1 =>
            (ft_printf_int (formatters linux_build) ([37, 115] ++ 0 :: []) r1.2).bind
              (fun r2 =>
                if r1.1.length + r2.1 ≤ 2147483647 then
                  some (r1.1.length + r2.1, r1.1.out ++ r2.2)
                else none)) :=
  ⟨by decide, by decide, by decide,
    (ft_printf_concat (formatters linux_build) (formatters_pure linux_build)
      [97, 37, 100] [37, 115] [] [] [Arg.int 5, Arg.str (some [104])]
      (by decide) (by decide)).1⟩

end FtPrintf

namespace Libft

open FtPrintf (no_nul no_nul_cons)

/-! ## Comparison: ft_strncmp and ft_memcmp -/

/-- C21, the behaviour of the code: at the first pair of differing bytes
`ft_strncmp` returns the difference of the two bytes read through plain
`char`.  Where `char` is signed, the bytes `0x80` and `0x01` give
`-128 - 1 = -129`, a negative result, although `128 > 1` as `unsigned char`
values; where `char` is unsigned the result is `127`. -/
theorem ft_strncmp_signed_char :
    (∀ (signed_char : Bool) (x y : Nat) (s1 s2 : List Nat) (a : Nat), x ≠ y →
        Pushswap.ft_strncmp signed_char (x :: s1) (y :: s2) (a + 1)
          = some (char_value signed_char x - char_value signed_char y))
      ∧ Pushswap.ft_strncmp true [128, 0] [1, 0] 1 = some (-129)
      ∧ Pushswap.ft_strncmp false [128, 0] [1, 0] 1 = some 127
      ∧ (0 : Int) < (128 : Int) - 1 := by
  refine ⟨?_, by decide, by decide, by decide⟩
  intro signed_char x y s1 s2 a hxy
  have h : ¬ (x = 0 ∧ y = 0) := fun h => hxy (h.1.trans h.2.symm)
  simp [Pushswap.ft_strncmp, h, hxy]

theorem ft_memcmp_take :
    ∀ (a : Nat) (x y : List Nat),
      Pushswap.ft_memcmp (x.take a) (y.take a) a = Pushswap.ft_memcmp x y a := by
  intro a
  induction a with
  | zero => intro x y; simp [Pushswap.ft_memcmp]
  | succ a ih =>
    intro x y
    cases x with
    | nil => simp [Pushswap.ft_memcmp]
    | cons u x =>
      cases y with
      | nil => simp [Pushswap.ft_memcmp]
      | cons v y => simp [Pushswap.ft_memcmp, ih x y]

theorem ft_memcmp_swap :
    ∀ (a : Nat) (x y : List Nat) (r : Int), Pushswap.ft_memcmp x y a = some r →
      Pushswap.ft_memcmp y x a = some (-r) := by
  intro a
  induction a with
  | zero =>
    intro x y r h
    simp only [Pushswap.ft_memcmp, Option.some.injEq] at h
    subst h
    simp [Pushswap.ft_memcmp]
  | succ a ih =>
    intro x y r h
    cases x with
    | nil => simp [Pushswap.ft_memcmp] at h
    | cons u x =>
      cases y with
      | nil => simp [Pushswap.ft_memcmp] at h
      | cons v y =>
        simp only [Pushswap.ft_memcmp] at h ⊢
        by_cases huv : u > v ∨ u < v
        · have hvu : v > u ∨ v < u := by omega
          rw [if_pos huv] at h
          rw [if_pos hvu]
          simp only [Option.some.injEq] at h ⊢
          omega
        · have hvu : ¬ (v > u ∨ v < u) := by omega
          rw [if_neg huv] at h
          rw [if_neg hvu]
          exact ih x y r h

/-- On buffers of at least `a` bytes `ft_memcmp` returns 0 when the first `a`
bytes agree and the difference of the first differing pair otherwise. -/
theorem ft_memcmp_first_difference :
    ∀ (a : Nat) (x y : List Nat), a ≤ x.length → a ≤ y.length →
      ∃ r, Pushswap.ft_memcmp x y a = some r
        ∧ (r = 0 ↔ x.take a = y.take a)
        ∧ (r ≠ 0 → ∃ k u v, k < a ∧ x.take k = y.take k ∧ x[k]? = some u ∧ y[k]? = some v
            ∧ u ≠ v ∧ r = (u : Int) - (v : Int))
        ∧ (r < 0 ↔ List.Lex (· < ·) (x.take a) (y.take a)) := by
  intro a
  induction a with
  | zero =>
    intro x y _ _
    exact ⟨0, by simp [Pushswap.ft_memcmp], by simp, fun h => absurd rfl h,
      by simp [List.Lex.not_nil_right]⟩
  | succ a ih =>
    intro x y hx hy
    cases x with
    | nil => simp at hx
    | cons u x =>
      cases y with
      | nil => simp at hy
      | cons v y =>
        simp only [List.length_cons, Nat.add_le_add_iff_right] at hx hy
        by_cases huv : u > v ∨ u < v
        · have hne : u ≠ v := by omega
          refine ⟨(u : Int) - (v : Int), by simp [Pushswap.ft_memcmp, huv], ?_, ?_, ?_⟩
          · constructor
            · intro h; omega
            · intro h
              simp only [List.take_succ_cons, List.cons.injEq] at h
              exact absurd h.1 hne
          · intro _
            exact ⟨0, u, v, by omega, by simp, by simp, by simp, hne, rfl⟩
          · simp only [List.take_succ_cons]
            constructor
            · intro h
              exact List.Lex.rel (by omega)
            · intro h
              cases h with
              | rel h1 => omega
              | cons h1 => exact absurd rfl hne
        · have heq : u = v := by omega
          subst heq
          obtain ⟨r, hr, hzero, hdiff, hlex⟩ := ih x y hx hy
          refine ⟨r, by simp [Pushswap.ft_memcmp, hr], ?_, ?_, ?_⟩
          · rw [hzero]
            simp [List.take_succ_cons]
          · intro hr0
            obtain ⟨k, p, q, hk, htake, hp, hq, hpq, hrpq⟩ := hdiff hr0
            exact ⟨k + 1, p, q, by omega, by simp [List.take_succ_cons, htake],
              by simpa using hp, by simpa using hq, hpq, hrpq⟩
          · rw [hlex]
            simp only [List.take_succ_cons]
            exact List.Lex.cons_iff.symm

/-- C22: on buffers of at least `a` bytes `ft_memcmp` returns 0 if and only if
the first `a` bytes are equal; otherwise it returns the difference, as
unsigned byte values, of the first differing pair, so the result is negative
exactly when the first buffer comes first in lexicographic order, and
`ft_memcmp(y, x, a)` is the opposite of `ft_memcmp(x, y, a)`; the bytes at
index `a` and beyond do not enter the result. -/
theorem ft_memcmp_spec (x y : List Nat) (a : Nat) (hx : a ≤ x.length) (hy : a ≤ y.length) :
    ∃ r, Pushswap.ft_memcmp x y a = some r
      ∧ (r = 0 ↔ x.take a = y.take a)
      ∧ (r ≠ 0 → ∃ k u v, k < a ∧ x.take k = y.take k ∧ x[k]? = some u ∧ y[k]? = some v
          ∧ u ≠ v ∧ r = (u : Int) - (v : Int))
      ∧ (r < 0 ↔ List.Lex (· < ·) (x.take a) (y.take a))
      ∧ Pushswap.ft_memcmp y x a = some (-r)
      ∧ (∀ x1 y1 : List Nat, x1.take a = x.take a → y1.take a = y.take a →
          Pushswap.ft_memcmp x1 y1 a = some r) := by
  obtain ⟨r, hr, hzero, hdiff, hlex⟩ := ft_memcmp_first_difference a x y hx hy
  refine ⟨r, hr, hzero, hdiff, hlex, ft_memcmp_swap a x y r hr, ?_⟩
  intro x1 y1 h1 h2
  rw [← ft_memcmp_take a x1 y1, h1, h2, ft_memcmp_take a x y, hr]

theorem ft_memcmp_spec_witness :
    Pushswap.ft_memcmp [1, 200, 3] [1, 2, 9] 3 = some 198
      ∧ Pushswap.ft_memcmp [1, 2, 9] [1, 200, 3] 3 = some (-198)
      ∧ ∃ r, Pushswap.ft_memcmp [1, 200, 3, 7] [1, 2, 9, 8] 3 = some r
          ∧ (r = 0 ↔ ([1, 200, 3, 7] : List Nat).take 3 = ([1, 2, 9, 8] : List Nat).take 3)
          ∧ Pushswap.ft_memcmp [1, 2, 9, 8] [1, 200, 3, 7] 3 = some (-r) :=
  ⟨by decide, by decide,
    let ⟨r, h1, h2, _, _, h5, _⟩ :=
      ft_memcmp_spec [1, 200, 3, 7] [1, 2, 9, 8] 3 (by decide) (by decide)
    ⟨r, h1, h2, h5⟩⟩

/-! ## Lists, ft_substr again, ft_calloc -/

/-- C24, the behaviour of the code: on an empty list `ft_lstadd_front` sets
the head to `new` and stores nothing in `new->next`.  With `new` a node whose
`next` points to another node, the head becomes `new` but `new->next` is
still that node, not the former head NULL, and `ft_lstsize` gives 2 where the
former size plus 1 is 1.  On a non-empty list `new->next` is set to the
former head; with `new` NULL nothing changes. -/
theorem ft_lstadd_front_empty_list :
    Src.ft_lstadd_front [⟨1, some 1⟩, ⟨2, none⟩] none (some 0)
        = some ([⟨1, some 1⟩, ⟨2, none⟩], some 0)
      ∧ Printf.ft_lstsize [⟨1, some 1⟩, ⟨2, none⟩] 5 none = some 0
      ∧ Printf.ft_lstsize [⟨1, some 1⟩, ⟨2, none⟩] 5 (some 0) = some 2
      ∧ (∀ (heap : List t_list) (n : Nat),
          Src.ft_lstadd_front heap none (some n) = some (heap, some n))
      ∧ (∀ (heap : List t_list) (h n : Nat) (node : t_list), heap[n]? = some node →
          Src.ft_lstadd_front heap (some h) (some n)
            = some (heap.set n ⟨node.content, some h⟩, some n))
      ∧ (∀ (heap : List t_list) (lst : Option Nat),
          Src.ft_lstadd_front heap lst none = some (heap, lst)) := by
  refine ⟨by decide, by decide, by decide, fun heap n => rfl, fun heap h n node hn => ?_,
    fun heap lst => rfl⟩
  simp [Src.ft_lstadd_front, hn]

/-- C26, the behaviour of the code: with `start` beyond the terminator,
`ft_substr` sets `len = 0` and then still evaluates `ft_strlen(s + start)`,
which reads `s` from index `start` on.  On `"ab"` with `start = 5` the read is
outside the three bytes of the string; what the call does depends on the
bytes found there. -/
theorem ft_substr_reads_past_terminator :
    Pushswap.ft_substr true (some [97, 98, 0]) 5 1 = none
      ∧ Pushswap.ft_substr true (some [97, 98, 0, 7, 7, 7, 7, 0]) 5 1 = some (some [none])
      ∧ Pushswap.ft_substr true (some [97, 98, 0, 7, 7, 7, 7, 7]) 5 1 = none
      ∧ ft_strlen [97, 98, 0] = some 2
      ∧ (∀ (room : Bool) (mem : List Nat) (start len : Nat),
          ft_strlen (mem.drop start) = none →
            Pushswap.ft_substr room (some mem) start len = none) := by
  refine ⟨by decide, by decide, by decide, by decide, ?_⟩
  intro room mem start len h
  simp only [Pushswap.ft_substr]
  cases ft_strlen mem <;> simp [h]

/-- C27: `ft_calloc` returns NULL without calling `malloc` if and only if
`count` is not 0 and the product `count * size` exceeds `SIZE_MAX`.
Otherwise the number of bytes it asks `malloc` for and passes to `ft_bzero` is
the exact product `count * size`, which fits a `size_t`, or 1 when `count` or
`size` is 0. -/
theorem ft_calloc_spec (room : Bool)
    (ft_bzero : List (Option Nat) → Nat → List (Option Nat)) (count size : Nat) :
    (Printf.ft_calloc room ft_bzero count size = Printf.Calloc.refused
        ↔ count ≠ 0 ∧ SIZE_MAX < count * size)
      ∧ (¬ (count ≠ 0 ∧ SIZE_MAX < count * size) →
          (if count = 0 ∨ size = 0 then 1 else count * size) ≤ SIZE_MAX
          ∧ Printf.ft_calloc room ft_bzero count size
            = if room = true then
                Printf.Calloc.block (if count = 0 ∨ size = 0 then 1 else count * size)
                  (ft_bzero
                    (List.replicate (if count = 0 ∨ size = 0 then 1 else count * size) none)
                    (if count = 0 ∨ size = 0 then 1 else count * size))
              else Printf.Calloc.failed (if count = 0 ∨ size = 0 then 1 else count * size)) := by
  have hiff : (count ≠ 0 ∧ size > SIZE_MAX / count) ↔ (count ≠ 0 ∧ SIZE_MAX < count * size) := by
    constructor
    · intro ⟨h0, h⟩
      refine ⟨h0, ?_⟩
      have := (Nat.div_lt_iff_lt_mul (Nat.pos_of_ne_zero h0)).1 h
      rwa [Nat.mul_comm] at this
    · intro ⟨h0, h⟩
      refine ⟨h0, ?_⟩
      rw [Nat.mul_comm] at h
      exact (Nat.div_lt_iff_lt_mul (Nat.pos_of_ne_zero h0)).2 h
  constructor
  · constructor
    · intro h
      by_contra hn
      have hn1 := fun hh => hn (hiff.1 hh)
      simp only [Printf.ft_calloc, if_neg hn1] at h
      cases room <;> simp at h
    · intro h
      simp only [Printf.ft_calloc, if_pos (hiff.2 h)]
  · intro hn
    have hn1 := fun hh => hn (hiff.1 hh)
    have hprod : (if count = 0 ∨ size = 0 then 1 else count) *
        (if count = 0 ∨ size = 0 then 1 else size)
        = if count = 0 ∨ size = 0 then 1 else count * size := by
      by_cases h0 : count = 0 ∨ size = 0 <;> simp [h0]
    have hle : (if count = 0 ∨ size = 0 then 1 else count * size) ≤ SIZE_MAX := by
      by_cases h0 : count = 0 ∨ size = 0
      · rw [if_pos h0]; decide
      · rw [if_neg h0]
        have hc : count ≠ 0 := fun h => h0 (Or.inl h)
        by_contra hgt
        exact hn ⟨hc, by omega⟩
    have hmod : (if count = 0 ∨ size = 0 then 1 else count * size) % 18446744073709551616
        = if count = 0 ∨ size = 0 then 1 else count * size := by
      apply Nat.mod_eq_of_lt
      have : SIZE_MAX = 18446744073709551615 := rfl
      omega
    refine ⟨hle, ?_⟩
    simp only [Printf.ft_calloc, if_neg hn1, hprod, hmod]

theorem ft_calloc_spec_witness :
    Printf.ft_calloc true (fun b _ => b.map fun _ => some 0) 4294967296 4294967296
        = Printf.Calloc.refused
      ∧ Printf.ft_calloc true (fun b _ => b.map fun _ => some 0) 3 2
        = Printf.Calloc.block 6 (List.replicate 6 (some 0))
      ∧ Printf.ft_calloc true (fun b _ => b.map fun _ => some 0) 0 5
        = Printf.Calloc.block 1 [some 0]
      ∧ Printf.ft_calloc false (fun b _ => b.map fun _ => some 0) 3 2
        = Printf.Calloc.failed 6 :=
  ⟨(ft_calloc_spec true (fun b _ => b.map fun _ => some 0) 4294967296 4294967296).1.2
      ⟨by decide, by decide⟩,
    rfl, rfl, rfl⟩

/-! ## ft_strchr and ft_strrchr -/

theorem read_full (S junk : List Nat) (k : Nat) (hk : k ≤ S.length) :
    (S ++ 0 :: junk)[k]? = (S ++ [0])[k]? := by
  by_cases h : k < S.length
  · rw [List.getElem?_append, if_pos h, List.getElem?_append, if_pos h]
  · have hk1 : k - S.length = 0 := by omega
    rw [List.getElem?_append, if_neg h, List.getElem?_append, if_neg h, hk1]
    simp

/-- `ft_strchr` stops at the first index of the string, terminator included,
that holds the byte sought. -/
theorem ft_strchr_first (junk : List Nat) (c : Int) :
    ∀ S : List Nat, no_nul S →
      ∃ r : Option Nat, Pushswap.ft_strchr (S ++ 0 :: junk) c = some r
        ∧ (∀ k, r = some k →
            (S ++ [0])[k]? = some (c % 256).toNat
              ∧ ∀ m, m < k → (S ++ [0])[m]? ≠ some (c % 256).toNat)
        ∧ (r = none → ∀ m : Nat, (S ++ [0])[m]? ≠ some (c % 256).toNat) := by
  intro S
  induction S with
  | nil =>
    intro _
    by_cases h : (0 : Nat) = (c % 256).toNat
    · refine ⟨some 0, by simp [Pushswap.ft_strchr, ← h], fun k hk => ?_, fun hr => by simp at hr⟩
      simp only [Option.some.injEq] at hk
      subst hk
      exact ⟨by simp [← h], fun m hm => absurd hm (by omega)⟩
    · refine ⟨none, by simp [Pushswap.ft_strchr, h], fun k hk => by simp at hk, fun _ m => ?_⟩
      cases m with
      | zero => simpa using h
      | succ m => simp
  | cons x S ih =>
    intro hS
    have hx := (no_nul_cons hS).1
    obtain ⟨r, hr, hsome, hnone⟩ := ih (no_nul_cons hS).2
    by_cases h : x = (c % 256).toNat
    · refine ⟨some 0, by simp [Pushswap.ft_strchr, h], fun k hk => ?_, fun hr0 => by simp at hr0⟩
      simp only [Option.some.injEq] at hk
      subst hk
      exact ⟨by simp [h], fun m hm => absurd hm (by omega)⟩
    · refine ⟨r.map (· + 1), by simp [Pushswap.ft_strchr, h, hx, hr], fun k hk => ?_,
        fun hr0 m => ?_⟩
      · cases r with
        | none => simp at hk
        | some k1 =>
          simp only [Option.map_some', Option.some.injEq] at hk
          subst hk
          obtain ⟨h1, h2⟩ := hsome k1 rfl
          refine ⟨by simpa using h1, fun m hm => ?_⟩
          cases m with
          | zero => simpa using h
          | succ m => simpa using h2 m (by omega)
      · cases r with
        | some k1 => simp at hr0
        | none =>
          cases m with
          | zero => simpa using h
          | succ m => simpa using hnone rfl m

/-- The loop of `ft_strrchr` started at index `len` stops at the last index
at or below `len` that holds the byte sought. -/
theorem strrchr_loop_last (S junk : List Nat) (cb : Nat) :
    ∀ len : Nat, len ≤ S.length →
      ∃ r : Option Nat, Pushswap.strrchr_loop (S ++ 0 :: junk) cb len = some (r.map Int.ofNat)
        ∧ (∀ k, r = some k →
            k ≤ len ∧ (S ++ [0])[k]? = some cb
              ∧ ∀ m, k < m → m ≤ len → (S ++ [0])[m]? ≠ some cb)
        ∧ (r = none → ∀ m, m ≤ len → (S ++ [0])[m]? ≠ some cb) := by
  intro len
  induction len with
  | zero =>
    intro hlen
    have hread := read_full S junk 0 hlen
    have hsome : ∃ x, (S ++ [0])[0]? = some x := by
      cases S <;> simp
    obtain ⟨x, hx⟩ := hsome
    rw [hx] at hread
    by_cases h : x = cb
    · refine ⟨some 0, by simp [Pushswap.strrchr_loop, hread, h], fun k hk => ?_,
        fun hr => by simp at hr⟩
      simp only [Option.some.injEq] at hk
      subst hk
      exact ⟨le_refl _, by rw [hx, h], fun m h1 h2 => absurd h1 (by omega)⟩
    · refine ⟨none, by simp [Pushswap.strrchr_loop, hread, h], fun k hk => by simp at hk,
        fun _ m hm => ?_⟩
      have hm0 : m = 0 := by omega
      subst hm0
      rw [hx]
      simpa using h
  | succ len ih =>
    intro hlen
    have hread := read_full S junk (len + 1) hlen
    have hsome : ∃ x, (S ++ [0])[len + 1]? = some x := by
      have : len + 1 < (S ++ [0]).length := by simp; omega
      exact ⟨_, List.getElem?_eq_getElem this⟩
    obtain ⟨x, hx⟩ := hsome
    rw [hx] at hread
    by_cases h : x = cb
    · refine ⟨some (len + 1), by simp [Pushswap.strrchr_loop, hread, h], fun k hk => ?_,
        fun hr => by simp at hr⟩
      simp only [Option.some.injEq] at hk
      subst hk
      exact ⟨le_refl _, by rw [hx, h], fun m h1 h2 => absurd h1 (by omega)⟩
    · obtain ⟨r, hr, hsome1, hnone1⟩ := ih (by omega)
      refine ⟨r, by simp [Pushswap.strrchr_loop, hread, h, hr], fun k hk => ?_, fun hr0 m hm => ?_⟩
      · obtain ⟨h1, h2, h3⟩ := hsome1 k hk
        refine ⟨by omega, h2, fun m hm1 hm2 => ?_⟩
        by_cases hml : m = len + 1
        · subst hml
          rw [hx]
          simpa using h
        · exact h3 m hm1 (by omega)
      · by_cases hml : m = len + 1
        · subst hml
          rw [hx]
          simpa using h
        · exact hnone1 hr0 m (by omega)

/-- A result that is the first index holding `cb` (NULL when there is none)
and one that is the last such index determine each other as stated. -/
theorem first_last_facts (full : List Nat) (cb : Nat) (r1 r2 : Option Nat)
    (h1s : ∀ k, r1 = some k → full[k]? = some cb ∧ ∀ m, m < k → full[m]? ≠ some cb)
    (h1n : r1 = none → ∀ m : Nat, full[m]? ≠ some cb)
    (h2s : ∀ k, r2 = some k → full[k]? = some cb ∧ ∀ m, k < m → full[m]? ≠ some cb)
    (h2n : r2 = none → ∀ m : Nat, full[m]? ≠ some cb) :
    (∀ k, r1 = some k ↔ full[k]? = some cb ∧ ∀ m, m < k → full[m]? ≠ some cb)
      ∧ (∀ k, r2 = some k ↔ full[k]? = some cb ∧ ∀ m, k < m → full[m]? ≠ some cb)
      ∧ (r1 = none ↔ cb ∉ full)
      ∧ (r2 = none ↔ cb ∉ full)
      ∧ (∀ k1 k2, r1 = some k1 → r2 = some k2 → k1 ≤ k2) := by
  refine ⟨fun k => ⟨h1s k, fun hk => ?_⟩, fun k => ⟨h2s k, fun hk => ?_⟩,
    ⟨fun hr hmem => ?_, fun hmem => ?_⟩, ⟨fun hr hmem => ?_, fun hmem => ?_⟩,
    fun k1 k2 hk1 hk2 => ?_⟩
  · cases hr : r1 with
    | none => exact absurd hk.1 (h1n hr k)
    | some k1 =>
      obtain ⟨ha, hb⟩ := h1s k1 hr
      have hle1 : ¬ k1 < k := fun hlt => hk.2 k1 hlt ha
      have hle2 : ¬ k < k1 := fun hlt => hb k hlt hk.1
      have : k1 = k := by omega
      rw [this]
  · cases hr : r2 with
    | none => exact absurd hk.1 (h2n hr k)
    | some k2 =>
      obtain ⟨ha, hb⟩ := h2s k2 hr
      have hle1 : ¬ k < k2 := fun hlt => hk.2 k2 hlt ha
      have hle2 : ¬ k2 < k := fun hlt => hb k hlt hk.1
      have : k2 = k := by omega
      rw [this]
  · obtain ⟨m, hm⟩ := List.mem_iff_getElem?.1 hmem
    exact h1n hr m hm
  · cases hr : r1 with
    | none => rfl
    | some k1 => exact absurd (List.mem_iff_getElem?.2 ⟨k1, (h1s k1 hr).1⟩) hmem
  · obtain ⟨m, hm⟩ := List.mem_iff_getElem?.1 hmem
    exact h2n hr m hm
  · cases hr : r2 with
    | none => rfl
    | some k2 => exact absurd (List.mem_iff_getElem?.2 ⟨k2, (h2s k2 hr).1⟩) hmem
  · by_contra hlt
    exact (h1s k1 hk1).2 k2 (by omega) (h2s k2 hk2).1

/-- `ft_strrchr` on a string whose length fits `int`: the last index of the
string, terminator included, that holds the byte sought. -/
theorem ft_strrchr_last (S junk : List Nat) (c : Int) (hS : no_nul S)
    (hlen : S.length < 2147483648) :
    ∃ r : Option Nat, Pushswap.ft_strrchr (S ++ 0 :: junk) c = some (r.map Int.ofNat)
      ∧ (∀ k, r = some k →
          (S ++ [0])[k]? = some (c % 256).toNat
            ∧ ∀ m, k < m → (S ++ [0])[m]? ≠ some (c % 256).toNat)
      ∧ (r = none → ∀ m : Nat, (S ++ [0])[m]? ≠ some (c % 256).toNat) := by
  have hstr := ft_strlen_string S junk hS
  have hint := int_of_size_small S.length hlen
  have hout : ∀ m, S.length < m → (S ++ [0])[m]? = none := by
    intro m hm
    apply List.getElem?_eq_none
    simp
    omega
  by_cases hc : c = 0
  · refine ⟨some S.length, by simp [Pushswap.ft_strrchr, hstr, hc, hint], fun k hk => ?_,
      fun hr => by simp at hr⟩
    simp only [Option.some.injEq] at hk
    subst hk
    refine ⟨by simp [hc], fun m hm => ?_⟩
    rw [hout m hm]
    simp
  · obtain ⟨r, hr, hsome, hnone⟩ :=
      strrchr_loop_last S junk (c % 256).toNat S.length (le_refl _)
    have hneg : ¬ ((S.length : Int) < 0) := by omega
    refine ⟨r, ?_, fun k hk => ?_, fun hr0 m => ?_⟩
    · simp only [Pushswap.ft_strrchr, hstr, hint]
      rw [if_neg hc, if_neg hneg, Int.toNat_ofNat]
      exact hr
    · obtain ⟨h1, h2, h3⟩ := hsome k hk
      refine ⟨h2, fun m hm => ?_⟩
      by_cases hml : m ≤ S.length
      · exact h3 m hm hml
      · rw [hout m (by omega)]
        simp
    · by_cases hml : m ≤ S.length
      · exact hnone hr0 m hml
      · rw [hout m (by omega)]
        simp

/-- `ft_strrchr` on a string whose length does not fit `int`: the length
stored in `len` is negative, the loop is not entered. -/
theorem ft_strrchr_wrapped (S junk : List Nat) (c : Int) (hS : no_nul S) (hc : c ≠ 0)
    (hn : int_of_size S.length < 0) :
    Pushswap.ft_strrchr (S ++ 0 :: junk) c = some none := by
  have hstr := ft_strlen_string S junk hS
  simp only [Pushswap.ft_strrchr, hstr]
  rw [if_neg hc, if_pos hn]

/-- A result that is the first index holding `cb` (NULL when there is none)
is characterised by it. -/
theorem first_facts (full : List Nat) (cb : Nat) (r1 : Option Nat)
    (h1s : ∀ k, r1 = some k → full[k]? = some cb ∧ ∀ m, m < k → full[m]? ≠ some cb)
    (h1n : r1 = none → ∀ m : Nat, full[m]? ≠ some cb) :
    (∀ k, r1 = some k ↔ full[k]? = some cb ∧ ∀ m, m < k → full[m]? ≠ some cb)
      ∧ (r1 = none ↔ cb ∉ full) := by
  refine ⟨fun k => ⟨h1s k, fun hk => ?_⟩, ⟨fun hr hmem => ?_, fun hmem => ?_⟩⟩
  · cases hr : r1 with
    | none => exact absurd hk.1 (h1n hr k)
    | some k1 =>
      obtain ⟨ha, hb⟩ := h1s k1 hr
      have hle1 : ¬ k1 < k := fun hlt => hk.2 k1 hlt ha
      have hle2 : ¬ k < k1 := fun hlt => hb k hlt hk.1
      have : k1 = k := by omega
      rw [this]
  · obtain ⟨m, hm⟩ := List.mem_iff_getElem?.1 hmem
    exact h1n hr m hm
  · cases hr : r1 with
    | none => rfl
    | some k1 => exact absurd (List.mem_iff_getElem?.2 ⟨k1, (h1s k1 hr).1⟩) hmem

/-- C23, with `ft_strrchr` within the range of its `int len`: for every string
`S` and every `c`, with `cb` the byte `(char)c`, `ft_strchr` returns the first
index of the string, terminator included, that holds `cb`, NULL exactly when
`cb` occurs nowhere in the string with its terminator, and the index `strlen`
when `cb = 0`.  When `S` has fewer than `2^31` characters, `ft_strrchr`
returns the last such index, NULL exactly when there is none, the index
`strlen` when `cb = 0`, and the index of `ft_strchr` is never after the one of
`ft_strrchr`. -/
theorem ft_strchr_strrchr_spec (S junk : List Nat) (c : Int) (hS : no_nul S) :
    ∃ r1 : Option Nat,
      Pushswap.ft_strchr (S ++ 0 :: junk) c = some r1
        ∧ (∀ k, r1 = some k ↔
            (S ++ [0])[k]? = some (c % 256).toNat
              ∧ ∀ m, m < k → (S ++ [0])[m]? ≠ some (c % 256).toNat)
        ∧ (r1 = none ↔ (c % 256).toNat ∉ S ++ [0])
        ∧ ((c % 256).toNat = 0 → r1 = some S.length)
        ∧ (S.length < 2147483648 →
            ∃ r2 : Option Nat,
              Pushswap.ft_strrchr (S ++ 0 :: junk) c = some (r2.map Int.ofNat)
                ∧ (∀ k, r2 = some k ↔
                    (S ++ [0])[k]? = some (c % 256).toNat
                      ∧ ∀ m, k < m → (S ++ [0])[m]? ≠ some (c % 256).toNat)
                ∧ (r2 = none ↔ (c % 256).toNat ∉ S ++ [0])
                ∧ ((c % 256).toNat = 0 → r2 = some S.length)
                ∧ (∀ k1 k2, r1 = some k1 → r2 = some k2 → k1 ≤ k2)) := by
  obtain ⟨r1, hr1, h1s, h1n⟩ := ft_strchr_first junk c S hS
  obtain ⟨g1, g3⟩ := first_facts (S ++ [0]) (c % 256).toNat r1 h1s h1n
  have hend : (c % 256).toNat = 0 → (S ++ [0])[S.length]? = some (c % 256).toNat := by
    intro h0
    rw [h0]
    simp
  have hin : (c % 256).toNat = 0 →
      ∀ m, m < S.length → (S ++ [0])[m]? ≠ some (c % 256).toNat := by
    intro h0 m hm h
    rw [List.getElem?_append, if_pos hm, h0] at h
    exact hS 0 (List.mem_iff_getElem?.2 ⟨m, h⟩) rfl
  have hout : ∀ m, S.length < m → (S ++ [0])[m]? ≠ some (c % 256).toNat := by
    intro m hm h
    have hnone : (S ++ [0])[m]? = none := by
      apply List.getElem?_eq_none
      simp
      omega
    rw [hnone] at h
    exact absurd h (by simp)
  refine ⟨r1, hr1, g1, g3, fun h0 => (g1 S.length).2 ⟨hend h0, hin h0⟩, fun hlen => ?_⟩
  obtain ⟨r2, hr2, h2s, h2n⟩ := ft_strrchr_last S junk c hS hlen
  obtain ⟨_, f2, _, f4, f5⟩ :=
    first_last_facts (S ++ [0]) (c % 256).toNat r1 r2 h1s h1n h2s h2n
  exact ⟨r2, hr2, f2, f4, fun h0 => (f2 S.length).2 ⟨hend h0, hout⟩, f5⟩

theorem ft_strchr_strrchr_spec_witness :
    Pushswap.ft_strchr [97, 98, 99, 97, 0] 97 = some (some 0)
      ∧ Pushswap.ft_strrchr [97, 98, 99, 97, 0] 97 = some (some 3)
      ∧ Pushswap.ft_strchr [97, 98, 99, 97, 0] 0 = some (some 4)
      ∧ Pushswap.ft_strrchr [97, 98, 99, 97, 0] 0 = some (some 4)
      ∧ Pushswap.ft_strchr [97, 98, 99, 97, 0] 100 = some none
      ∧ Pushswap.ft_strrchr [97, 98, 99, 97, 0] 100 = some none
      ∧ ∃ r1 r2 : Option Nat,
          Pushswap.ft_strchr ([97, 98, 99, 97] ++ 0 :: []) 97 = some r1
            ∧ Pushswap.ft_strrchr ([97, 98, 99, 97] ++ 0 :: []) 97 = some (r2.map Int.ofNat)
            ∧ (r1 = none ↔ ((97 : Int) % 256).toNat ∉ [97, 98, 99, 97] ++ [0])
            ∧ (∀ k1 k2, r1 = some k1 → r2 = some k2 → k1 ≤ k2) :=
  ⟨by decide, by decide, by decide, by decide, by decide, by decide,
    let ⟨r1, h1, _, h3, _, h5⟩ :=
      ft_strchr_strrchr_spec [97, 98, 99, 97] [] 97 (by decide)
    let ⟨r2, h6, _, _, _, h10⟩ := h5 (by decide)
    ⟨r1, r2, h1, h6, h3, h10⟩⟩

/-- C23, where the claim fails: in a string of `2^31` bytes `a` the
character `a` occurs, yet the length stored in `int len` is `-2^31`, the loop
`while (len >= 0)` is not entered and `ft_strrchr` returns NULL. -/
theorem ft_strrchr_long_string :
    Pushswap.ft_strrchr (List.replicate 2147483648 97 ++ 0 :: []) 97 = some none
      ∧ (97 : Nat) ∈ List.replicate 2147483648 97 ++ [0]
      ∧ ((97 : Int) % 256).toNat = 97
      ∧ no_nul (List.replicate 2147483648 97) := by
  have hnul : no_nul (List.replicate 2147483648 97) := by
    intro b hb
    rw [List.eq_of_mem_replicate hb]
    decide
  have hn : int_of_size (List.replicate 2147483648 97).length < 0 := by
    rw [List.length_replicate]
    decide
  refine ⟨ft_strrchr_wrapped _ [] 97 hnul (by decide) hn, ?_, by decide, hnul⟩
  exact List.mem_append_left _ (List.mem_replicate.2 ⟨by decide, rfl⟩)

/-! ## ft_atoi -/

theorem wrap_int_step (V d : Nat) :
    wrap_int (wrap_int (wrap_int (wrap_int (V : Int) * 10) + ((d + 48 : Nat) : Int)) - 48)
      = wrap_int ((V * 10 + d : Nat) : Int) := by
  unfold wrap_int
  push_cast
  omega

theorem wrap_int_minus (V : Nat) (h : V ≤ 2147483648) :
    wrap_int (-1 * wrap_int (V : Int)) = -(V : Int) := by
  unfold wrap_int
  omega

theorem wrap_int_plus (V : Nat) (h : V ≤ 2147483647) :
    wrap_int (1 * wrap_int (V : Int)) = (V : Int) := by
  unfold wrap_int
  omega

/-- The first loop of `ft_atoi` passes a run of whitespace that is followed by
another character. -/
theorem skip_space_spec (x : Nat) (tl : List Nat) (hx : ¬ (x = 32 ∨ (9 ≤ x ∧ x ≤ 13))) :
    ∀ ws : List Nat, (∀ b ∈ ws, b = 32 ∨ (9 ≤ b ∧ b ≤ 13)) →
      ∀ i, i + ws.length < 2147483648 →
        Pushswap.skip_space (ws ++ x :: tl) i = some (x :: tl, i + ws.length) := by
  intro ws
  induction ws with
  | nil =>
    intro _ i _
    simp [Pushswap.skip_space, hx]
  | cons b ws ih =>
    intro hws i hlen
    have hb := hws b (List.mem_cons_self _ _)
    have hi : i + 1 < 2147483648 := by
      simp only [List.length_cons] at hlen
      omega
    simp only [List.cons_append, Pushswap.skip_space]
    rw [if_pos hb, if_pos hi]
    refine Eq.trans (ih (fun c hc => hws c (List.mem_cons_of_mem _ hc)) (i + 1)
      (by simp only [List.length_cons] at hlen; omega)) ?_
    simp only [List.length_cons]
    congr 2
    omega

/-- The first loop of `ft_atoi` on a run of spaces that takes the index `i`
past `INT_MAX`. -/
theorem skip_space_overflow (rest : List Nat) :
    ∀ n i : Nat, i < 2147483648 → 2147483648 ≤ i + n →
      Pushswap.skip_space (List.replicate n 32 ++ rest) i = none := by
  intro n
  induction n with
  | zero =>
    intro i h1 h2
    omega
  | succ n ih =>
    intro i h1 h2
    simp only [List.replicate_succ, List.cons_append, Pushswap.skip_space]
    rw [if_pos (Or.inl trivial)]
    by_cases hi : i + 1 < 2147483648
    · rw [if_pos hi]
      exact ih (i + 1) hi (by omega)
    · rw [if_neg hi]

/-- The digit loop of `ft_atoi` on a run of digits followed by a character
that is not a digit: `base` goes from `V` to the value of the digits appended
to `V`, reduced to `int`. -/
theorem atoi_digits_spec (x : Nat) (tl : List Nat) (hx : ¬ (48 ≤ x ∧ x ≤ 57)) :
    ∀ ds : List Nat, (∀ d ∈ ds, d < 10) →
      ∀ (V i : Nat), i + ds.length < 2147483648 →
        Pushswap.atoi_digits (ds.map (· + 48) ++ x :: tl) (wrap_int (V : Int)) i
          = some (wrap_int ((ds.foldl (fun acc d => acc * 10 + d) V : Nat) : Int)) := by
  intro ds
  induction ds with
  | nil =>
    intro _ V i _
    by_cases h0 : x = 0
    · simp [Pushswap.atoi_digits, h0]
    · simp only [List.map_nil, List.nil_append, Pushswap.atoi_digits, List.foldl_nil]
      rw [if_neg h0, if_neg hx]
  | cons d ds ih =>
    intro hds V i hlen
    have hd := hds d (List.mem_cons_self _ _)
    have h0 : ¬ (d + 48 = 0) := by omega
    have hdig : 48 ≤ d + 48 ∧ d + 48 ≤ 57 := by omega
    have hi : i + 1 < 2147483648 := by
      simp only [List.length_cons] at hlen
      omega
    simp only [List.map_cons, List.cons_append, Pushswap.atoi_digits, List.foldl_cons]
    rw [if_neg h0, if_pos hdig, if_pos hi, wrap_int_step]
    exact ih (fun c hc => hds c (List.mem_cons_of_mem _ hc)) (V * 10 + d) (i + 1)
      (by simp only [List.length_cons] at hlen; omega)

theorem atoi_digits_zero (x : Nat) (tl ds : List Nat) (hx : ¬ (48 ≤ x ∧ x ≤ 57))
    (hds : ∀ d ∈ ds, d < 10) (i : Nat) (hlen : i + ds.length < 2147483648) :
    Pushswap.atoi_digits (ds.map (· + 48) ++ x :: tl) 0 i
      = some (wrap_int (FtPrintf.value 10 ds : Int)) := by
  have h := atoi_digits_spec x tl hx ds hds 0 i hlen
  have h0 : wrap_int ((0 : Nat) : Int) = 0 := by
    unfold wrap_int
    omega
  rw [h0] at h
  exact h

/-- After the whitespace `ft_atoi` looks at the first other character. -/
theorem ft_atoi_after_space (ws : List Nat) (h : Nat) (R : List Nat)
    (hws : ∀ b ∈ ws, b = 32 ∨ (9 ≤ b ∧ b ≤ 13)) (hh : ¬ (h = 32 ∨ (9 ≤ h ∧ h ≤ 13)))
    (hlen : ws.length < 2147483648) :
    Pushswap.ft_atoi (ws ++ h :: R) =
      if h = 45 then
        (if ws.length + 1 < 2147483648 then
          (Pushswap.atoi_digits R 0 (ws.length + 1)).map fun b => wrap_int (-1 * b)
        else none)
      else if h = 43 then
        (if ws.length + 1 < 2147483648 then
          (Pushswap.atoi_digits R 0 (ws.length + 1)).map fun b => wrap_int (1 * b)
        else none)
      else (Pushswap.atoi_digits (h :: R) 0 ws.length).map fun b => wrap_int (1 * b) := by
  have hs := skip_space_spec h R hh ws hws 0 (by omega)
  rw [Nat.zero_add] at hs
  simp only [Pushswap.ft_atoi, hs]

/-- The value returned by `ft_atoi` on whitespace, an optional sign, digits
and a character that is not a digit. -/
theorem ft_atoi_value (ws sign ds tl : List Nat) (x : Nat)
    (hws : ∀ b ∈ ws, b = 32 ∨ (9 ≤ b ∧ b ≤ 13))
    (hsign : sign = [] ∨ sign = [43] ∨ sign = [45])
    (hds : ∀ d ∈ ds, d < 10)
    (hx : ¬ (48 ≤ x ∧ x ≤ 57))
    (hfirst : sign = [] → ds = [] → ¬ (x = 32 ∨ (9 ≤ x ∧ x ≤ 13)) ∧ x ≠ 43 ∧ x ≠ 45)
    (hrange : FtPrintf.value 10 ds ≤ (if sign = [45] then 2147483648 else 2147483647))
    (hlen : ws.length + sign.length + ds.length < 2147483648) :
    Pushswap.ft_atoi (ws ++ sign ++ ds.map (· + 48) ++ x :: tl)
      = some (if sign = [45] then -(FtPrintf.value 10 ds : Int)
          else (FtPrintf.value 10 ds : Int)) := by
  rcases hsign with h | h | h
  · subst h
    have hne : ¬ (([] : List Nat) = [45]) := by decide
    rw [if_neg hne] at hrange ⊢
    simp only [List.length_nil, Nat.add_zero] at hlen
    have hhead : ∃ h R, ds.map (· + 48) ++ x :: tl = h :: R
        ∧ ¬ (h = 32 ∨ (9 ≤ h ∧ h ≤ 13)) ∧ h ≠ 45 ∧ h ≠ 43 := by
      cases ds with
      | nil =>
        obtain ⟨h1, h2, h3⟩ := hfirst rfl rfl
        exact ⟨x, tl, rfl, h1, h3, h2⟩
      | cons d ds =>
        have hd := hds d (List.mem_cons_self _ _)
        exact ⟨d + 48, ds.map (· + 48) ++ x :: tl, by simp, by omega, by omega, by omega⟩
    obtain ⟨h, R, hR, h1, h2, h3⟩ := hhead
    rw [List.append_nil, List.append_assoc, hR, ft_atoi_after_space ws h R hws h1 (by omega),
      if_neg h2, if_neg h3, ← hR, atoi_digits_zero x tl ds hx hds ws.length hlen,
      Option.map_some', wrap_int_plus _ hrange]
  · subst h
    have hne : ¬ (([43] : List Nat) = [45]) := by decide
    rw [if_neg hne] at hrange ⊢
    simp only [List.length_singleton] at hlen
    rw [List.append_assoc, List.append_assoc, List.singleton_append,
      ft_atoi_after_space ws 43 _ hws (by decide) (by omega),
      if_neg (by decide), if_pos rfl, if_pos (by omega),
      atoi_digits_zero x tl ds hx hds (ws.length + 1) hlen,
      Option.map_some', wrap_int_plus _ hrange]
  · subst h
    rw [if_pos rfl] at hrange ⊢
    simp only [List.length_singleton] at hlen
    rw [List.append_assoc, List.append_assoc, List.singleton_append,
      ft_atoi_after_space ws 45 _ hws (by decide) (by omega),
      if_pos rfl, if_pos (by omega),
      atoi_digits_zero x tl ds hx hds (ws.length + 1) hlen,
      Option.map_some', wrap_int_minus _ hrange]

/-- C25, within the range of the index `int i`: for a string made of
whitespace `ws` (space or codes 9..13), at most one sign, digits `ds` and a
character `x` that is not a digit (the terminator or any other), the
decomposition being the one the scan makes (with no sign and no digit, `x` is
not whitespace nor a sign), the sign-adjusted value being in
`[INT_MIN, INT_MAX]` and the whitespace, sign and digits together at most
`INT_MAX` characters, `ft_atoi` returns the signed value; it returns 0 when
there is no digit, and the result does not depend on what follows `x`. -/
theorem ft_atoi_spec (ws sign ds tl : List Nat) (x : Nat)
    (hws : ∀ b ∈ ws, b = 32 ∨ (9 ≤ b ∧ b ≤ 13))
    (hsign : sign = [] ∨ sign = [43] ∨ sign = [45])
    (hds : ∀ d ∈ ds, d < 10)
    (hx : ¬ (48 ≤ x ∧ x ≤ 57))
    (hfirst : sign = [] → ds = [] → ¬ (x = 32 ∨ (9 ≤ x ∧ x ≤ 13)) ∧ x ≠ 43 ∧ x ≠ 45)
    (hrange : FtPrintf.value 10 ds ≤ (if sign = [45] then 2147483648 else 2147483647))
    (hlen : ws.length + sign.length + ds.length < 2147483648) :
    Pushswap.ft_atoi (ws ++ sign ++ ds.map (· + 48) ++ x :: tl)
        = some (if sign = [45] then -(FtPrintf.value 10 ds : Int)
            else (FtPrintf.value 10 ds : Int))
      ∧ (ds = [] → Pushswap.ft_atoi (ws ++ sign ++ ds.map (· + 48) ++ x :: tl) = some 0)
      ∧ (∀ tl2 : List Nat,
          Pushswap.ft_atoi (ws ++ sign ++ ds.map (· + 48) ++ x :: tl2)
            = Pushswap.ft_atoi (ws ++ sign ++ ds.map (· + 48) ++ x :: tl)) := by
  have hmain := fun t => ft_atoi_value ws sign ds t x hws hsign hds hx hfirst hrange hlen
  refine ⟨hmain tl, fun hnil => ?_, fun tl2 => by rw [hmain tl2, hmain tl]⟩
  rw [hmain tl]
  subst hnil
  have hv : FtPrintf.value 10 [] = 0 := rfl
  rw [hv]
  by_cases h : sign = [45]
  · rw [if_pos h]
    rfl
  · rw [if_neg h]
    rfl

theorem ft_atoi_spec_witness :
    Pushswap.ft_atoi [32, 9, 45, 52, 50, 120, 55, 0] = some (-42)
      ∧ Pushswap.ft_atoi [43, 55, 0] = some 7
      ∧ Pushswap.ft_atoi [45, 120, 0] = some 0
      ∧ Pushswap.ft_atoi (([32, 9] : List Nat) ++ [45]
            ++ ([2, 1, 4, 7, 4, 8, 3, 6, 4, 8] : List Nat).map (· + 48) ++ 120 :: [55, 0])
          = some (if ([45] : List Nat) = [45]
              then -(FtPrintf.value 10 [2, 1, 4, 7, 4, 8, 3, 6, 4, 8] : Int)
              else (FtPrintf.value 10 [2, 1, 4, 7, 4, 8, 3, 6, 4, 8] : Int))
      ∧ FtPrintf.value 10 [2, 1, 4, 7, 4, 8, 3, 6, 4, 8] = 2147483648 :=
  ⟨by decide, by decide, by decide,
    (ft_atoi_spec [32, 9] [45] [2, 1, 4, 7, 4, 8, 3, 6, 4, 8] [55, 0] 120
      (by decide) (by decide) (by decide) (by decide) (by decide) (by decide) (by decide)).1,
    by decide⟩

/-- With `INT_MAX + 1` spaces or more in front, the scan of the whitespace
takes the index `int i` out of range. -/
theorem ft_atoi_overflow (n : Nat) (rest : List Nat) (hn : 2147483648 ≤ n) :
    Pushswap.ft_atoi (List.replicate n 32 ++ rest) = none := by
  have h := skip_space_overflow rest n 0 (by omega) (by omega)
  simp only [Pushswap.ft_atoi, h]

/-- C25, where the claim fails: on `2^31` spaces followed by the digit `1`
the claim gives 1, yet the index `int i` cannot pass `INT_MAX` and the scan of
the whitespace does not reach the digit. -/
theorem ft_atoi_long_whitespace :
    Pushswap.ft_atoi (List.replicate 2147483648 32 ++ [49, 0]) = none
      ∧ (∀ b ∈ List.replicate 2147483648 32, b = 32 ∨ (9 ≤ b ∧ b ≤ 13))
      ∧ FtPrintf.value 10 [1] = 1
      ∧ ([1] : List Nat).map (· + 48) ++ 0 :: [] = [49, 0] := by
  exact ⟨ft_atoi_overflow 2147483648 [49, 0] (le_refl _),
    fun b hb => Or.inl (List.eq_of_mem_replicate hb), rfl, rfl⟩

end Libft
